import Mathlib

/-!
# NX-Crypt: the container codec of `nx-crypt.cpp`

A shallow embedding of `src/nx-crypt.cpp` and the properties of its container
format.

Conventions of the embedding.

* A `char` is modelled by its bit pattern, a `Byte` (a number below 256).  The
  reference target has a signed 8-bit plain `char` in two's complement: the sum
  of two promoted chars narrowed back to `char` has the bit pattern of the sum
  of the two patterns modulo 256, XOR acts bitwise on the patterns, and only the
  widening of a `char` to `unsigned long long` (in `simpleHash`) sees the sign.
* `unsigned long long` and `size_t` counters are natural numbers reduced
  modulo `2 ^ 64` where the source can wrap.
* The input file is an `IStream` (content, position, `eofbit`, `failbit`); the
  output file is the list of bytes written to it.  When the output file has the
  name of the input file, `ofstream` empties the file the input stream reads:
  the stream then delivers only what its buffer holds.
* What lies outside the program is collected in a `World`: the content of the
  input file, whether the output file can be created, the values `rand()`
  returns, the answers typed at the retry prompt, the values found in
  uninitialised `char` variables, and the number of bytes the input stream has
  buffered.
* Indexing the password outside its length, or reducing the key index modulo
  a zero password length, is undefined behaviour: `Run.badIndex`.
* The loops run on fuel.  The chunk loops get the length of the input file
  plus one, which suffices for every positive chunk size.  The password check
  loop gets one pass for every answer on the console and one more: a pass that
  finds the console exhausted and goes on repeats itself without end, and the
  run is `Run.noFuel` (`passwordCheckPasses_enough`).
-/

namespace NXCrypt

/-! ## Bytes -/

/-- The bit pattern of a `char`. -/
abbrev Byte := Fin 256

/-- Bitwise XOR of two chars, narrowed to `char`. -/
def bxor (a b : Byte) : Byte :=
  ⟨a.val ^^^ b.val, Nat.xor_lt_two_pow (n := 8) a.isLt b.isLt⟩

/-- The conversion `(unsigned long long) c` of a signed plain `char`: sign extension. -/
def charToU64 (c : Byte) : Nat :=
  if c.val < 128 then c.val else 2 ^ 64 - 256 + c.val

/-- The conversion `(char) n` (also `(unsigned char) n`) of an unsigned integer: the low byte. -/
def toChar (n : Nat) : Byte := ⟨n % 256, Nat.mod_lt _ (by decide)⟩

/-- The increment `keyIndex++` of an `unsigned long long`. -/
def incr64 (keyIndex : Nat) : Nat := (keyIndex + 1) % 2 ^ 64

/-! ## Configuration constants -/

/-- Source: `const size_t BUFFER_SIZE = 1024 * 1024;` -/
def BUFFER_SIZE : Nat := 1024 * 1024

/-- Source: `const string EXTENSION = ".NullYex";` -/
def EXTENSION : List Byte := [46, 78, 117, 108, 108, 89, 101, 120]

/-- Source: `const string BRANDING = "By_NullYex";` -/
def BRANDING : List Byte := [66, 121, 95, 78, 117, 108, 108, 89, 101, 120]

/-- Source: `charset[]` of `generateSalt`, the 62 alphanumerics and the terminating NUL. -/
def charset : List Byte :=
  [48, 49, 50, 51, 52, 53, 54, 55, 56, 57,
   65, 66, 67, 68, 69, 70, 71, 72, 73, 74, 75, 76, 77,
   78, 79, 80, 81, 82, 83, 84, 85, 86, 87, 88, 89, 90,
   97, 98, 99, 100, 101, 102, 103, 104, 105, 106, 107, 108, 109,
   110, 111, 112, 113, 114, 115, 116, 117, 118, 119, 120, 121, 122,
   0]

/-! ## Leaf functions -/

/-- Source: `generateSalt(int length)`; `rand i` is the value of the `i`-th call of `rand()`. -/
def generateSalt (rand : Nat → Nat) (length : Int) : List Byte :=
  (List.range length.toNat).map fun i => charset.getD (rand i % (charset.length - 1)) 0

/-- Source: `simpleHash`; `hash = ((hash<<5) + hash) + c` on `unsigned long long`,
with `c` a plain `char` widened by sign extension. -/
def simpleHash (data : List Byte) : Nat :=
  data.foldl (fun hash c => (((hash <<< 5) % 2 ^ 64 + hash) % 2 ^ 64 + charToU64 c) % 2 ^ 64) 5381

/-- Source: `string::find_last_of(char)`; `none` is `string::npos`. -/
def find_last_of : List Byte → Byte → Option Nat
  | [], _ => none
  | x :: xs, c =>
    match find_last_of xs c with
    | some i => some (i + 1)
    | none => if x = c then some 0 else none

/-- Source: `cleanPath`. -/
def cleanPath (path : List Byte) : List Byte :=
  if 2 ≤ path.length ∧ path.head? = some 34 ∧ path.getLast? = some 34 then
    (path.drop 1).take (path.length - 2)
  else path

/-- Source: `getFileExtension`. -/
def getFileExtension (path : List Byte) : List Byte :=
  match find_last_of path 46 with
  | some dotPos => path.drop dotPos
  | none => []

/-- Source: `removeExtension`. -/
def removeExtension (path : List Byte) : List Byte :=
  match find_last_of path 46 with
  | some dotPos => path.take dotPos
  | none => path

/-! ## The input stream -/

/-- An `ifstream` opened in binary mode. -/
structure IStream where
  data : List Byte
  pos : Nat
  eofbit : Bool
  failbit : Bool
deriving DecidableEq, Repr

namespace IStream

/-- A freshly opened stream on a file holding `content`. -/
def ofContent (content : List Byte) : IStream := ⟨content, 0, false, false⟩

/-- Source: `good()`. -/
def good (s : IStream) : Bool := !s.eofbit && !s.failbit

/-- Source: `read(buf, n)`: the chars extracted (their number is `gcount()`) and the stream
afterwards.  A stream that is not good extracts nothing and sets `failbit`; a short read
sets `eofbit` and `failbit`. -/
def read (s : IStream) (n : Nat) : List Byte × IStream :=
  if s.good then
    let avail := s.data.drop s.pos
    if n ≤ avail.length then (avail.take n, { s with pos := s.pos + n })
    else (avail, { s with pos := s.data.length, eofbit := true, failbit := true })
  else ([], { s with failbit := true })

/-- Source: `get(c)`: the char extracted, `none` when `c` is left unmodified. -/
def get (s : IStream) : Option Byte × IStream :=
  if s.good then
    match s.data[s.pos]? with
    | some c => (some c, { s with pos := s.pos + 1 })
    | none => (none, { s with eofbit := true, failbit := true })
  else (none, { s with failbit := true })

/-- Source: `clear()`. -/
def clear (s : IStream) : IStream := { s with eofbit := false, failbit := false }

/-- Source: `tellg()`, `-1` on a failed stream. -/
def tellg (s : IStream) : Int := if s.failbit then -1 else (s.pos : Int)

/-- Source: `seekg(p)`: clears `eofbit`, does nothing on a failed stream, fails outside the file. -/
def seekg (s : IStream) (p : Int) : IStream :=
  if s.failbit then { s with eofbit := false }
  else if 0 ≤ p ∧ p ≤ (s.data.length : Int) then { s with pos := p.toNat, eofbit := false }
  else { s with eofbit := false, failbit := true }

/-- The stream after an `ofstream` opened on the name of its file has emptied that file: it
still delivers the `kept` bytes past its position that its buffer holds, and finds the end of
the file behind them. -/
def emptied (s : IStream) (kept : Nat) : IStream :=
  { s with data := s.data.take (s.pos + kept) }

end IStream

/-! ## Runs, messages and outcomes -/

/-- How a piece of the program ends: with a value, in undefined behaviour on the password
index, or without having finished on the fuel given. -/
inductive Run (α : Type)
  | ok (a : α)
  | badIndex
  | noFuel
deriving DecidableEq, Repr

/-- Sequencing of runs. -/
def Run.bind {α β : Type} (r : Run α) (f : α → Run β) : Run β :=
  match r with
  | .ok a => f a
  | .badIndex => .badIndex
  | .noFuel => .noFuel

/-- The lines `processFile` prints on `cout`. -/
inductive Msg
  | debugFileCheckFailed
  | encPasswordEmpty
  | targetOutput (outputFileName : List Byte)
  | couldNotCreateOutput
  | encrypting
  | fileTooShort
  | invalidFormat
  | decPasswordEmpty
  | fileCorrupted
  | passwordVerified
  | accessDenied
  | retryPrompt
  | enterPasswordAgain
  | abortedByUser
  | restoredExtension (ext : List Byte)
  | decrypting
deriving DecidableEq, Repr

/-- The output file once `ofstream` has created it: its name and the bytes written. -/
structure OutFile where
  name : List Byte
  bytes : List Byte
deriving DecidableEq, Repr

/-- What a call of `processFile` leaves behind: the value returned, the console lines, the
output file (if created) and the number of calls of `rand()`. -/
structure Outcome where
  ret : Bool
  console : List Msg
  output : Option OutFile
  randCalls : Nat
deriving DecidableEq, Repr

/-- The surroundings of one call of `processFile`. -/
structure World where
  /-- Content of the file named `inputFileName`; `none` when it cannot be opened. -/
  file : Option (List Byte)
  /-- Whether the output file can be created. -/
  canCreate : Bool
  /-- Value returned by the `i`-th call of `rand()`. -/
  rand : Nat → Nat
  /-- Answers at the retry prompt: the char read into `retryChoice` and the line `getline`
  reads next (the password as it was, when the input ends right behind the char).  Once the
  list is exhausted both extractions fail and leave their variables as they are. -/
  answers : List (Byte × List Byte)
  /-- Value held by the uninitialised `char` a failed `get` leaves unmodified, by key index. -/
  indet : Nat → Byte
  /-- Value held by `retryChoice`, declared without initialiser, when the extraction into it
  fails before any has succeeded. -/
  staleChoice : Byte
  /-- Number of bytes past its position that the input stream holds in its buffer when the
  decrypt branch creates the output file. -/
  buffered : Nat

/-! ## The keystream -/

/-- Source: `password[keyIndex % passwordLength]`. -/
def keyChar (password : List Byte) (passwordLength keyIndex : Nat) : Run Byte :=
  if passwordLength = 0 then .badIndex
  else
    match password[keyIndex % passwordLength]? with
    | some c => .ok c
    | none => .badIndex

/-- Source: `size_t pIndex = keyIndex % passwordLength;`. -/
def startIndex (passwordLength keyIndex : Nat) : Run Nat :=
  if passwordLength = 0 then .badIndex else .ok (keyIndex % passwordLength)

/-- Source: `password[pIndex]`. -/
def passwordAt (password : List Byte) (pIndex : Nat) : Run Byte :=
  match password[pIndex]? with
  | some c => .ok c
  | none => .badIndex

/-- Source: `baseKey + (char)keyIndex`, narrowed to `char`. -/
def rollingKey (baseKey : Byte) (keyIndex : Nat) : Byte :=
  toChar (baseKey.val + (toChar keyIndex).val)

/-- Source: the inner `for` loop of both body loops, over the `bytesRead` chars of `buffer`:
the transformed chars and the final `pIndex` and `keyIndex`. -/
def xorChunk (password : List Byte) (passwordLength : Nat) :
    List Byte → Nat → Nat → Run (List Byte × Nat × Nat)
  | [], pIndex, keyIndex => .ok ([], pIndex, keyIndex)
  | b :: bs, pIndex, keyIndex =>
    (passwordAt password pIndex).bind fun baseKey =>
    let pIndex1 := if pIndex + 1 = passwordLength then 0 else pIndex + 1
    (xorChunk password passwordLength bs pIndex1 (incr64 keyIndex)).bind fun r =>
    .ok (bxor b (rollingKey baseKey keyIndex) :: r.1, r.2.1, r.2.2)

/-! ## The stored digest -/

/-- The 8 raw bytes of an `unsigned long long`, least significant first. -/
def u64Bytes (h : Nat) : List Byte :=
  (List.range 8).map fun i => toChar (h / 256 ^ i)

/-- The `unsigned long long` held in raw bytes, least significant first. -/
def u64OfBytes (bs : List Byte) : Nat :=
  bs.foldr (fun b acc => b.val + 256 * acc) 0

/-! ## Encryption -/

/-- Source: the `for (char c : originalExtension)` loop: the chars put and the final
`keyIndex`. -/
def encryptExtension (password : List Byte) (passwordLength : Nat) :
    List Byte → Nat → Run (List Byte × Nat)
  | [], keyIndex => .ok ([], keyIndex)
  | c :: cs, keyIndex =>
    (keyChar password passwordLength keyIndex).bind fun k =>
    (encryptExtension password passwordLength cs (incr64 keyIndex)).bind fun r =>
    .ok (bxor c (rollingKey k keyIndex) :: r.1, r.2)

/-- Source: the `while (inputFile.read(...) || inputFile.gcount() > 0)` loop of the encrypt
branch: the bytes written and the final `pIndex` and `keyIndex`. -/
def encryptBody (chunkSize : Nat) (password : List Byte) (passwordLength : Nat) :
    Nat → IStream → Nat → Nat → Run (List Byte × Nat × Nat)
  | 0, _, _, _ => .noFuel
  | fuel + 1, inputFile, pIndex, keyIndex =>
    let rd := inputFile.read chunkSize
    if !rd.2.failbit || 0 < rd.1.length then
      (xorChunk password passwordLength rd.1 pIndex keyIndex).bind fun x =>
      if rd.2.eofbit then .ok (BRANDING ++ x.1, x.2.1, x.2.2)
      else
        (encryptBody chunkSize password passwordLength fuel rd.2 x.2.1 x.2.2).bind fun r =>
        .ok (BRANDING ++ x.1 ++ r.1, r.2.1, r.2.2)
    else .ok ([], pIndex, keyIndex)

/-- Source: lines 121-185 of the encrypt branch, from the header to the end of the body
loop: the bytes written to the output file and the final `pIndex` and `keyIndex`. -/
def encryptStream (chunkSize : Nat) (rand : Nat → Nat) (originalExtension content : List Byte)
    (password : List Byte) : Run (List Byte × Nat × Nat) :=
  let passwordLength := password.length
  let salt := generateSalt rand 8
  let passHash := simpleHash (password ++ salt)
  let extLen := toChar originalExtension.length
  (keyChar password passwordLength 0).bind fun k0 =>
  let encryptedLen := bxor extLen (rollingKey k0 0)
  (encryptExtension password passwordLength originalExtension (incr64 0)).bind fun e =>
  (startIndex passwordLength e.2).bind fun pIndex =>
  (encryptBody chunkSize password passwordLength (content.length + 1)
      (IStream.ofContent content) pIndex e.2).bind fun b =>
  .ok (BRANDING ++ salt ++ u64Bytes passHash ++ [encryptedLen] ++ e.1 ++ b.1, b.2.1, b.2.2)

/-- Source: `ofstream outputFile(outputFileName, ios::binary)` of the encrypt branch, seen
from the input stream, which has read nothing yet: the bytes it will deliver.  When the
output file has the name of the input file, the file is emptied and the stream delivers
nothing. -/
def delivered (inputFileName outputFileName content : List Byte) : List Byte :=
  if outputFileName = inputFileName then [] else content

/-- Source: the encrypt branch of `processFile`. -/
def encryptBranch (chunkSize : Nat) (w : World) (content inputFileName password : List Byte) :
    Run Outcome :=
  if password = [] then .ok ⟨false, [.encPasswordEmpty], none, 0⟩
  else
    let originalExtension := getFileExtension inputFileName
    let basePath := removeExtension inputFileName
    let outputFileName := basePath ++ EXTENSION
    if !w.canCreate then
      .ok ⟨false, [.targetOutput outputFileName, .couldNotCreateOutput], none, 0⟩
    else
      (encryptStream chunkSize w.rand originalExtension
        (delivered inputFileName outputFileName content) password).bind fun r =>
      .ok ⟨true, [.targetOutput outputFileName, .encrypting], some ⟨outputFileName, r.1⟩, 8⟩

/-! ## Decryption -/

/-- One pass through the body of the password check loop. -/
inductive Check
  | accepted (inputFile : IStream)
  | corrupted
  | denied (inputFile : IStream)
  | emptyPassword
deriving DecidableEq, Repr

/-- Source: lines 207-241, one candidate password against the stored salt and hash. -/
def checkPassword (inputFile : IStream) (authStartPos : Int) (password : List Byte) : Check :=
  if password = [] then .emptyPassword
  else
    let s := (inputFile.clear).seekg authStartPos
    let saltRd := s.read 8
    if saltRd.2.failbit then .corrupted
    else
      let hashRd := saltRd.2.read 8
      if hashRd.2.failbit then .corrupted
      else
        let storedHash := u64OfBytes hashRd.1
        let inputHash := simpleHash (password ++ saltRd.1)
        if inputHash = storedHash then .accepted hashRd.2 else .denied hashRd.2

/-- How the password check loop is left: with a verified password, by a `return false`, or
not at all on the fuel given. -/
inductive Auth
  | granted (console : List Msg) (password : List Byte) (passwordLength keyIndex : Nat)
      (inputFile : IStream)
  | failed (console : List Msg)
  | noFuel
deriving DecidableEq, Repr

/-- Source: `cin >> retryChoice`: the char of the next answer; on an exhausted console the
extraction fails and the variable stays as it is. -/
def readChoice (answers : List (Byte × List Byte)) (retryChoice : Byte) : Byte :=
  match answers with
  | [] => retryChoice
  | a :: _ => a.1

/-- Source: `getline(cin, password)`: the line of the next answer; on an exhausted console
the extraction fails and the password stays as it is. -/
def readLine (answers : List (Byte × List Byte)) (password : List Byte) : List Byte :=
  match answers with
  | [] => password
  | a :: _ => a.2

/-- Source: the `while (true)` password check loop with its retry logic, for at most `fuel`
passes.  `retryChoice` is what the storage of that variable holds when a pass begins: the
variable is declared without initialiser, and a failed extraction leaves it as it is. -/
def passwordCheckPasses (authStartPos : Int) :
    Nat → List (Byte × List Byte) → Byte → IStream → List Byte → List Msg → Auth
  | 0, _, _, _, _, _ => .noFuel
  | fuel + 1, answers, retryChoice, inputFile, password, console =>
    match checkPassword inputFile authStartPos password with
    | .accepted s => .granted (console ++ [.passwordVerified]) password password.length 0 s
    | .corrupted => .failed (console ++ [.fileCorrupted])
    | .denied s =>
      if readChoice answers retryChoice = 121 ∨ readChoice answers retryChoice = 89 then
        passwordCheckPasses authStartPos fuel answers.tail (readChoice answers retryChoice) s
          (readLine answers password)
          (console ++ [.accessDenied, .retryPrompt, .enterPasswordAgain])
      else .failed (console ++ [.accessDenied, .retryPrompt, .abortedByUser])
    | .emptyPassword =>
      if readChoice answers retryChoice = 121 ∨ readChoice answers retryChoice = 89 then
        passwordCheckPasses authStartPos fuel answers.tail (readChoice answers retryChoice)
          inputFile (readLine answers password)
          (console ++ [.decPasswordEmpty, .retryPrompt, .enterPasswordAgain])
      else .failed (console ++ [.decPasswordEmpty, .retryPrompt, .abortedByUser])

/-- Source: the `while (true)` password check loop, on the fuel of one pass for every answer
on the console and one more.  A pass that goes on takes an answer from the console; on an
exhausted console it leaves every variable as it was and repeats itself, so that more fuel
changes nothing (`passwordCheckPasses_enough`) and `Auth.noFuel` is a loop without end. -/
def passwordCheckLoop (authStartPos : Int) (answers : List (Byte × List Byte))
    (retryChoice : Byte) (inputFile : IStream) (password : List Byte) (console : List Msg) :
    Auth :=
  passwordCheckPasses authStartPos (answers.length + 1) answers retryChoice inputFile password
    console

/-- Source: the `for (int i = 0; i < extLen; i++)` loop: the restored extension, the stream
and the final `keyIndex`. -/
def readExtension (indet : Nat → Byte) (password : List Byte) (passwordLength : Nat) :
    Nat → IStream → Nat → Run (List Byte × IStream × Nat)
  | 0, inputFile, keyIndex => .ok ([], inputFile, keyIndex)
  | n + 1, inputFile, keyIndex =>
    let g := inputFile.get
    let c := g.1.getD (indet keyIndex)
    (keyChar password passwordLength keyIndex).bind fun k =>
    (readExtension indet password passwordLength n g.2 (incr64 keyIndex)).bind fun r =>
    .ok (bxor c (rollingKey k keyIndex) :: r.1, r.2.1, r.2.2)

/-- Source: the `while (true)` loop of the decrypt branch: the bytes written. -/
def decryptBody (chunkSize : Nat) (password : List Byte) (passwordLength : Nat) :
    Nat → IStream → Nat → Nat → Run (List Byte)
  | 0, _, _, _ => .noFuel
  | fuel + 1, inputFile, pIndex, keyIndex =>
    let skip := inputFile.read BRANDING.length
    if skip.2.failbit then .ok []
    else
      let rd := skip.2.read chunkSize
      if !rd.2.failbit || 0 < rd.1.length then
        (xorChunk password passwordLength rd.1 pIndex keyIndex).bind fun x =>
        if rd.2.eofbit then .ok x.1
        else
          (decryptBody chunkSize password passwordLength fuel rd.2 x.2.1 x.2.2).bind fun r =>
          .ok (x.1 ++ r)
      else if rd.2.eofbit then .ok []
      else decryptBody chunkSize password passwordLength fuel rd.2 pIndex keyIndex

/-- Source: `ofstream outputFile(outputFileName, ios::binary)` of the decrypt branch, seen
from the input stream: when the output file has the name of the input file, the file is
emptied and the stream delivers only the bytes its buffer holds. -/
def afterCreate (inputFileName outputFileName : List Byte) (buffered : Nat) (inputFile : IStream) :
    IStream :=
  if outputFileName = inputFileName then inputFile.emptied buffered else inputFile

/-- Source: lines 259-317 of the decrypt branch, from the hidden extension to the end of the
body loop, entered with the variables the password check loop leaves. -/
def decryptAfterCheck (chunkSize : Nat) (w : World) (inputFileName : List Byte)
    (console : List Msg) (password : List Byte) (passwordLength keyIndex : Nat)
    (inputFile : IStream) : Run Outcome :=
  let g := inputFile.get
  let encryptedLen := g.1.getD (w.indet keyIndex)
  (keyChar password passwordLength keyIndex).bind fun k0 =>
  let extLen := bxor encryptedLen (rollingKey k0 keyIndex)
  (readExtension w.indet password passwordLength extLen.val g.2 (incr64 keyIndex)).bind
    fun e =>
  let restoredExtension := e.1
  let outputFileName := removeExtension inputFileName ++ restoredExtension
  if !w.canCreate then
    .ok ⟨false, console ++ [.restoredExtension restoredExtension, .couldNotCreateOutput],
      none, 0⟩
  else
    let inputFile := afterCreate inputFileName outputFileName w.buffered e.2.1
    (startIndex passwordLength e.2.2).bind fun pIndex =>
    (decryptBody chunkSize password passwordLength (inputFile.data.length + 1)
        inputFile pIndex e.2.2).bind fun body =>
    .ok ⟨true, console ++ [.restoredExtension restoredExtension, .decrypting],
      some ⟨outputFileName, body⟩, 0⟩

/-- Source: the decrypt branch of `processFile`; `Run.noFuel` when the password check loop is
never left. -/
def decryptBranch (chunkSize : Nat) (w : World) (content inputFileName password : List Byte) :
    Run Outcome :=
  let sigRd := (IStream.ofContent content).read BRANDING.length
  if sigRd.2.failbit then .ok ⟨false, [.fileTooShort], none, 0⟩
  else if sigRd.1 ≠ BRANDING then .ok ⟨false, [.invalidFormat], none, 0⟩
  else
    let authStartPos := sigRd.2.tellg
    match passwordCheckLoop authStartPos w.answers w.staleChoice sigRd.2 password [] with
    | .failed console => .ok ⟨false, console, none, 0⟩
    | .noFuel => .noFuel
    | .granted console password passwordLength keyIndex inputFile =>
      decryptAfterCheck chunkSize w inputFileName console password passwordLength keyIndex
        inputFile

/-! ## `processFile` -/

/-- Source: `processFile`, with the chunk size as a parameter. -/
def processFileWith (chunkSize : Nat) (w : World) (inputFileName password : List Byte)
    (encryptMode : Bool) : Run Outcome :=
  match w.file with
  | none => .ok ⟨false, [.debugFileCheckFailed], none, 0⟩
  | some content =>
    if encryptMode then encryptBranch chunkSize w content inputFileName password
    else decryptBranch chunkSize w content inputFileName password

/-- Source: `processFile`. -/
def processFile (w : World) (inputFileName password : List Byte) (encryptMode : Bool) :
    Run Outcome :=
  processFileWith BUFFER_SIZE w inputFileName password encryptMode

/-- Source: `isEncryptedByNullyex`, on the content of the file at `path` (`none` when it
cannot be opened). -/
def isEncryptedByNullyex (file : Option (List Byte)) : Bool :=
  match file with
  | none => false
  | some content =>
    let rd := (IStream.ofContent content).read BRANDING.length
    if !rd.2.failbit then rd.1 = BRANDING else false

/-! ## Closed forms used in the statements -/

/-- The password char the keystream uses at key index `i`: `P[i mod len(P)]`. -/
def pwAt (P : List Byte) (i : Nat) : Byte := P.getD (i % P.length) 0

/-- The keystream byte `K(i) = (P[i mod len(P)] + (i mod 256)) mod 256`. -/
def K (P : List Byte) (i : Nat) : Byte := rollingKey (pwAt P i) i

/-- The body transform in closed form: each byte XOR-ed with the rolling key of the running
`pIndex` and `keyIndex`. -/
def cipher (P : List Byte) : List Byte → Nat → Nat → List Byte
  | [], _, _ => []
  | b :: bs, pIndex, keyIndex =>
    bxor b (rollingKey (P.getD pIndex 0) keyIndex) ::
      cipher P bs (if pIndex + 1 = P.length then 0 else pIndex + 1) (incr64 keyIndex)

/-- The extension transform in closed form. -/
def cipherExt (P : List Byte) : List Byte → Nat → List Byte
  | [], _ => []
  | c :: cs, keyIndex =>
    bxor c (K P keyIndex) :: cipherExt P cs (incr64 keyIndex)

/-- The number of chunks of `n` bytes that cover `len` bytes: `ceil(len / n)`. -/
def segmentCount (n len : Nat) : Nat := (len + n - 1) / n

/-- The `i`-th consecutive chunk of `n` bytes of `xs` (the last one possibly shorter). -/
def chunkAt (n : Nat) (xs : List Byte) (i : Nat) : List Byte := (xs.drop (i * n)).take n

/-- The consecutive chunks of `n` bytes of `xs`. -/
def chunks (n : Nat) (xs : List Byte) : List (List Byte) :=
  (List.range (segmentCount n xs.length)).map (chunkAt n xs)

/-- The body segments: every chunk preceded by the unmodified tag. -/
def segments (n : Nat) (xs : List Byte) : List Byte :=
  ((chunks n xs).map fun c => BRANDING ++ c).flatten

/-- The key index at which the body starts: one length byte and the extension bytes after 0. -/
def keyStart (E : List Byte) : Nat := (1 + E.length) % 2 ^ 64

/-- The obfuscated length byte. -/
def lengthByte (P E : List Byte) : Byte := bxor (toChar E.length) (K P 0)

/-- The ciphertext of the whole body, before it is cut into segments. -/
def cipherBody (P E B : List Byte) : List Byte :=
  cipher P B (keyStart E % P.length) (keyStart E)

/-- The container in closed form: tag, salt, digest, length byte, extension, segments. -/
def container (n : Nat) (rand : Nat → Nat) (P E B : List Byte) : List Byte :=
  BRANDING ++ generateSalt rand 8 ++ u64Bytes (simpleHash (P ++ generateSalt rand 8))
    ++ [lengthByte P E] ++ cipherExt P E 1 ++ segments n (cipherBody P E B)

/-- A world with nothing in it: no file, no console input, `rand()` constantly 0. -/
def World.blank : World := ⟨none, false, fun _ => 0, [], fun _ => 0, 0, 0⟩

/-- The password `hunter2` of the specification's scenario. -/
def hunter2 : List Byte := [104, 117, 110, 116, 101, 114, 50]

/-- The 10 bytes `0x00..0x09` of the specification's scenario. -/
def tenBytes : List Byte := [0, 1, 2, 3, 4, 5, 6, 7, 8, 9]

/-- The path `data`, which has no extension. -/
def dataPath : List Byte := [100, 97, 116, 97]

/-- Whether the console holds an answer for the retry prompt and it declines another try:
its char is neither `y` nor `Y`. -/
def declines (answers : List (Byte × List Byte)) : Bool :=
  match answers with
  | [] => false
  | (retryChoice, _) :: _ => !(retryChoice = 121 || retryChoice = 89)

/-- The digest as the specification words it: from 5381, `hash*33 + c` for each byte `c`
taken as its value 0..255, modulo `2 ^ 64`. -/
def digestSpec (data : List Byte) : Nat :=
  data.foldl (fun hash c => (hash * 33 + c.val) % 2 ^ 64) 5381

/-- The console lines printed when the password check loop is left. -/
def Auth.lines : Auth → List Msg
  | .granted console _ _ _ _ => console
  | .failed console => console
  | .noFuel => []

/-- Whether a run of `processFile` accepted the first candidate password: it returned, and
its first console line is the verification line. -/
def acceptsFirst (r : Run Outcome) : Bool :=
  match r with
  | .ok o => o.console.head? = some .passwordVerified
  | _ => false

/-- The path `./aaa...a` with 254 letters: a file name of 254 bytes in the current
directory.  `find_last_of('.')` finds the leading dot, so its extension is all its 256
bytes. -/
def longExtPath : List Byte := [46, 47] ++ List.replicate 254 97

/-- The bytes of the output file of a run, if it returned and created one. -/
def written (r : Run Outcome) : Option (List Byte) :=
  match r with
  | .ok o => o.output.map fun f => f.bytes
  | _ => none

/-- The value a run returned, if it returned. -/
def returned (r : Run Outcome) : Option Bool :=
  match r with
  | .ok o => some o.ret
  | _ => none

/-- The console lines of a run that returned. -/
def printed (r : Run Outcome) : List Msg :=
  match r with
  | .ok o => o.console
  | _ => []

/-- The container of the empty file `a.txt` under the password `p` and the salt `00000000`,
cut after 29 bytes: the 26 header bytes, the length byte, and 2 of the 4 extension bytes. -/
def truncatedContainer : List Byte :=
  (container BUFFER_SIZE World.blank.rand [112] [46, 116, 120, 116] []).take 29

/-- The candidate password `wrong` of the specification's scenario. -/
def wrongPassword : List Byte := [119, 114, 111, 110, 103]

/-- The password `PVQFYD]VT?HPH`, whose digest is 5381, the digest of the empty string. -/
def seedPassword : List Byte := [80, 86, 81, 70, 89, 68, 93, 86, 84, 63, 72, 80, 72]

/-- The file `processFile` writes for the 10 bytes `0x00..0x09` at the path `data` under the
password `PVQFYD]VT?HPH`, with the salt `00000000`. -/
def seedContainer : Option (List Byte) :=
  written (processFile { World.blank with file := some tenBytes, canCreate := true }
    dataPath seedPassword true)

/-- A candidate the password check rejects against a stored salt and digest: it is empty,
or its salted digest is not the stored one. -/
def rejectedBy (salt digest candidate : List Byte) : Prop :=
  candidate = [] ∨ simpleHash (candidate ++ salt) ≠ u64OfBytes digest

/-- The answer at the retry prompt asks for another try. -/
def saysYes (retryChoice : Byte) : Prop := retryChoice = 121 ∨ retryChoice = 89

/-- The digest bytes `processFile` stores for the password `hunter2` and the salt
`00000000`. -/
def hunter2Digest : List Byte := [205, 99, 241, 164, 154, 4, 196, 94]

/-- The salt `00000000`. -/
def zeroSalt : List Byte := [48, 48, 48, 48, 48, 48, 48, 48]

/-- Whether the stream position `i` lies in one of the 10-byte fields the body loop skips,
for a body that starts at position `start` and is read in chunks of `n` bytes: the fields
start at `start`, `start + (10 + n)`, `start + 2 * (10 + n)`, and so on. -/
def tagPosition (start n i : Nat) : Bool :=
  decide (start ≤ i) && decide ((i - start) % (10 + n) < 10)

/-- The stream as the decrypt branch holds it once it has read the hidden extension: after
the tag, the password check loop and the extension field (lines 189-276); `none` when the
branch does not get there. -/
def bodyStream (w : World) (content password : List Byte) : Option IStream :=
  let sigRd := (IStream.ofContent content).read BRANDING.length
  if sigRd.2.failbit then none
  else if sigRd.1 ≠ BRANDING then none
  else
    match passwordCheckLoop sigRd.2.tellg w.answers w.staleChoice sigRd.2 password [] with
    | .failed _ => none
    | .noFuel => none
    | .granted _ password passwordLength keyIndex inputFile =>
      let g := inputFile.get
      let encryptedLen := g.1.getD (w.indet keyIndex)
      match keyChar password passwordLength keyIndex with
      | .ok k0 =>
        match readExtension w.indet password passwordLength
            (bxor encryptedLen (rollingKey k0 keyIndex)).val g.2 (incr64 keyIndex) with
        | .ok e => some e.2.1
        | _ => none
      | _ => none
/-- A stream for the password `hunter2` with the salt `00000000`, an empty hidden extension
and one segment whose 10-byte field holds the tag itself. -/
def taggedStream : List Byte :=
  BRANDING ++ zeroSalt ++ hunter2Digest ++ [104] ++ BRANDING ++ [118]

/-- The stream `taggedStream` with the 10-byte field of its segment overwritten. -/
def retaggedStream : List Byte :=
  BRANDING ++ zeroSalt ++ hunter2Digest ++ [104] ++ tenBytes ++ [118]

/-- The file name `a.NullYex`. -/
def aliasPath : List Byte := 97 :: EXTENSION

/-- The five bytes of `hello`. -/
def hello : List Byte := [104, 101, 108, 108, 111]

/-- A world whose console holds one answer for the retry prompt: `n`, and an empty line. -/
def World.refusing : World := { World.blank with answers := [(110, [])] }

/-- The container of the 3 bytes `1, 2, 3` under the password `p` and the salt `00000000`,
laid out in chunks of 2 bytes: the header with an empty extension field, the tag and 2 bytes,
the tag and 1 byte. -/
def twoChunkContainer : List Byte :=
  BRANDING ++ zeroSalt ++ [149, 164, 72, 23, 145, 210, 119, 3] ++ [112]
    ++ BRANDING ++ [112, 112] ++ BRANDING ++ [112]

/-- The path `d.NullYex`. -/
def containerPath : List Byte := 100 :: EXTENSION

/-! ## Basic facts -/

theorem bxor_cancel (a k : Byte) : bxor (bxor a k) k = a := by
  apply Fin.ext
  simp [bxor, Nat.xor_assoc]

theorem keyChar_ok (P : List Byte) (hP : P ≠ []) (i : Nat) :
    keyChar P P.length i = .ok (pwAt P i) := by
  have hlen : 0 < P.length := List.length_pos.mpr hP
  have hlt : i % P.length < P.length := Nat.mod_lt _ hlen
  simp [keyChar, pwAt, Nat.ne_of_gt hlen, List.getElem?_eq_getElem hlt,
    List.getD_eq_getElem _ _ hlt]

theorem passwordAt_ok (P : List Byte) (p : Nat) (hp : p < P.length) :
    passwordAt P p = .ok (P.getD p 0) := by
  simp [passwordAt, List.getElem?_eq_getElem hp, List.getD_eq_getElem _ _ hp]

theorem nextP_lt (P : List Byte) (p : Nat) (hp : p < P.length) :
    (if p + 1 = P.length then 0 else p + 1) < P.length := by
  split <;> omega

theorem nextP_eq (P : List Byte) (p : Nat) (hp : p < P.length) :
    (if p + 1 = P.length then 0 else p + 1) = (p + 1) % P.length := by
  split
  · next h => rw [h, Nat.mod_self]
  · next h => rw [Nat.mod_eq_of_lt (by omega)]

theorem incr64_lt (k : Nat) : incr64 k < 2 ^ 64 := Nat.mod_lt _ (by decide)

theorem xorChunk_eq (P : List Byte) (bs : List Byte) :
    ∀ (p k : Nat), p < P.length → k < 2 ^ 64 →
      xorChunk P P.length bs p k
        = .ok (cipher P bs p k, (p + bs.length) % P.length, (k + bs.length) % 2 ^ 64) := by
  induction bs with
  | nil =>
    intro p k hp hk
    simp only [xorChunk, cipher, List.length_nil, Nat.add_zero, Nat.mod_eq_of_lt hp,
      Nat.mod_eq_of_lt hk]
  | cons b bs ih =>
    intro p k hp hk
    have h1 := ih _ (incr64 k) (nextP_lt P p hp) (incr64_lt k)
    simp only [xorChunk, passwordAt_ok P p hp, Run.bind, h1, cipher, List.length_cons]
    rw [nextP_eq P p hp]
    simp only [incr64, Nat.add_mod_mod, Nat.mod_add_mod]
    congr 3
    · rw [Nat.add_assoc, Nat.add_comm 1]
    · rw [Nat.add_assoc, Nat.add_comm 1]

theorem cipher_length (P : List Byte) (bs : List Byte) :
    ∀ p k, (cipher P bs p k).length = bs.length := by
  induction bs with
  | nil => intro p k; rfl
  | cons b bs ih => intro p k; simp [cipher, ih]

theorem cipher_cipher (P : List Byte) (bs : List Byte) :
    ∀ p k, cipher P (cipher P bs p k) p k = bs := by
  induction bs with
  | nil => intro p k; rfl
  | cons b bs ih => intro p k; simp [cipher, ih, bxor_cancel]

theorem cipher_append (P : List Byte) (as bs : List Byte) :
    ∀ p k, p < P.length → k < 2 ^ 64 →
      cipher P (as ++ bs) p k
        = cipher P as p k
          ++ cipher P bs ((p + as.length) % P.length) ((k + as.length) % 2 ^ 64) := by
  induction as with
  | nil =>
    intro p k hp hk
    simp only [List.nil_append, cipher, List.length_nil, Nat.add_zero, Nat.mod_eq_of_lt hp,
      Nat.mod_eq_of_lt hk]
  | cons a as ih =>
    intro p k hp hk
    have h1 := ih _ (incr64 k) (nextP_lt P p hp) (incr64_lt k)
    rw [List.cons_append, cipher, cipher, h1, List.cons_append, nextP_eq P p hp]
    simp only [incr64, Nat.add_mod_mod, Nat.mod_add_mod, List.length_cons]
    congr 3
    · rw [Nat.add_assoc, Nat.add_comm 1]
    · rw [Nat.add_assoc, Nat.add_comm 1]

theorem cipherExt_length (P : List Byte) (cs : List Byte) :
    ∀ k, (cipherExt P cs k).length = cs.length := by
  induction cs with
  | nil => intro k; rfl
  | cons c cs ih => intro k; simp [cipherExt, ih]

theorem cipherExt_cipherExt (P : List Byte) (cs : List Byte) :
    ∀ k, cipherExt P (cipherExt P cs k) k = cs := by
  induction cs with
  | nil => intro k; rfl
  | cons c cs ih => intro k; simp [cipherExt, ih, bxor_cancel]

theorem encryptExtension_eq (P : List Byte) (hP : P ≠ []) (cs : List Byte) :
    ∀ k, k < 2 ^ 64 →
      encryptExtension P P.length cs k = .ok (cipherExt P cs k, (k + cs.length) % 2 ^ 64) := by
  induction cs with
  | nil =>
    intro k hk
    simp only [encryptExtension, cipherExt, List.length_nil, Nat.add_zero, Nat.mod_eq_of_lt hk]
  | cons c cs ih =>
    intro k hk
    simp only [encryptExtension, keyChar_ok P hP, Run.bind, ih _ (incr64_lt k), cipherExt,
      List.length_cons]
    simp only [incr64, Nat.add_mod_mod, Nat.mod_add_mod]
    congr 3
    rw [Nat.add_assoc, Nat.add_comm 1]

/-! ### Chunks and segments -/

theorem segmentCount_zero (n : Nat) : segmentCount n 0 = 0 := by
  unfold segmentCount
  rcases Nat.eq_zero_or_pos n with h | h
  · subst h; simp
  · exact Nat.div_eq_of_lt (by omega)

theorem segmentCount_step (n len : Nat) (hn : 0 < n) (hlen : 0 < len) :
    segmentCount n len = segmentCount n (len - n) + 1 := by
  unfold segmentCount
  rcases Nat.lt_or_ge len n with h | h
  · have h0 : len - n = 0 := by omega
    rw [h0]
    have h1 : (0 + n - 1) / n = 0 := Nat.div_eq_of_lt (by omega)
    have h2 : len + n - 1 = (len - 1) + n := by omega
    rw [h1, h2, Nat.add_div_right _ hn, Nat.div_eq_of_lt (by omega)]
  · have h2 : len + n - 1 = (len - n + n - 1) + n := by omega
    rw [h2, Nat.add_div_right _ hn]

theorem segments_nil (n : Nat) : segments n [] = [] := by
  simp [segments, chunks, segmentCount_zero]

theorem chunkAt_succ (n : Nat) (xs : List Byte) (i : Nat) :
    chunkAt n xs (i + 1) = chunkAt n (xs.drop n) i := by
  simp only [chunkAt, List.drop_drop]
  congr 2
  rw [Nat.succ_mul, Nat.add_comm]

theorem segments_step (n : Nat) (xs : List Byte) (hn : 0 < n) (hxs : xs ≠ []) :
    segments n xs = BRANDING ++ xs.take n ++ segments n (xs.drop n) := by
  have hlen : 0 < xs.length := List.length_pos.mpr hxs
  simp only [segments, chunks]
  rw [segmentCount_step n xs.length hn hlen, List.range_succ_eq_map]
  simp only [List.map_cons, List.map_map, List.flatten_cons, List.length_drop]
  congr 1
  · simp [chunkAt]
  · congr 2
    funext i
    simp only [Function.comp, Nat.succ_eq_add_one, chunkAt_succ]

theorem segments_short (n : Nat) (xs : List Byte) (hn : 0 < n) (hxs : xs ≠ [])
    (hlen : xs.length ≤ n) : segments n xs = BRANDING ++ xs := by
  rw [segments_step n xs hn hxs, List.take_of_length_le hlen, List.drop_of_length_le hlen,
    segments_nil, List.append_nil]

/-! ### Reading from a good stream -/

theorem read_full (data : List Byte) (pos n : Nat) (h : n ≤ (data.drop pos).length) :
    IStream.read ⟨data, pos, false, false⟩ n
      = ((data.drop pos).take n, ⟨data, pos + n, false, false⟩) := by
  have h1 : n ≤ data.length - pos := by simpa using h
  simp [IStream.read, IStream.good, h1]

theorem read_short (data : List Byte) (pos n : Nat) (h : (data.drop pos).length < n) :
    IStream.read ⟨data, pos, false, false⟩ n
      = (data.drop pos, ⟨data, data.length, true, true⟩) := by
  have h1 : data.length - pos < n := by simpa using h
  simp [IStream.read, IStream.good, h1]

/-! ### The body loops in closed form -/

theorem encryptBody_eq (n : Nat) (P : List Byte) (hn : 0 < n) (data : List Byte) :
    ∀ (fuel pos p k : Nat), p < P.length → k < 2 ^ 64 → pos ≤ data.length →
      data.length - pos < fuel →
      encryptBody n P P.length fuel ⟨data, pos, false, false⟩ p k
        = .ok (segments n (cipher P (data.drop pos) p k),
            (p + (data.length - pos)) % P.length, (k + (data.length - pos)) % 2 ^ 64) := by
  intro fuel
  induction fuel with
  | zero => intro pos p k _ _ _ h; omega
  | succ fuel ih =>
    intro pos p k hp hk hpos hfuel
    have hrest : (data.drop pos).length = data.length - pos := List.length_drop _ _
    rcases Nat.lt_or_ge (data.drop pos).length n with hshort | hfull
    · -- the last, short read
      rw [encryptBody, read_short data pos n hshort]
      rcases Nat.eq_zero_or_pos (data.drop pos).length with hz | hpos1
      · have hnil : data.drop pos = [] := List.length_eq_zero.mp hz
        have h0 : data.length - pos = 0 := by omega
        simp only [hnil, h0, List.length_nil, Nat.lt_irrefl, Bool.not_true, Bool.false_or,
          decide_False, Bool.false_eq_true, if_false, cipher, segments_nil, Nat.add_zero,
          Nat.mod_eq_of_lt hp, Nat.mod_eq_of_lt hk]
      · have hne : cipher P (data.drop pos) p k ≠ [] := by
          intro h
          have := congrArg List.length h
          rw [cipher_length] at this
          simp only [List.length_nil] at this
          omega
        have hpos2 : 0 < data.length - pos := by omega
        simp only [hrest, hpos2, decide_True, Bool.or_true, if_true, xorChunk_eq P _ p k hp hk,
          Run.bind]
        rw [segments_short n _ hn hne (by rw [cipher_length]; omega)]
    · -- a full chunk
      rw [encryptBody, read_full data pos n hfull]
      have hlen : ((data.drop pos).take n).length = n := by
        rw [List.length_take]; omega
      have hp1 : (p + n) % P.length < P.length := Nat.mod_lt _ (by omega)
      have hk1 : (k + n) % 2 ^ 64 < 2 ^ 64 := Nat.mod_lt _ (by decide)
      have h1 := ih (pos + n) ((p + n) % P.length) ((k + n) % 2 ^ 64) hp1 hk1 (by omega)
        (by omega)
      simp only [Bool.not_false, Bool.true_or, if_true, xorChunk_eq P _ p k hp hk, Run.bind,
        hlen, Bool.false_eq_true, if_false, h1]
      have hsplit : data.drop pos = (data.drop pos).take n ++ data.drop (pos + n) := by
        rw [← List.drop_drop, List.take_append_drop]
      have hne : cipher P (data.drop pos) p k ≠ [] := by
        intro h
        have := congrArg List.length h
        rw [cipher_length] at this
        simp only [List.length_nil] at this
        omega
      rw [segments_step n _ hn hne]
      conv_rhs => rw [hsplit, cipher_append P _ _ p k hp hk, hlen]
      have hcl : (cipher P ((data.drop pos).take n) p k).length = n := by
        rw [cipher_length, hlen]
      rw [List.take_left' hcl, List.drop_left' hcl]
      have e1 : p + n + (data.length - (pos + n)) = p + (data.length - pos) := by omega
      have e2 : k + n + (data.length - (pos + n)) = k + (data.length - pos) := by omega
      simp only [Nat.mod_add_mod, e1, e2]

theorem BRANDING_length : BRANDING.length = 10 := rfl

theorem decryptBody_segments (n : Nat) (P : List Byte) (hn : 0 < n) :
    ∀ (fuel : Nat) (pre C : List Byte) (p k : Nat), p < P.length → k < 2 ^ 64 →
      C.length < fuel →
      decryptBody n P P.length fuel ⟨pre ++ segments n C, pre.length, false, false⟩ p k
        = .ok (cipher P C p k) := by
  intro fuel
  induction fuel with
  | zero => intro pre C p k _ _ h; omega
  | succ fuel ih =>
    intro pre C p k hp hk hfuel
    rcases List.eq_nil_or_concat C with hC | ⟨_, _, hC'⟩
    · subst hC
      have hd : (pre ++ segments n []).drop pre.length = [] := by
        rw [segments_nil, List.append_nil, List.drop_length]
      rw [decryptBody, read_short _ _ _ (by rw [hd, BRANDING_length]; decide)]
      simp [cipher]
    · have hne : C ≠ [] := by rw [hC']; simp
      have hd : (pre ++ segments n C).drop pre.length
          = BRANDING ++ (C.take n ++ segments n (C.drop n)) := by
        rw [List.drop_left, segments_step n C hn hne, List.append_assoc]
      have hd1 : (pre ++ segments n C).drop (pre.length + BRANDING.length)
          = C.take n ++ segments n (C.drop n) := by
        rw [← List.drop_drop, hd, List.drop_left]
      rw [decryptBody, read_full _ _ _ (by rw [hd]; simp)]
      simp only [Bool.false_eq_true, if_false]
      rcases Nat.lt_or_ge C.length n with hshort | hfull
      · have ht : C.take n = C := List.take_of_length_le (by omega)
        have hdr : C.drop n = [] := List.drop_of_length_le (by omega)
        rw [ht, hdr, segments_nil, List.append_nil] at hd1
        rw [read_short _ _ _ (by rw [hd1]; exact hshort), hd1]
        have hpos : 0 < C.length := List.length_pos.mpr hne
        simp only [hpos, decide_True, Bool.or_true, if_true, xorChunk_eq P _ p k hp hk, Run.bind]
      · have hlen : (C.take n).length = n := by rw [List.length_take]; omega
        rw [read_full _ _ _ (by rw [hd1, List.length_append, hlen]; omega), hd1,
          List.take_left' hlen]
        have hp1 : (p + n) % P.length < P.length := Nat.mod_lt _ (by omega)
        have hk1 : (k + n) % 2 ^ 64 < 2 ^ 64 := Nat.mod_lt _ (by decide)
        have h1 := ih (pre ++ BRANDING ++ C.take n) (C.drop n) ((p + n) % P.length)
          ((k + n) % 2 ^ 64) hp1 hk1 (by rw [List.length_drop]; omega)
        have hdata : pre ++ BRANDING ++ C.take n ++ segments n (C.drop n)
            = pre ++ segments n C := by
          rw [segments_step n C hn hne]
          simp only [List.append_assoc]
        have hpl : (pre ++ BRANDING ++ C.take n).length = pre.length + BRANDING.length + n := by
          simp only [List.length_append, hlen]
        rw [hdata, hpl] at h1
        simp only [Bool.not_false, Bool.true_or, if_true, xorChunk_eq P _ p k hp hk, Run.bind,
          hlen, Bool.false_eq_true, if_false, h1]
        conv_rhs => rw [← List.take_append_drop n C, cipher_append P _ _ p k hp hk, hlen]

/-! ### The header -/

theorem u64OfBytes_u64Bytes (h : Nat) (hh : h < 2 ^ 64) : u64OfBytes (u64Bytes h) = h := by
  simp only [u64Bytes, u64OfBytes, toChar, List.range_succ, List.range_zero, List.nil_append,
    List.cons_append, List.map_cons, List.map_nil, List.foldr_cons, List.foldr_nil]
  norm_num
  omega

theorem u64Bytes_length (h : Nat) : (u64Bytes h).length = 8 := by
  simp [u64Bytes]

theorem generateSalt_length (rand : Nat → Nat) : (generateSalt rand 8).length = 8 := by
  simp [generateSalt]

theorem simpleHash_lt (data : List Byte) : simpleHash data < 2 ^ 64 := by
  unfold simpleHash
  have h : ∀ (l : List Byte) (init : Nat), init < 2 ^ 64 →
      l.foldl (fun hash c => (((hash <<< 5) % 2 ^ 64 + hash) % 2 ^ 64 + charToU64 c) % 2 ^ 64)
        init < 2 ^ 64 := by
    intro l
    induction l with
    | nil => intro init hi; exact hi
    | cons c l ih => intro init _; exact ih _ (Nat.mod_lt _ (by decide))
  exact h data 5381 (by decide)

theorem get_some (data : List Byte) (pos : Nat) (c : Byte) (rest : List Byte)
    (h : data.drop pos = c :: rest) :
    IStream.get ⟨data, pos, false, false⟩ = (some c, ⟨data, pos + 1, false, false⟩) := by
  have h1 : data[pos]? = some c := by
    have := List.getElem?_drop (L := data) (i := pos) (j := 0)
    rw [h] at this
    simpa using this.symm
  simp [IStream.get, IStream.good, h1]

theorem drop_succ_of_drop (data : List Byte) (pos : Nat) (c : Byte) (rest : List Byte)
    (h : data.drop pos = c :: rest) : data.drop (pos + 1) = rest := by
  rw [← List.drop_drop, h]
  rfl

theorem readExtension_eq (indet : Nat → Byte) (P : List Byte) (hP : P ≠ []) (data : List Byte) :
    ∀ (X rest : List Byte) (pos k : Nat), k < 2 ^ 64 → data.drop pos = X ++ rest →
      readExtension indet P P.length X.length ⟨data, pos, false, false⟩ k
        = .ok (cipherExt P X k, ⟨data, pos + X.length, false, false⟩,
            (k + X.length) % 2 ^ 64) := by
  intro X
  induction X with
  | nil =>
    intro rest pos k hk _
    simp only [readExtension, cipherExt, List.length_nil, Nat.add_zero, Nat.mod_eq_of_lt hk]
  | cons c X ih =>
    intro rest pos k hk hd
    have h1 := ih rest (pos + 1) (incr64 k) (incr64_lt k)
      (drop_succ_of_drop data pos c (X ++ rest) hd)
    simp only [List.length_cons, readExtension, get_some data pos c (X ++ rest) hd,
      Option.getD_some, keyChar_ok P hP, Run.bind, h1, cipherExt]
    simp only [incr64, Nat.add_mod_mod, Nat.mod_add_mod]
    congr 3
    · congr 1
      omega
    · congr 1
      omega

theorem checkPassword_eq (salt digest rest pw : List Byte) (hpw : pw ≠ [])
    (hs : salt.length = 8) (hd : digest.length = 8) (pos : Nat) (e f : Bool) :
    checkPassword ⟨BRANDING ++ salt ++ digest ++ rest, pos, e, f⟩ 10 pw
      = if simpleHash (pw ++ salt) = u64OfBytes digest
        then .accepted ⟨BRANDING ++ salt ++ digest ++ rest, 26, false, false⟩
        else .denied ⟨BRANDING ++ salt ++ digest ++ rest, 26, false, false⟩ := by
  have hseek : (IStream.clear ⟨BRANDING ++ salt ++ digest ++ rest, pos, e, f⟩).seekg 10
      = ⟨BRANDING ++ salt ++ digest ++ rest, 10, false, false⟩ := by
    simp [IStream.clear, IStream.seekg, BRANDING_length, hs, hd]
    omega
  have hd1 : (BRANDING ++ salt ++ digest ++ rest).drop 10 = salt ++ (digest ++ rest) := by
    rw [List.append_assoc, List.append_assoc]
    exact List.drop_left' BRANDING_length
  have hd2 : (BRANDING ++ salt ++ digest ++ rest).drop (10 + 8) = digest ++ rest := by
    rw [← List.drop_drop, hd1]
    exact List.drop_left' hs
  simp only [checkPassword, hpw, if_false, hseek]
  rw [read_full _ _ _ (by rw [hd1]; simp [hs]), hd1, List.take_left' hs]
  simp only [Bool.false_eq_true, if_false]
  rw [read_full _ _ _ (by rw [hd2]; simp [hd]), hd2, List.take_left' hd]
  simp only [Bool.false_eq_true, if_false]

/-! ### The password check loop -/

theorem passwordCheckLoop_nil (a : Int) (rc : Byte) (s : IStream) (pw : List Byte)
    (log : List Msg) :
    passwordCheckLoop a [] rc s pw log
      = match checkPassword s a pw with
        | .accepted s1 => .granted (log ++ [.passwordVerified]) pw pw.length 0 s1
        | .corrupted => .failed (log ++ [.fileCorrupted])
        | .denied _ =>
          if rc = 121 ∨ rc = 89 then .noFuel
          else .failed (log ++ [.accessDenied, .retryPrompt, .abortedByUser])
        | .emptyPassword =>
          if rc = 121 ∨ rc = 89 then .noFuel
          else .failed (log ++ [.decPasswordEmpty, .retryPrompt, .abortedByUser]) := by
  unfold passwordCheckLoop
  rw [List.length_nil, Nat.zero_add, passwordCheckPasses]
  cases checkPassword s a pw <;> simp only [readChoice, passwordCheckPasses]

theorem passwordCheckLoop_cons (a : Int) (c : Byte) (line : List Byte)
    (rest : List (Byte × List Byte)) (rc : Byte) (s : IStream) (pw : List Byte)
    (log : List Msg) :
    passwordCheckLoop a ((c, line) :: rest) rc s pw log
      = match checkPassword s a pw with
        | .accepted s1 => .granted (log ++ [.passwordVerified]) pw pw.length 0 s1
        | .corrupted => .failed (log ++ [.fileCorrupted])
        | .denied s1 =>
          if c = 121 ∨ c = 89 then
            passwordCheckLoop a rest c s1 line
              (log ++ [.accessDenied, .retryPrompt, .enterPasswordAgain])
          else .failed (log ++ [.accessDenied, .retryPrompt, .abortedByUser])
        | .emptyPassword =>
          if c = 121 ∨ c = 89 then
            passwordCheckLoop a rest c s line
              (log ++ [.decPasswordEmpty, .retryPrompt, .enterPasswordAgain])
          else .failed (log ++ [.decPasswordEmpty, .retryPrompt, .abortedByUser]) := by
  unfold passwordCheckLoop
  rw [List.length_cons, passwordCheckPasses]
  cases checkPassword s a pw <;> simp only [readChoice, readLine, List.tail_cons]

/-- The check of a candidate starts with `clear()` and `seekg(authStartPos)`: its verdict
depends on the content of the stream only. -/
theorem checkPassword_congr (s t : IStream) (a : Int) (pw : List Byte) (h : s.data = t.data) :
    checkPassword s a pw = checkPassword t a pw := by
  unfold checkPassword
  by_cases hpw : pw = []
  · simp only [hpw, if_true]
  · simp only [hpw, if_false]
    by_cases hr : 0 ≤ a ∧ a ≤ (s.data.length : Int)
    · have e1 : (IStream.clear s).seekg a = ⟨s.data, a.toNat, false, false⟩ := by
        simp [IStream.clear, IStream.seekg, hr]
      have e2 : (IStream.clear t).seekg a = ⟨s.data, a.toNat, false, false⟩ := by
        have hr2 : 0 ≤ a ∧ a ≤ (t.data.length : Int) := by rw [← h]; exact hr
        simp [IStream.clear, IStream.seekg, hr2, h]
      rw [e1, e2]
    · have e1 : ((IStream.clear s).seekg a).good = false := by
        simp [IStream.clear, IStream.seekg, hr, IStream.good]
      have e2 : ((IStream.clear t).seekg a).good = false := by
        rw [h] at hr
        simp [IStream.clear, IStream.seekg, hr, IStream.good]
      simp only [IStream.read, e1, e2, Bool.false_eq_true, if_false, if_true]

theorem checkPassword_denied_data (s s1 : IStream) (a : Int) (pw : List Byte)
    (h : checkPassword s a pw = .denied s1) : s1.data = s.data := by
  unfold checkPassword at h
  by_cases hpw : pw = []
  · simp [hpw] at h
  · simp only [hpw, if_false] at h
    split at h
    · simp at h
    · split at h
      · simp at h
      · split at h
        · simp at h
        · simp only [Check.denied.injEq] at h
          rw [← h]
          simp only [IStream.read, IStream.clear, IStream.seekg]
          repeat' split
          all_goals rfl

/-- On an exhausted console, a pass that rejects its candidate and finds `y` in `retryChoice`
repeats itself: no amount of fuel ends the loop. -/
theorem passwordCheckPasses_spin (a : Int) (rc : Byte) (pw : List Byte)
    (hrc : rc = 121 ∨ rc = 89) :
    ∀ (fuel : Nat) (s : IStream) (log : List Msg),
      (∀ s1, checkPassword s a pw ≠ .accepted s1) → checkPassword s a pw ≠ .corrupted →
      passwordCheckPasses a fuel [] rc s pw log = .noFuel := by
  intro fuel
  induction fuel with
  | zero => intro s log _ _; rfl
  | succ fuel ih =>
    intro s log hacc hcor
    rw [passwordCheckPasses]
    cases hc : checkPassword s a pw with
    | accepted s1 => exact absurd hc (hacc s1)
    | corrupted => exact absurd hc hcor
    | denied s1 =>
      simp only [readChoice, readLine, List.tail_nil, hrc, if_true]
      have hd := checkPassword_congr s1 s a pw (checkPassword_denied_data s s1 a pw hc)
      apply ih
      · intro s2; rw [hd]; exact hacc s2
      · rw [hd]; exact hcor
    | emptyPassword =>
      simp only [readChoice, readLine, List.tail_nil, hrc, if_true]
      exact ih s _ hacc hcor

/-- One pass for every answer on the console and one more settle the loop: more fuel does
not change how it is left, and a loop that is not left on this fuel is not left at all. -/
theorem passwordCheckPasses_enough (a : Int) :
    ∀ (answers : List (Byte × List Byte)) (fuel : Nat) (rc : Byte) (s : IStream)
      (pw : List Byte) (log : List Msg), answers.length < fuel →
      passwordCheckPasses a fuel answers rc s pw log = passwordCheckLoop a answers rc s pw log := by
  intro answers
  induction answers with
  | nil =>
    intro fuel rc s pw log hf
    obtain ⟨f, rfl⟩ : ∃ f, fuel = f + 1 :=
      ⟨fuel - 1, by simp only [List.length_nil] at hf; omega⟩
    rw [passwordCheckLoop_nil, passwordCheckPasses]
    cases hc : checkPassword s a pw with
    | accepted s1 => rfl
    | corrupted => rfl
    | denied s1 =>
      simp only [readChoice, readLine, List.tail_nil]
      by_cases hrc : rc = 121 ∨ rc = 89
      · rw [if_pos hrc, if_pos hrc]
        have hd := checkPassword_congr s1 s a pw (checkPassword_denied_data s s1 a pw hc)
        apply passwordCheckPasses_spin a rc pw hrc
        · intro s2; rw [hd, hc]; simp
        · rw [hd, hc]; simp
      · rw [if_neg hrc, if_neg hrc]
    | emptyPassword =>
      simp only [readChoice, readLine, List.tail_nil]
      by_cases hrc : rc = 121 ∨ rc = 89
      · rw [if_pos hrc, if_pos hrc]
        apply passwordCheckPasses_spin a rc pw hrc
        · intro s2; rw [hc]; simp
        · rw [hc]; simp
      · rw [if_neg hrc, if_neg hrc]
  | cons x xs ih =>
    intro fuel rc s pw log hf
    obtain ⟨c, line⟩ := x
    obtain ⟨f, rfl⟩ : ∃ f, fuel = f + 1 :=
      ⟨fuel - 1, by simp only [List.length_cons] at hf; omega⟩
    have hf1 : xs.length < f := by simp only [List.length_cons] at hf; omega
    rw [passwordCheckLoop_cons, passwordCheckPasses]
    cases hc : checkPassword s a pw with
    | accepted s1 => rfl
    | corrupted => rfl
    | denied s1 =>
      simp only [readChoice, readLine, List.tail_cons]
      split
      · exact ih f c s1 line _ hf1
      · rfl
    | emptyPassword =>
      simp only [readChoice, readLine, List.tail_cons]
      split
      · exact ih f c s line _ hf1
      · rfl

/-! ### The two branches on a container -/

theorem passwordCheckLoop_accepted (a : Int) (answers : List (Byte × List Byte)) (rc : Byte)
    (s s1 : IStream) (pw : List Byte) (log : List Msg)
    (h : checkPassword s a pw = .accepted s1) :
    passwordCheckLoop a answers rc s pw log
      = .granted (log ++ [.passwordVerified]) pw pw.length 0 s1 := by
  cases answers with
  | nil => rw [passwordCheckLoop_nil, h]
  | cons x xs => obtain ⟨c, line⟩ := x; rw [passwordCheckLoop_cons, h]

theorem passwordCheckLoop_corrupted (a : Int) (answers : List (Byte × List Byte)) (rc : Byte)
    (s : IStream) (pw : List Byte) (log : List Msg) (h : checkPassword s a pw = .corrupted) :
    passwordCheckLoop a answers rc s pw log = .failed (log ++ [.fileCorrupted]) := by
  cases answers with
  | nil => rw [passwordCheckLoop_nil, h]
  | cons x xs => obtain ⟨c, line⟩ := x; rw [passwordCheckLoop_cons, h]

theorem passwordCheckLoop_declined (a : Int) (answers : List (Byte × List Byte)) (rc : Byte)
    (s : IStream) (pw : List Byte) (log : List Msg) (hr : declines answers = true) :
    (∀ s1, checkPassword s a pw = .denied s1 →
      passwordCheckLoop a answers rc s pw log
        = .failed (log ++ [.accessDenied, .retryPrompt, .abortedByUser])) ∧
    (checkPassword s a pw = .emptyPassword →
      passwordCheckLoop a answers rc s pw log
        = .failed (log ++ [.decPasswordEmpty, .retryPrompt, .abortedByUser])) := by
  cases answers with
  | nil => simp [declines] at hr
  | cons x xs =>
    obtain ⟨c, line⟩ := x
    have hc : ¬ (c = 121 ∨ c = 89) := by
      simpa [declines] using hr
    constructor
    · intro s1 h; rw [passwordCheckLoop_cons, h]; simp only [hc, if_false]
    · intro h; rw [passwordCheckLoop_cons, h]; simp only [hc, if_false]

/-- The loop is left on an exhausted console exactly as `retryChoice` says. -/
theorem passwordCheckLoop_exhausted (a : Int) (rc : Byte) (s : IStream) (pw : List Byte)
    (log : List Msg) (hrc : rc = 121 ∨ rc = 89) :
    (∀ s1, checkPassword s a pw = .denied s1 →
      passwordCheckLoop a [] rc s pw log = .noFuel) ∧
    (checkPassword s a pw = .emptyPassword →
      passwordCheckLoop a [] rc s pw log = .noFuel) := by
  constructor
  · intro s1 h; rw [passwordCheckLoop_nil, h]; simp only [hrc, if_true]
  · intro h; rw [passwordCheckLoop_nil, h]; simp only [hrc, if_true]

theorem checkPassword_accepted_ne (s s1 : IStream) (a : Int) (pw : List Byte)
    (h : checkPassword s a pw = .accepted s1) : pw ≠ [] := by
  intro hpw
  simp [checkPassword, hpw] at h

theorem passwordCheckLoop_lines (a : Int) :
    ∀ (answers : List (Byte × List Byte)) (rc : Byte) (s : IStream) (pw : List Byte)
      (log : List Msg),
      passwordCheckLoop a answers rc s pw log = .noFuel ∨
      ∃ t, (passwordCheckLoop a answers rc s pw log).lines = log ++ t := by
  intro answers
  induction answers with
  | nil =>
    intro rc s pw log
    rw [passwordCheckLoop_nil]
    cases checkPassword s a pw with
    | accepted s1 => exact Or.inr ⟨_, rfl⟩
    | corrupted => exact Or.inr ⟨_, rfl⟩
    | denied s1 =>
      simp only
      split
      · exact Or.inl rfl
      · exact Or.inr ⟨_, rfl⟩
    | emptyPassword =>
      simp only
      split
      · exact Or.inl rfl
      · exact Or.inr ⟨_, rfl⟩
  | cons x xs ih =>
    intro rc s pw log
    obtain ⟨c, line⟩ := x
    rw [passwordCheckLoop_cons]
    cases checkPassword s a pw with
    | accepted s1 => exact Or.inr ⟨_, rfl⟩
    | corrupted => exact Or.inr ⟨_, rfl⟩
    | denied s1 =>
      simp only
      split
      · rcases ih c s1 line (log ++ [.accessDenied, .retryPrompt, .enterPasswordAgain]) with
          h | ⟨t, ht⟩
        · exact Or.inl h
        · exact Or.inr ⟨_, by rw [ht, List.append_assoc]⟩
      · exact Or.inr ⟨_, rfl⟩
    | emptyPassword =>
      simp only
      split
      · rcases ih c s line (log ++ [.decPasswordEmpty, .retryPrompt, .enterPasswordAgain]) with
          h | ⟨t, ht⟩
        · exact Or.inl h
        · exact Or.inr ⟨_, by rw [ht, List.append_assoc]⟩
      · exact Or.inr ⟨_, rfl⟩

theorem passwordCheckLoop_granted (a : Int) :
    ∀ (answers : List (Byte × List Byte)) (rc : Byte) (s : IStream) (pw : List Byte)
      (log c : List Msg) (pw1 : List Byte) (len k : Nat) (s1 : IStream),
      passwordCheckLoop a answers rc s pw log = .granted c pw1 len k s1 →
      pw1 ≠ [] ∧ len = pw1.length ∧ k = 0 := by
  intro answers
  induction answers with
  | nil =>
    intro rc s pw log c pw1 len k s1 h
    rw [passwordCheckLoop_nil] at h
    cases hc : checkPassword s a pw with
    | accepted s2 =>
      rw [hc] at h
      simp only [Auth.granted.injEq] at h
      obtain ⟨-, h2, h3, h4, -⟩ := h
      subst h2
      exact ⟨checkPassword_accepted_ne s s2 a pw hc, h3.symm, h4.symm⟩
    | corrupted => rw [hc] at h; simp at h
    | denied s2 => rw [hc] at h; simp only at h; split at h <;> simp at h
    | emptyPassword => rw [hc] at h; simp only at h; split at h <;> simp at h
  | cons x xs ih =>
    intro rc s pw log c pw1 len k s1 h
    obtain ⟨ch, line⟩ := x
    rw [passwordCheckLoop_cons] at h
    cases hc : checkPassword s a pw with
    | accepted s2 =>
      rw [hc] at h
      simp only [Auth.granted.injEq] at h
      obtain ⟨-, h2, h3, h4, -⟩ := h
      subst h2
      exact ⟨checkPassword_accepted_ne s s2 a pw hc, h3.symm, h4.symm⟩
    | corrupted => rw [hc] at h; simp at h
    | denied s2 =>
      rw [hc] at h
      simp only at h
      split at h
      · exact ih _ _ _ _ _ _ _ _ _ h
      · simp at h
    | emptyPassword =>
      rw [hc] at h
      simp only at h
      split at h
      · exact ih _ _ _ _ _ _ _ _ _ h
      · simp at h

theorem passwordCheckLoop_rejected_lines (a : Int) (answers : List (Byte × List Byte))
    (rc : Byte) (s : IStream) (pw : List Byte) :
    (∀ s1, checkPassword s a pw = .denied s1 →
      passwordCheckLoop a answers rc s pw [] = .noFuel ∨
      ∃ t, (passwordCheckLoop a answers rc s pw []).lines
        = .accessDenied :: .retryPrompt :: t) ∧
    (checkPassword s a pw = .emptyPassword →
      passwordCheckLoop a answers rc s pw [] = .noFuel ∨
      ∃ t, (passwordCheckLoop a answers rc s pw []).lines
        = .decPasswordEmpty :: .retryPrompt :: t) := by
  cases answers with
  | nil =>
    constructor
    · intro s1 h
      rw [passwordCheckLoop_nil, h]
      simp only
      split
      · exact Or.inl rfl
      · exact Or.inr ⟨_, rfl⟩
    · intro h
      rw [passwordCheckLoop_nil, h]
      simp only
      split
      · exact Or.inl rfl
      · exact Or.inr ⟨_, rfl⟩
  | cons x xs =>
    obtain ⟨c, line⟩ := x
    constructor
    · intro s1 h
      rw [passwordCheckLoop_cons, h]
      simp only
      split
      · rcases passwordCheckLoop_lines a xs c s1 line
          ([] ++ [.accessDenied, .retryPrompt, .enterPasswordAgain]) with h1 | ⟨t, ht⟩
        · exact Or.inl h1
        · exact Or.inr ⟨_, by rw [ht]; rfl⟩
      · exact Or.inr ⟨_, rfl⟩
    · intro h
      rw [passwordCheckLoop_cons, h]
      simp only
      split
      · rcases passwordCheckLoop_lines a xs c s line
          ([] ++ [.decPasswordEmpty, .retryPrompt, .enterPasswordAgain]) with h1 | ⟨t, ht⟩
        · exact Or.inl h1
        · exact Or.inr ⟨_, by rw [ht]; rfl⟩
      · exact Or.inr ⟨_, rfl⟩

theorem incr64_zero : incr64 0 = 1 := by decide

theorem keyStart_lt (E : List Byte) : keyStart E < 2 ^ 64 := Nat.mod_lt _ (by decide)

theorem encryptStream_eq (n : Nat) (rand : Nat → Nat) (P E B : List Byte) (hn : 0 < n)
    (hP : P ≠ []) :
    encryptStream n rand E B P
      = .ok (container n rand P E B, (keyStart E % P.length + B.length) % P.length,
          (keyStart E + B.length) % 2 ^ 64) := by
  have hlen : 0 < P.length := List.length_pos.mpr hP
  have hb := encryptBody_eq n P hn B (B.length + 1) 0 (keyStart E % P.length) (keyStart E)
    (Nat.mod_lt _ hlen) (keyStart_lt E) (Nat.zero_le _) (by omega)
  simp only [List.drop_zero, Nat.sub_zero] at hb
  simp only [encryptStream, keyChar_ok P hP, Run.bind, incr64_zero,
    encryptExtension_eq P hP E 1 (by decide), startIndex, Nat.ne_of_gt hlen, if_false,
    IStream.ofContent]
  rw [show (1 + E.length) % 2 ^ 64 = keyStart E from rfl, hb]
  rfl

theorem segments_length_ge (n : Nat) (hn : 0 < n) :
    ∀ (m : Nat) (C : List Byte), C.length ≤ m → C.length ≤ (segments n C).length := by
  intro m
  induction m with
  | zero => intro C h; omega
  | succ m ih =>
    intro C h
    rcases List.eq_nil_or_concat C with hC | ⟨_, _, hC'⟩
    · subst hC; simp
    · have hne : C ≠ [] := by rw [hC']; simp
      have hpos : 0 < C.length := List.length_pos.mpr hne
      have h1 := ih (C.drop n) (by rw [List.length_drop]; omega)
      rw [segments_step n C hn hne]
      simp only [List.length_append, List.length_take, List.length_drop] at h1 ⊢
      omega

theorem emptied_of_length_le (s : IStream) (kept : Nat) (h : s.data.length ≤ s.pos) :
    s.emptied kept = s := by
  unfold IStream.emptied
  rw [List.take_of_length_le (by omega)]

theorem afterCreate_of_ne (name out : List Byte) (kept : Nat) (s : IStream) (h : out ≠ name) :
    afterCreate name out kept s = s := by
  simp only [afterCreate, h, if_false]

theorem afterCreate_of_length_le (name out : List Byte) (kept : Nat) (s : IStream)
    (h : s.data.length ≤ s.pos) : afterCreate name out kept s = s := by
  unfold afterCreate
  split
  · exact emptied_of_length_le s kept h
  · rfl

theorem delivered_of_ne (name out content : List Byte) (h : out ≠ name) :
    delivered name out content = content := by
  simp only [delivered, h, if_false]

theorem delivered_of_eq (name out content : List Byte) (h : out = name) :
    delivered name out content = [] := by
  simp only [delivered, h, if_true]

/-- The decrypt branch on a container, with the password it was written with.  When the
output file has the name of the input file, the container is taken to have an empty body:
then the stream has nothing left to deliver when the file is emptied. -/
theorem decryptBranch_container (n : Nat) (w : World) (rand : Nat → Nat) (P E B name : List Byte)
    (hn : 0 < n) (hP : P ≠ []) (hE : E.length ≤ 255) (hc : w.canCreate = true)
    (hname : removeExtension name ++ E = name → B = []) :
    decryptBranch n w (container n rand P E B) name P
      = .ok ⟨true, [.passwordVerified, .restoredExtension E, .decrypting],
          some ⟨removeExtension name ++ E, B⟩, 0⟩ := by
  have hlen : 0 < P.length := List.length_pos.mpr hP
  have hsalt := generateSalt_length rand
  have hdig := u64Bytes_length (simpleHash (P ++ generateSalt rand 8))
  -- the content, bracketed for each read
  have hcont : container n rand P E B
      = BRANDING ++ generateSalt rand 8 ++ u64Bytes (simpleHash (P ++ generateSalt rand 8))
        ++ ([lengthByte P E] ++ cipherExt P E 1 ++ segments n (cipherBody P E B)) := by
    simp only [container, List.append_assoc]
  have hd0 : (container n rand P E B).drop 0
      = BRANDING ++ (generateSalt rand 8 ++ u64Bytes (simpleHash (P ++ generateSalt rand 8))
        ++ ([lengthByte P E] ++ cipherExt P E 1 ++ segments n (cipherBody P E B))) := by
    simp only [container, List.append_assoc, List.drop_zero]
  have hd26 : (container n rand P E B).drop 26
      = lengthByte P E :: (cipherExt P E 1 ++ segments n (cipherBody P E B)) := by
    rw [hcont]
    have : (BRANDING ++ generateSalt rand 8
        ++ u64Bytes (simpleHash (P ++ generateSalt rand 8))).length = 26 := by
      simp only [List.length_append, BRANDING_length, hsalt, hdig]
    rw [List.drop_left' this]
    simp only [List.append_assoc, List.singleton_append, List.cons_append, List.nil_append]
  have hpre : container n rand P E B
      = (BRANDING ++ generateSalt rand 8 ++ u64Bytes (simpleHash (P ++ generateSalt rand 8))
        ++ [lengthByte P E] ++ cipherExt P E 1) ++ segments n (cipherBody P E B) := rfl
  have hprelen : (BRANDING ++ generateSalt rand 8
      ++ u64Bytes (simpleHash (P ++ generateSalt rand 8))
        ++ [lengthByte P E] ++ cipherExt P E 1).length = 26 + 1 + E.length := by
    simp only [List.length_append, BRANDING_length, hsalt, hdig, cipherExt_length,
      List.length_singleton]
  -- the signature
  unfold decryptBranch
  simp only [IStream.ofContent]
  rw [read_full _ _ _ (by rw [hd0]; simp [BRANDING_length]), hd0,
    List.take_left' (rfl : BRANDING.length = BRANDING.length)]
  simp only [Bool.false_eq_true, if_false, ne_eq, not_true_eq_false, IStream.tellg,
    BRANDING_length, Nat.zero_add]
  -- the password check
  have hcheck := checkPassword_eq (generateSalt rand 8)
    (u64Bytes (simpleHash (P ++ generateSalt rand 8)))
    ([lengthByte P E] ++ cipherExt P E 1 ++ segments n (cipherBody P E B)) P hP hsalt hdig
    10 false false
  rw [u64OfBytes_u64Bytes _ (simpleHash_lt _), if_pos rfl, ← hcont] at hcheck
  have hloop : passwordCheckLoop 10 w.answers w.staleChoice
      ⟨container n rand P E B, 10, false, false⟩ P []
      = .granted [.passwordVerified] P P.length 0 ⟨container n rand P E B, 26, false, false⟩ :=
    passwordCheckLoop_accepted 10 w.answers _ _ _ P [] hcheck
  have hcast : ((10 : Nat) : Int) = 10 := rfl
  rw [hcast, hloop]
  unfold decryptAfterCheck
  -- the extension
  have hext : (bxor (lengthByte P E) (K P 0)).val = (cipherExt P E 1).length := by
    rw [cipherExt_length]
    simp only [lengthByte, bxor_cancel, toChar]
    exact Nat.mod_eq_of_lt (by omega)
  simp only [get_some _ 26 _ _ hd26, Option.getD_some, keyChar_ok P hP, Run.bind, incr64_zero]
  rw [show rollingKey (pwAt P 0) 0 = K P 0 from rfl, hext,
    readExtension_eq w.indet P hP _ (cipherExt P E 1) (segments n (cipherBody P E B)) 27 1
      (by decide) (drop_succ_of_drop _ 26 _ _ hd26)]
  simp only [cipherExt_cipherExt, cipherExt_length, hc, Bool.not_true, Bool.false_eq_true,
    if_false, startIndex, Nat.ne_of_gt hlen]
  -- the output file does not take the body from the stream
  have hafter : afterCreate name (removeExtension name ++ E) w.buffered
      ⟨container n rand P E B, 27 + E.length, false, false⟩
      = ⟨container n rand P E B, 27 + E.length, false, false⟩ := by
    by_cases hal : removeExtension name ++ E = name
    · apply afterCreate_of_length_le
      have hB := hname hal
      subst hB
      have hnil : cipherBody P E [] = [] := rfl
      show (container n rand P E []).length ≤ 27 + E.length
      rw [hpre, hnil, segments_nil, List.append_nil, hprelen]
    · exact afterCreate_of_ne _ _ _ _ hal
  rw [hafter]
  -- the body
  have hbody := decryptBody_segments n P hn ((container n rand P E B).length + 1)
    (BRANDING ++ generateSalt rand 8 ++ u64Bytes (simpleHash (P ++ generateSalt rand 8))
        ++ [lengthByte P E] ++ cipherExt P E 1) (cipherBody P E B)
    (keyStart E % P.length) (keyStart E) (Nat.mod_lt _ hlen) (keyStart_lt E)
    (by
      have := segments_length_ge n hn _ (cipherBody P E B) (Nat.le_refl _)
      rw [hpre, List.length_append]
      omega)
  rw [← hpre, hprelen] at hbody
  rw [show (1 + E.length) % 2 ^ 64 = keyStart E from rfl,
    show 27 + E.length = 26 + 1 + E.length by omega, hbody]
  simp only [cipherBody, cipher_cipher, List.singleton_append]

theorem BUFFER_SIZE_pos : 0 < BUFFER_SIZE := by decide

theorem encryptBranch_eq (n : Nat) (w : World) (B path P : List Byte) (hn : 0 < n) (hP : P ≠ [])
    (hc : w.canCreate = true) :
    encryptBranch n w B path P
      = .ok ⟨true, [.targetOutput (removeExtension path ++ EXTENSION), .encrypting],
          some ⟨removeExtension path ++ EXTENSION,
            container n w.rand P (getFileExtension path)
              (delivered path (removeExtension path ++ EXTENSION) B)⟩, 8⟩ := by
  simp only [encryptBranch, hP, if_false, hc, Bool.not_true, Bool.false_eq_true,
    encryptStream_eq n w.rand P _ _ hn hP, Run.bind]

theorem decryptBranch_failed (n : Nat) (w : World) (rest name pw : List Byte) (log : List Msg)
    (h : passwordCheckLoop 10 w.answers w.staleChoice ⟨BRANDING ++ rest, 10, false, false⟩ pw []
      = .failed log) :
    decryptBranch n w (BRANDING ++ rest) name pw = .ok ⟨false, log, none, 0⟩ := by
  unfold decryptBranch
  simp only [IStream.ofContent]
  rw [read_full _ _ _ (by simp [BRANDING_length]), List.drop_zero,
    List.take_left' (rfl : BRANDING.length = BRANDING.length)]
  simp only [Bool.false_eq_true, if_false, ne_eq, not_true_eq_false, IStream.tellg,
    BRANDING_length, Nat.zero_add]
  have hcast : ((10 : Nat) : Int) = 10 := rfl
  rw [hcast, h]

theorem decryptBranch_noFuel (n : Nat) (w : World) (rest name pw : List Byte)
    (h : passwordCheckLoop 10 w.answers w.staleChoice ⟨BRANDING ++ rest, 10, false, false⟩ pw []
      = .noFuel) :
    decryptBranch n w (BRANDING ++ rest) name pw = .noFuel := by
  unfold decryptBranch
  simp only [IStream.ofContent]
  rw [read_full _ _ _ (by simp [BRANDING_length]), List.drop_zero,
    List.take_left' (rfl : BRANDING.length = BRANDING.length)]
  simp only [Bool.false_eq_true, if_false, ne_eq, not_true_eq_false, IStream.tellg,
    BRANDING_length, Nat.zero_add]
  have hcast : ((10 : Nat) : Int) = 10 := rfl
  rw [hcast, h]

theorem container_split (n : Nat) (rand : Nat → Nat) (P E B : List Byte) :
    container n rand P E B
      = BRANDING ++ generateSalt rand 8 ++ u64Bytes (simpleHash (P ++ generateSalt rand 8))
        ++ ([lengthByte P E] ++ cipherExt P E 1 ++ segments n (cipherBody P E B)) := by
  simp only [container, List.append_assoc]

theorem hash_step (hash : Nat) (x : Nat) :
    (((hash <<< 5) % 2 ^ 64 + hash) % 2 ^ 64 + x) % 2 ^ 64 = (hash * 33 + x) % 2 ^ 64 := by
  rw [Nat.shiftLeft_eq]
  omega

theorem simpleHash_eq_foldl (data : List Byte) :
    simpleHash data = data.foldl (fun hash c => (hash * 33 + charToU64 c) % 2 ^ 64) 5381 := by
  unfold simpleHash
  congr 1
  funext hash c
  exact hash_step hash (charToU64 c)

theorem foldl_congr_mem {α β : Type} (f g : β → α → β) (l : List α) :
    ∀ init, (∀ b, ∀ a ∈ l, f b a = g b a) → l.foldl f init = l.foldl g init := by
  induction l with
  | nil => intro init _; rfl
  | cons x xs ih =>
    intro init h
    simp only [List.foldl_cons]
    rw [h init x (List.mem_cons_self _ _)]
    exact ih _ (fun b a ha => h b a (List.mem_cons_of_mem _ ha))

theorem xor_mod_256 (a b : Nat) (hb : b < 256) : (a ^^^ b) % 256 = (a % 256) ^^^ b := by
  apply Nat.eq_of_testBit_eq
  intro i
  have h256 : (256 : Nat) = 2 ^ 8 := by norm_num
  rw [h256, Nat.testBit_mod_two_pow, Nat.testBit_xor, Nat.testBit_xor, Nat.testBit_mod_two_pow]
  by_cases hi : i < 8
  · simp [hi]
  · have hbi : b.testBit i = false := by
      apply Nat.testBit_lt_two_pow
      calc b < 2 ^ 8 := by omega
        _ ≤ 2 ^ i := Nat.pow_le_pow_right (by decide) (by omega)
    simp [hi, hbi]

theorem K_val (P : List Byte) (i : Nat) :
    (K P i).val = ((pwAt P i).val + i % 256) % 256 := rfl

theorem pwAt_getElem (P : List Byte) (hP : P ≠ []) (i : Nat) :
    P[i % P.length]? = some (pwAt P i) := by
  have hlt : i % P.length < P.length := Nat.mod_lt _ (List.length_pos.mpr hP)
  simp [pwAt, List.getElem?_eq_getElem hlt, List.getD_eq_getElem _ _ hlt]

theorem cipherExt_getElem (P : List Byte) (cs : List Byte) :
    ∀ (k j : Nat), k + cs.length < 2 ^ 64 →
      (cipherExt P cs k)[j]? = cs[j]?.map fun c => bxor c (K P (k + j)) := by
  induction cs with
  | nil => intro k j _; simp [cipherExt]
  | cons c cs ih =>
    intro k j hk
    simp only [List.length_cons] at hk
    have hinc : incr64 k = k + 1 := Nat.mod_eq_of_lt (by omega)
    cases j with
    | zero => simp [cipherExt]
    | succ j =>
      simp only [cipherExt, List.getElem?_cons_succ, hinc]
      rw [ih (k + 1) j (by omega)]
      congr 1
      funext c
      congr 2
      omega

theorem rollingKey_congr (P : List Byte) (p k i : Nat) (hp : p = i % P.length)
    (hk : k % 256 = i % 256) : rollingKey (P.getD p 0) k = K P i := by
  subst hp
  simp only [K, pwAt, rollingKey, toChar, hk]

theorem cipher_getElem (P : List Byte) (bs : List Byte) :
    ∀ (p k i j : Nat), p < P.length → p = i % P.length → k % 256 = i % 256 →
      (cipher P bs p k)[j]? = bs[j]?.map fun b => bxor b (K P (i + j)) := by
  induction bs with
  | nil => intro p k i j _ _ _; simp [cipher]
  | cons b bs ih =>
    intro p k i j hlt hp hk
    cases j with
    | zero =>
      simp only [cipher, List.getElem?_cons_zero, Option.map_some', Nat.add_zero,
        rollingKey_congr P p k i hp hk]
    | succ j =>
      simp only [cipher, List.getElem?_cons_succ]
      rw [ih _ (incr64 k) (i + 1) j (nextP_lt P p hlt)
        (by rw [nextP_eq P p hlt, hp, Nat.mod_add_mod])
        (by unfold incr64; omega)]
      congr 1
      funext c
      congr 2
      omega

theorem chunks_length (n : Nat) (xs : List Byte) :
    (chunks n xs).length = segmentCount n xs.length := by
  simp [chunks]

theorem chunks_getElem (n : Nat) (xs : List Byte) (i : Nat) (hi : i < segmentCount n xs.length) :
    (chunks n xs)[i]? = some ((xs.drop (i * n)).take n) := by
  simp [chunks, chunkAt, List.getElem?_range hi]

theorem segmentCount_bounds (n len : Nat) (hn : 0 < n) :
    len ≤ segmentCount n len * n ∧ segmentCount n len * n < len + n := by
  unfold segmentCount
  have h1 := Nat.div_add_mod (len + n - 1) n
  have h2 := Nat.mod_lt (len + n - 1) hn
  have h3 : n * ((len + n - 1) / n) = (len + n - 1) / n * n := Nat.mul_comm _ _
  constructor <;> omega

/-! ### Totality of the decrypt branch -/

theorem readExtension_total (indet : Nat → Byte) (P : List Byte) (hP : P ≠ []) :
    ∀ (n : Nat) (s : IStream) (k : Nat), k < 2 ^ 64 →
      ∃ r, readExtension indet P P.length n s k = .ok r ∧ r.2.2 < 2 ^ 64 := by
  intro n
  induction n with
  | zero => intro s k hk; exact ⟨_, rfl, hk⟩
  | succ n ih =>
    intro s k _
    obtain ⟨r, hr, hlt⟩ := ih s.get.2 (incr64 k) (incr64_lt k)
    refine ⟨(bxor (s.get.1.getD (indet k)) (rollingKey (pwAt P k) k) :: r.1, r.2.1, r.2.2),
      ?_, hlt⟩
    simp only [readExtension, keyChar_ok P hP, Run.bind, hr]

theorem read_cases (s : IStream) (n : Nat) :
    ((s.read n).2.failbit = true) ∨
    ((s.read n).2 = ⟨s.data, s.pos + n, false, false⟩ ∧ s.eofbit = false ∧ s.failbit = false
      ∧ n ≤ s.data.length - s.pos) := by
  unfold IStream.read
  by_cases hg : s.good = true
  · have he : s.eofbit = false := by
      simp only [IStream.good, Bool.and_eq_true, Bool.not_eq_true'] at hg; exact hg.1
    have hf : s.failbit = false := by
      simp only [IStream.good, Bool.and_eq_true, Bool.not_eq_true'] at hg; exact hg.2
    simp only [hg, if_true]
    by_cases hn : n ≤ (s.data.drop s.pos).length
    · right
      simp only [hn, if_true, he, hf, true_and]
      simpa only [List.length_drop] using hn
    · left
      simp only [hn, if_false]
  · left
    simp only [hg, Bool.false_eq_true, if_false]

theorem decryptBody_total (n : Nat) (P : List Byte) :
    ∀ (fuel : Nat) (s : IStream) (p k : Nat), p < P.length → k < 2 ^ 64 →
      s.data.length - s.pos < fuel →
      ∃ r, decryptBody n P P.length fuel s p k = .ok r := by
  intro fuel
  induction fuel with
  | zero => intro s p k _ _ h; omega
  | succ fuel ih =>
    intro s p k hp hk hfuel
    rw [decryptBody]
    rcases read_cases s BRANDING.length with hfail | ⟨hs1, -, -, hle⟩
    · exact ⟨[], by simp only [hfail, if_true]⟩
    · rw [hs1]
      simp only [Bool.false_eq_true, if_false]
      rw [BRANDING_length] at hle
      rcases read_cases ⟨s.data, s.pos + BRANDING.length, false, false⟩ n with
        hfail2 | ⟨hs2, -, -, -⟩
      · -- a short read ends the loop, with or without bytes
        have heof : (IStream.read ⟨s.data, s.pos + BRANDING.length, false, false⟩ n).2.eofbit
            = true := by
          unfold IStream.read at hfail2 ⊢
          simp only [IStream.good, Bool.not_false, Bool.and_self, if_true] at hfail2 ⊢
          split at hfail2
          · simp at hfail2
          · next h => simp only [h, if_false]
        by_cases hcond :
            (!(IStream.read ⟨s.data, s.pos + BRANDING.length, false, false⟩ n).2.failbit
              || decide
                (0 < (IStream.read ⟨s.data, s.pos + BRANDING.length, false, false⟩ n).1.length))
              = true
        · simp only [hcond, if_true, xorChunk_eq P _ p k hp hk, Run.bind, heof]
          exact ⟨_, rfl⟩
        · simp only [hcond, Bool.false_eq_true, if_false, heof, if_true]
          exact ⟨_, rfl⟩
      · rw [hs2]
        simp only [Bool.not_false, Bool.true_or, if_true, xorChunk_eq P _ p k hp hk, Run.bind,
          Bool.false_eq_true, if_false]
        obtain ⟨r, hr⟩ := ih ⟨s.data, s.pos + BRANDING.length + n, false, false⟩
          ((p + (IStream.read ⟨s.data, s.pos + BRANDING.length, false, false⟩ n).1.length)
            % P.length)
          ((k + (IStream.read ⟨s.data, s.pos + BRANDING.length, false, false⟩ n).1.length)
            % 2 ^ 64)
          (Nat.mod_lt _ (by omega)) (Nat.mod_lt _ (by decide))
          (by simp only [BRANDING_length]; omega)
        rw [hr]
        exact ⟨_, rfl⟩

theorem decryptAfterCheck_total (n : Nat) (w : World) (name : List Byte) (c : List Msg)
    (pw : List Byte) (hpw : pw ≠ []) (s : IStream) :
    ∃ o t, decryptAfterCheck n w name c pw pw.length 0 s = .ok o ∧ o.console = c ++ t := by
  have hlen : 0 < pw.length := List.length_pos.mpr hpw
  obtain ⟨e, he, hek⟩ := readExtension_total w.indet pw hpw
    (bxor (s.get.1.getD (w.indet 0)) (rollingKey (pwAt pw 0) 0)).val s.get.2 (incr64 0)
    (incr64_lt 0)
  obtain ⟨body, hbody⟩ := decryptBody_total n pw
    ((afterCreate name (removeExtension name ++ e.1) w.buffered e.2.1).data.length + 1)
    (afterCreate name (removeExtension name ++ e.1) w.buffered e.2.1)
    (e.2.2 % pw.length) e.2.2 (Nat.mod_lt _ hlen) hek (by omega)
  unfold decryptAfterCheck
  simp only [keyChar_ok pw hpw, Run.bind, he, startIndex, Nat.ne_of_gt hlen, if_false, hbody]
  split
  · exact ⟨_, _, rfl, rfl⟩
  · exact ⟨_, _, rfl, rfl⟩

theorem decryptBranch_signed (n : Nat) (w : World) (rest name pw : List Byte) :
    decryptBranch n w (BRANDING ++ rest) name pw
      = match passwordCheckLoop 10 w.answers w.staleChoice
            ⟨BRANDING ++ rest, 10, false, false⟩ pw [] with
        | .failed console => .ok ⟨false, console, none, 0⟩
        | .noFuel => .noFuel
        | .granted console password passwordLength keyIndex inputFile =>
          decryptAfterCheck n w name console password passwordLength keyIndex inputFile := by
  unfold decryptBranch
  simp only [IStream.ofContent]
  rw [read_full _ _ _ (by simp [BRANDING_length]), List.drop_zero,
    List.take_left' (rfl : BRANDING.length = BRANDING.length)]
  simp only [Bool.false_eq_true, if_false, ne_eq, not_true_eq_false, IStream.tellg,
    BRANDING_length, Nat.zero_add]
  rfl

/-- On a file that starts with the tag, the decrypt branch returns unless the password check
loop is never left, and its console starts with the lines of that loop. -/
theorem decryptBranch_total (n : Nat) (w : World) (rest name pw : List Byte) :
    (decryptBranch n w (BRANDING ++ rest) name pw = .noFuel ∧
      passwordCheckLoop 10 w.answers w.staleChoice ⟨BRANDING ++ rest, 10, false, false⟩ pw []
        = .noFuel) ∨
    ∃ o t, decryptBranch n w (BRANDING ++ rest) name pw = .ok o ∧
      o.console
        = (passwordCheckLoop 10 w.answers w.staleChoice
            ⟨BRANDING ++ rest, 10, false, false⟩ pw []).lines ++ t := by
  rw [decryptBranch_signed]
  cases h : passwordCheckLoop 10 w.answers w.staleChoice
      ⟨BRANDING ++ rest, 10, false, false⟩ pw [] with
  | failed c => exact Or.inr ⟨_, [], rfl, by simp [Auth.lines]⟩
  | noFuel => exact Or.inl ⟨rfl, rfl⟩
  | granted c pw1 len k s1 =>
    obtain ⟨hpw1, hl, hk⟩ := passwordCheckLoop_granted 10 _ _ _ _ _ _ _ _ _ _ h
    subst hl hk
    obtain ⟨o, t, ho, hc⟩ := decryptAfterCheck_total n w name c pw1 hpw1 s1
    exact Or.inr ⟨o, t, ho, hc⟩

theorem readExtension_length (indet : Nat → Byte) (P : List Byte) (len : Nat) :
    ∀ (n : Nat) (s : IStream) (k : Nat) (r : List Byte × IStream × Nat),
      readExtension indet P len n s k = .ok r → r.1.length = n := by
  intro n
  induction n with
  | zero =>
    intro s k r h
    simp only [readExtension, Run.ok.injEq] at h
    rw [← h]
    rfl
  | succ n ih =>
    intro s k r h
    rw [readExtension] at h
    cases hk : keyChar P len k with
    | ok kc =>
      rw [hk] at h
      simp only [Run.bind] at h
      cases hr : readExtension indet P len n s.get.2 (incr64 k) with
      | ok r1 =>
        rw [hr] at h
        simp only [Run.ok.injEq] at h
        rw [← h]
        simp only [List.length_cons, ih _ _ _ hr]
      | badIndex => rw [hr] at h; simp at h
      | noFuel => rw [hr] at h; simp at h
    | badIndex => rw [hk] at h; simp [Run.bind] at h
    | noFuel => rw [hk] at h; simp [Run.bind] at h

/-- Once the password check loop is left with a password, the decrypt branch reports no
failure of any read: it returns what the creation of the output file allows, and the
restored extension has as many chars as the length byte says, whatever the stream holds. -/
theorem decryptAfterCheck_ret (n : Nat) (w : World) (name : List Byte) (c : List Msg)
    (pw : List Byte) (hpw : pw ≠ []) (s : IStream) :
    ∃ o ext, decryptAfterCheck n w name c pw pw.length 0 s = .ok o ∧ o.ret = w.canCreate ∧
      o.console = c ++ [.restoredExtension ext,
        if w.canCreate then .decrypting else .couldNotCreateOutput] ∧
      ext.length = (bxor (s.get.1.getD (w.indet 0)) (K pw 0)).val ∧
      o.output.isSome = w.canCreate := by
  have hlen : 0 < pw.length := List.length_pos.mpr hpw
  obtain ⟨e, he, hek⟩ := readExtension_total w.indet pw hpw
    (bxor (s.get.1.getD (w.indet 0)) (rollingKey (pwAt pw 0) 0)).val s.get.2 (incr64 0)
    (incr64_lt 0)
  have hel := readExtension_length _ _ _ _ _ _ _ he
  obtain ⟨body, hbody⟩ := decryptBody_total n pw
    ((afterCreate name (removeExtension name ++ e.1) w.buffered e.2.1).data.length + 1)
    (afterCreate name (removeExtension name ++ e.1) w.buffered e.2.1)
    (e.2.2 % pw.length) e.2.2 (Nat.mod_lt _ hlen) hek (by omega)
  unfold decryptAfterCheck
  simp only [keyChar_ok pw hpw, Run.bind, he, startIndex, Nat.ne_of_gt hlen, if_false, hbody]
  cases hc : w.canCreate
  · exact ⟨_, e.1, rfl, rfl, by simp, hel, rfl⟩
  · exact ⟨_, e.1, rfl, rfl, by simp, hel, rfl⟩

theorem checkPassword_short (rest pw : List Byte) (hpw : pw ≠ []) (hr : rest.length < 16)
    (pos : Nat) (e f : Bool) :
    checkPassword ⟨BRANDING ++ rest, pos, e, f⟩ 10 pw = .corrupted := by
  have hseek : (IStream.clear ⟨BRANDING ++ rest, pos, e, f⟩).seekg 10
      = ⟨BRANDING ++ rest, 10, false, false⟩ := by
    simp [IStream.clear, IStream.seekg, BRANDING_length]
  have hd1 : (BRANDING ++ rest).drop 10 = rest := List.drop_left' BRANDING_length
  simp only [checkPassword, hpw, if_false, hseek]
  rcases Nat.lt_or_ge rest.length 8 with h8 | h8
  · rw [read_short _ _ _ (by rw [hd1]; exact h8)]
    simp only [if_true]
  · rw [read_full _ _ _ (by rw [hd1]; exact h8)]
    simp only [Bool.false_eq_true, if_false]
    rw [read_short _ _ _ (by rw [← List.drop_drop, hd1, List.length_drop]; omega)]
    simp only [if_true]

theorem isEncryptedByNullyex_iff (content : List Byte) :
    isEncryptedByNullyex (some content) = true
      ↔ 10 ≤ content.length ∧ content.take 10 = BRANDING := by
  unfold isEncryptedByNullyex
  simp only [IStream.ofContent]
  rcases Nat.lt_or_ge content.length 10 with h | h
  · have hr := read_short content 0 10 (by simpa using h)
    simp only [BRANDING_length, hr, Bool.not_true, Bool.false_eq_true, if_false, false_iff,
      not_and]
    intro h1
    omega
  · have hr := read_full content 0 10 (by simpa using h)
    simp only [BRANDING_length, hr, Bool.not_false, if_true, List.drop_zero, decide_eq_true_eq,
      h, true_and]

theorem container_detected (n : Nat) (rand : Nat → Nat) (P E B : List Byte) :
    isEncryptedByNullyex (some (container n rand P E B)) = true := by
  rw [isEncryptedByNullyex_iff, container_split, List.append_assoc, List.append_assoc]
  constructor
  · rw [List.length_append, BRANDING_length]
    omega
  · exact List.take_left' BRANDING_length

theorem decryptBranch_returns (n : Nat) (w : World) (content name pw : List Byte) :
    decryptBranch n w content name pw = .noFuel ∨
    ∃ o, decryptBranch n w content name pw = .ok o := by
  by_cases h1 : content.length < 10
  · refine Or.inr ⟨⟨false, [.fileTooShort], none, 0⟩, ?_⟩
    unfold decryptBranch
    simp only [IStream.ofContent]
    rw [read_short _ _ _ (by simpa [BRANDING_length] using h1)]
    simp only [if_true]
  · by_cases h2 : content.take 10 ≠ BRANDING
    · refine Or.inr ⟨⟨false, [.invalidFormat], none, 0⟩, ?_⟩
      unfold decryptBranch
      simp only [IStream.ofContent]
      rw [read_full _ _ _ (by simp only [List.drop_zero, BRANDING_length]; omega)]
      simp only [Bool.false_eq_true, if_false, List.drop_zero, BRANDING_length]
      rw [if_pos h2]
    · have h2e : content.take 10 = BRANDING := not_not.mp h2
      have hsplit : content = BRANDING ++ content.drop 10 := by
        rw [← h2e, List.take_append_drop]
      rw [hsplit]
      rcases decryptBranch_total n w (content.drop 10) name pw with ⟨h, -⟩ | ⟨o, _, ho, -⟩
      · exact Or.inl h
      · exact Or.inr ⟨o, ho⟩

theorem encryptBranch_returns (n : Nat) (hn : 0 < n) (w : World) (content name pw : List Byte) :
    ∃ o, encryptBranch n w content name pw = .ok o ∧
      (o.ret = true → o.output
        = some ⟨removeExtension name ++ EXTENSION,
            container n w.rand pw (getFileExtension name)
              (delivered name (removeExtension name ++ EXTENSION) content)⟩) := by
  by_cases hpw : pw = []
  · refine ⟨⟨false, [.encPasswordEmpty], none, 0⟩, ?_, ?_⟩
    · simp only [encryptBranch, hpw, if_true]
    · intro h; simp at h
  · cases hc : w.canCreate
    · refine ⟨⟨false, [.targetOutput (removeExtension name ++ EXTENSION),
        .couldNotCreateOutput], none, 0⟩, ?_, ?_⟩
      · simp only [encryptBranch, hpw, if_false, hc, Bool.not_false, if_true]
      · intro h; simp at h
    · exact ⟨_, encryptBranch_eq n w content name pw hn hpw hc, fun _ => rfl⟩

/-- `processFile` returns, unless the password check loop of the decrypt branch is never
left: it never indexes the password out of range, never reduces the key index modulo zero,
and its chunk loops end on the fuel supplied. -/
theorem processFile_returns (w : World) (name pw : List Byte) (mode : Bool) :
    (mode = false ∧ processFile w name pw mode = .noFuel) ∨
    ∃ o, processFile w name pw mode = .ok o := by
  unfold processFile processFileWith
  cases w.file with
  | none => exact Or.inr ⟨_, rfl⟩
  | some content =>
    cases mode
    · simp only [Bool.false_eq_true, if_false]
      rcases decryptBranch_returns BUFFER_SIZE w content name pw with h | h
      · exact Or.inl ⟨trivial, h⟩
      · exact Or.inr h
    · simp only [if_true]
      obtain ⟨o, ho, -⟩ := encryptBranch_returns BUFFER_SIZE BUFFER_SIZE_pos w content name pw
      exact Or.inr ⟨o, ho⟩

theorem find_last_of_append (x y : List Byte) (c : Byte) :
    find_last_of (x ++ y) c
      = match find_last_of y c with
        | some i => some (x.length + i)
        | none => find_last_of x c := by
  induction x with
  | nil =>
    cases h : find_last_of y c <;> simp [find_last_of, h]
  | cons a x ih =>
    rw [List.cons_append, find_last_of, ih]
    cases h : find_last_of y c with
    | none => simp only [find_last_of]
    | some i =>
      simp only [List.length_cons]
      congr 1
      omega

theorem find_last_of_extension (x : List Byte) :
    find_last_of (x ++ EXTENSION) 46 = some x.length := by
  rw [find_last_of_append]
  have h : find_last_of EXTENSION 46 = some 0 := by decide
  rw [h]
  rfl

theorem removeExtension_append_getFileExtension (p : List Byte) :
    removeExtension p ++ getFileExtension p = p := by
  unfold removeExtension getFileExtension
  cases find_last_of p 46 with
  | none => simp
  | some d => exact List.take_append_drop d p

theorem removeExtension_extension (x : List Byte) : removeExtension (x ++ EXTENSION) = x := by
  unfold removeExtension
  rw [find_last_of_extension]
  exact List.take_left' rfl

theorem K_add_period (P : List Byte) (i m : Nat) (h1 : P.length ∣ m) (h2 : 256 ∣ m) :
    K P (i + m) = K P i := by
  obtain ⟨a, ha⟩ := h1
  obtain ⟨b, hb⟩ := h2
  have e1 : (i + m) % P.length = i % P.length := by
    rw [ha, Nat.add_mul_mod_self_left]
  have e2 : (i + m) % 256 = i % 256 := by
    rw [hb, Nat.add_mul_mod_self_left]
  simp only [K, pwAt, rollingKey, toChar, e1, e2]

theorem hash_step_inj (a b x : Nat) (h : (a * 33 + x) % 2 ^ 64 = (b * 33 + x) % 2 ^ 64) :
    a % 2 ^ 64 = b % 2 ^ 64 := by
  have h1 : a * 33 + x ≡ b * 33 + x [MOD 2 ^ 64] := h
  have h2 : a * 33 ≡ b * 33 [MOD 2 ^ 64] := Nat.ModEq.add_right_cancel' x h1
  exact Nat.ModEq.cancel_right_of_coprime (by decide) h2

theorem hash_foldl_inj (S : List Byte) :
    ∀ a b : Nat, a < 2 ^ 64 → b < 2 ^ 64 →
      (S.foldl (fun hash c => (hash * 33 + charToU64 c) % 2 ^ 64) a
        = S.foldl (fun hash c => (hash * 33 + charToU64 c) % 2 ^ 64) b ↔ a = b) := by
  induction S with
  | nil => intro a b _ _; rfl
  | cons c S ih =>
    intro a b ha hb
    simp only [List.foldl_cons]
    rw [ih _ _ (Nat.mod_lt _ (by decide)) (Nat.mod_lt _ (by decide))]
    constructor
    · intro h
      have := hash_step_inj a b _ h
      rwa [Nat.mod_eq_of_lt ha, Nat.mod_eq_of_lt hb] at this
    · intro h; rw [h]

/-- Appending the same salt to two byte strings preserves and reflects equality of their
digests: each step `hash*33 + c` is a bijection modulo `2 ^ 64`. -/
theorem simpleHash_append_iff (P1 P2 S : List Byte) :
    simpleHash (P1 ++ S) = simpleHash (P2 ++ S) ↔ simpleHash P1 = simpleHash P2 := by
  rw [simpleHash_eq_foldl (P1 ++ S), simpleHash_eq_foldl (P2 ++ S), List.foldl_append,
    List.foldl_append, ← simpleHash_eq_foldl P1, ← simpleHash_eq_foldl P2]
  exact hash_foldl_inj S _ _ (simpleHash_lt P1) (simpleHash_lt P2)

/-- The check of a candidate the stored digest rejects, on a stream that holds the tag, a
salt and a digest. -/
theorem checkPassword_rejected (salt digest rest pw : List Byte) (hs : salt.length = 8)
    (hd : digest.length = 8) (hrej : rejectedBy salt digest pw) (pos : Nat) (e f : Bool) :
    (pw = [] ∧ checkPassword ⟨BRANDING ++ salt ++ digest ++ rest, pos, e, f⟩ 10 pw
      = .emptyPassword) ∨
    (pw ≠ [] ∧ checkPassword ⟨BRANDING ++ salt ++ digest ++ rest, pos, e, f⟩ 10 pw
      = .denied ⟨BRANDING ++ salt ++ digest ++ rest, 26, false, false⟩) := by
  by_cases hempty : pw = []
  · exact Or.inl ⟨hempty, by simp only [checkPassword, hempty, if_true]⟩
  · right
    have hne : simpleHash (pw ++ salt) ≠ u64OfBytes digest := by
      rcases hrej with h | h
      · exact absurd h hempty
      · exact h
    exact ⟨hempty, by rw [checkPassword_eq salt digest rest pw hempty hs hd, if_neg hne]⟩

/-- The decrypt branch on a stream that holds the tag, a salt and a digest, with a candidate
the stored digest rejects: the first lines are the rejection and the retry prompt; the run
returns `false` when the answer declines, and on an exhausted console it does what the
uninitialised `retryChoice` says. -/
theorem decryptBranch_rejected (n : Nat) (w : World) (name pw salt digest rest : List Byte)
    (hs : salt.length = 8) (hd : digest.length = 8) (hrej : rejectedBy salt digest pw) :
    (decryptBranch n w (BRANDING ++ salt ++ digest ++ rest) name pw = .noFuel ∨
      ∃ o t, decryptBranch n w (BRANDING ++ salt ++ digest ++ rest) name pw = .ok o ∧
        o.console
          = (if pw = [] then .decPasswordEmpty else .accessDenied) :: .retryPrompt :: t) ∧
    (declines w.answers = true →
      decryptBranch n w (BRANDING ++ salt ++ digest ++ rest) name pw
        = .ok ⟨false,
            [if pw = [] then .decPasswordEmpty else .accessDenied, .retryPrompt,
              .abortedByUser], none, 0⟩) ∧
    (w.answers = [] →
      decryptBranch n w (BRANDING ++ salt ++ digest ++ rest) name pw
        = if w.staleChoice = 121 ∨ w.staleChoice = 89 then .noFuel
          else .ok ⟨false,
            [if pw = [] then .decPasswordEmpty else .accessDenied, .retryPrompt,
              .abortedByUser], none, 0⟩) := by
  have hchk := checkPassword_rejected salt digest rest pw hs hd hrej 10 false false
  have e1 : BRANDING ++ salt ++ digest ++ rest = BRANDING ++ (salt ++ digest ++ rest) := by
    simp only [List.append_assoc]
  refine ⟨?_, ?_, ?_⟩
  · have hlines := passwordCheckLoop_rejected_lines 10 w.answers w.staleChoice
      ⟨BRANDING ++ salt ++ digest ++ rest, 10, false, false⟩ pw
    rw [e1] at hlines hchk ⊢
    rcases decryptBranch_total n w (salt ++ digest ++ rest) name pw with
      ⟨h, -⟩ | ⟨o, t, ho, hc⟩
    · exact Or.inl h
    · right
      rcases hchk with ⟨he, hck⟩ | ⟨hne, hck⟩
      · rcases hlines.2 hck with h1 | ⟨t1, ht1⟩
        · exact absurd (decryptBranch_noFuel n w _ name pw h1) (by rw [ho]; simp)
        · refine ⟨o, t1 ++ t, ho, ?_⟩
          rw [hc, if_pos he, ht1]
          rfl
      · rcases hlines.1 _ hck with h1 | ⟨t1, ht1⟩
        · exact absurd (decryptBranch_noFuel n w _ name pw h1) (by rw [ho]; simp)
        · refine ⟨o, t1 ++ t, ho, ?_⟩
          rw [hc, if_neg hne, ht1]
          rfl
  · intro hdecl
    have hdec := passwordCheckLoop_declined 10 w.answers w.staleChoice
      ⟨BRANDING ++ salt ++ digest ++ rest, 10, false, false⟩ pw [] hdecl
    rw [e1] at hdec hchk ⊢
    apply decryptBranch_failed
    rcases hchk with ⟨he, hck⟩ | ⟨hne, hck⟩
    · rw [if_pos he]
      exact hdec.2 hck
    · rw [if_neg hne]
      exact hdec.1 _ hck
  · intro hnil
    rw [e1] at hchk ⊢
    by_cases hrc : w.staleChoice = 121 ∨ w.staleChoice = 89
    · rw [if_pos hrc]
      apply decryptBranch_noFuel
      rw [hnil]
      rcases hchk with ⟨-, hck⟩ | ⟨-, hck⟩
      · exact (passwordCheckLoop_exhausted 10 _ _ pw [] hrc).2 hck
      · exact (passwordCheckLoop_exhausted 10 _ _ pw [] hrc).1 _ hck
    · rw [if_neg hrc]
      apply decryptBranch_failed
      rw [hnil, passwordCheckLoop_nil]
      rcases hchk with ⟨he, hck⟩ | ⟨hne, hck⟩
      · rw [hck, if_pos he]
        simp only [hrc, if_false, List.nil_append]
      · rw [hck, if_neg hne]
        simp only [hrc, if_false, List.nil_append]

/-- The run of the decrypt branch on the container of `P` with a candidate that is empty or
has another salted digest. -/
theorem rejected_candidate (wE wD : World) (path cpath P P2 B : List Byte) (hP : P ≠ [])
    (hP2 : P2 = [] ∨ simpleHash (P2 ++ generateSalt wE.rand 8)
      ≠ simpleHash (P ++ generateSalt wE.rand 8)) :
    ∃ c : List Byte,
      processFile { wE with file := some B, canCreate := true } path P true
        = .ok ⟨true, [.targetOutput (removeExtension path ++ EXTENSION), .encrypting],
            some ⟨removeExtension path ++ EXTENSION, c⟩, 8⟩ ∧
      (processFile { wD with file := some c } cpath P2 false = .noFuel ∨
        ∃ o t, processFile { wD with file := some c } cpath P2 false = .ok o ∧
          o.console
            = (if P2 = [] then .decPasswordEmpty else .accessDenied) :: .retryPrompt :: t) ∧
      (declines wD.answers = true →
        processFile { wD with file := some c } cpath P2 false
          = .ok ⟨false,
              [if P2 = [] then .decPasswordEmpty else .accessDenied, .retryPrompt,
                .abortedByUser], none, 0⟩) ∧
      (wD.answers = [] →
        processFile { wD with file := some c } cpath P2 false
          = if wD.staleChoice = 121 ∨ wD.staleChoice = 89 then .noFuel
            else .ok ⟨false,
              [if P2 = [] then .decPasswordEmpty else .accessDenied, .retryPrompt,
                .abortedByUser], none, 0⟩) := by
  have hrej : rejectedBy (generateSalt wE.rand 8)
      (u64Bytes (simpleHash (P ++ generateSalt wE.rand 8))) P2 := by
    rcases hP2 with h | h
    · exact Or.inl h
    · right
      rw [u64OfBytes_u64Bytes _ (simpleHash_lt _)]
      exact h
  refine ⟨container BUFFER_SIZE wE.rand P (getFileExtension path)
    (delivered path (removeExtension path ++ EXTENSION) B), ?_, ?_⟩
  · simp only [processFile, processFileWith, if_true]
    exact encryptBranch_eq BUFFER_SIZE _ B path P BUFFER_SIZE_pos hP rfl
  · simp only [processFile, processFileWith, Bool.false_eq_true, if_false]
    rw [container_split]
    exact decryptBranch_rejected BUFFER_SIZE
      { wD with file := some (BRANDING ++ generateSalt wE.rand 8
          ++ u64Bytes (simpleHash (P ++ generateSalt wE.rand 8))
          ++ ([lengthByte P (getFileExtension path)] ++ cipherExt P (getFileExtension path) 1
            ++ segments BUFFER_SIZE (cipherBody P (getFileExtension path)
              (delivered path (removeExtension path ++ EXTENSION) B)))) }
      cpath P2 _ _ _ (generateSalt_length _) (u64Bytes_length _) hrej

/-- Acceptance of the first candidate is equality of the digests. -/
theorem acceptsFirst_iff (w : World) (cpath pw salt digest rest : List Byte)
    (hpw : pw ≠ []) (hs : salt.length = 8) (hd : digest.length = 8) :
    acceptsFirst
        (processFile { w with file := some (BRANDING ++ salt ++ digest ++ rest) } cpath pw false)
      = true
    ↔ simpleHash (pw ++ salt) = u64OfBytes digest := by
  simp only [processFile, processFileWith, Bool.false_eq_true, if_false]
  by_cases hh : simpleHash (pw ++ salt) = u64OfBytes digest
  · simp only [hh, iff_true]
    have hchk := checkPassword_eq salt digest rest pw hpw hs hd 10 false false
    rw [if_pos hh] at hchk
    have e1 : BRANDING ++ salt ++ digest ++ rest = BRANDING ++ (salt ++ digest ++ rest) := by
      simp only [List.append_assoc]
    rw [e1, decryptBranch_signed, ← e1]
    show acceptsFirst (match passwordCheckLoop 10 w.answers w.staleChoice
      ⟨BRANDING ++ salt ++ digest ++ rest, 10, false, false⟩ pw [] with
        | .failed console => .ok ⟨false, console, none, 0⟩
        | .noFuel => .noFuel
        | .granted console password passwordLength keyIndex inputFile =>
          decryptAfterCheck BUFFER_SIZE _ cpath console password passwordLength keyIndex
            inputFile) = true
    rw [passwordCheckLoop_accepted 10 _ _ _ _ pw [] hchk]
    obtain ⟨o, t, ho, hc⟩ := decryptAfterCheck_total BUFFER_SIZE
      { w with file := some (BRANDING ++ salt ++ digest ++ rest) } cpath
      ([] ++ [.passwordVerified]) pw hpw ⟨BRANDING ++ salt ++ digest ++ rest, 26, false, false⟩
    simp only [ho, acceptsFirst, hc]
    rfl
  · simp only [hh, iff_false]
    have hrej : rejectedBy salt digest pw := Or.inr hh
    rcases (decryptBranch_rejected BUFFER_SIZE
      { w with file := some (BRANDING ++ salt ++ digest ++ rest) } cpath pw salt digest rest
      hs hd hrej).1 with h | ⟨o, t, ho, hc⟩
    · rw [h]
      simp [acceptsFirst]
    · rw [ho]
      simp [acceptsFirst, hc, hpw]

theorem segments_fit (n : Nat) (xs : List Byte) (hn : 0 < n) (hlen : xs.length ≤ n) :
    segments n xs = if xs = [] then [] else BRANDING ++ xs := by
  by_cases h : xs = []
  · rw [if_pos h, h, segments_nil]
  · rw [if_neg h, segments_short n xs hn h hlen]

theorem container_fit (n1 n2 : Nat) (rand : Nat → Nat) (P E B : List Byte) (h1 : 0 < n1)
    (h2 : 0 < n2) (hb1 : B.length ≤ n1) (hb2 : B.length ≤ n2) :
    container n1 rand P E B = container n2 rand P E B := by
  have hl : (cipherBody P E B).length = B.length := by rw [cipherBody, cipher_length]
  unfold container
  rw [segments_fit n1 _ h1 (by rw [hl]; exact hb1), segments_fit n2 _ h2 (by rw [hl]; exact hb2)]

theorem processFileWith_encrypt (n : Nat) (w : World) (B path P : List Byte) (hn : 0 < n)
    (hP : P ≠ []) :
    processFileWith n { w with file := some B, canCreate := true } path P true
      = .ok ⟨true, [.targetOutput (removeExtension path ++ EXTENSION), .encrypting],
          some ⟨removeExtension path ++ EXTENSION,
            container n w.rand P (getFileExtension path)
              (delivered path (removeExtension path ++ EXTENSION) B)⟩, 8⟩ := by
  simp only [processFileWith, if_true]
  exact encryptBranch_eq n _ B path P hn hP rfl

theorem processFileWith_decrypt (n : Nat) (w : World) (rand : Nat → Nat)
    (P E B cpath : List Byte) (hn : 0 < n) (hP : P ≠ []) (hE : E.length ≤ 255)
    (hname : removeExtension cpath ++ E = cpath → B = []) :
    processFileWith n { w with file := some (container n rand P E B), canCreate := true }
        cpath P false
      = .ok ⟨true, [.passwordVerified, .restoredExtension E, .decrypting],
          some ⟨removeExtension cpath ++ E, B⟩, 0⟩ := by
  simp only [processFileWith, Bool.false_eq_true, if_false]
  exact decryptBranch_container n _ rand P E B cpath hn hP hE rfl hname

/-- Round trip where no output file takes the place of its input file: the file at `path`
is encoded, the container at `cpath` is decoded with the same password. -/
theorem processFileWith_round_trip (n : Nat) (wE wD : World) (path cpath P B : List Byte)
    (hn : 0 < n) (hP : P ≠ []) (hext : (getFileExtension path).length ≤ 255)
    (hpath : removeExtension path ++ EXTENSION ≠ path)
    (hcpath : removeExtension cpath ++ getFileExtension path ≠ cpath) :
    processFileWith n { wE with file := some B, canCreate := true } path P true
      = .ok ⟨true, [.targetOutput (removeExtension path ++ EXTENSION), .encrypting],
          some ⟨removeExtension path ++ EXTENSION,
            container n wE.rand P (getFileExtension path) B⟩, 8⟩ ∧
    processFileWith n
        { wD with file := some (container n wE.rand P (getFileExtension path) B),
                  canCreate := true } cpath P false
      = .ok ⟨true,
          [.passwordVerified, .restoredExtension (getFileExtension path), .decrypting],
          some ⟨removeExtension cpath ++ getFileExtension path, B⟩, 0⟩ := by
  constructor
  · rw [processFileWith_encrypt n wE B path P hn hP, delivered_of_ne _ _ _ hpath]
  · exact processFileWith_decrypt n wD wE.rand P _ B cpath hn hP hext
      (fun h => absurd h hcpath)

theorem decryptAfterCheck_console (n : Nat) (w : World) (name : List Byte) (c : List Msg)
    (pw : List Byte) (len k : Nat) (s : IStream) :
    decryptAfterCheck n w name c pw len k s
      = (decryptAfterCheck n w name [] pw len k s).bind
          fun o => .ok { o with console := c ++ o.console } := by
  unfold decryptAfterCheck
  cases keyChar pw len k with
  | badIndex => rfl
  | noFuel => rfl
  | ok k0 =>
    simp only [Run.bind]
    cases readExtension w.indet pw len
        (bxor (s.get.1.getD (w.indet k)) (rollingKey k0 k)).val s.get.2 (incr64 k) with
    | badIndex => rfl
    | noFuel => rfl
    | ok e =>
      simp only [Run.bind]
      cases w.canCreate
      · simp
      · simp only [Bool.not_true, Bool.false_eq_true, if_false]
        cases startIndex len e.2.2 with
        | badIndex => rfl
        | noFuel => rfl
        | ok p =>
          simp only [Run.bind]
          cases decryptBody n pw len
              ((afterCreate name (removeExtension name ++ e.1) w.buffered e.2.1).data.length + 1)
              (afterCreate name (removeExtension name ++ e.1) w.buffered e.2.1) p e.2.2 with
          | badIndex => rfl
          | noFuel => rfl
          | ok body => simp

theorem decryptAfterCheck_world (n : Nat) (w1 w2 : World) (name : List Byte) (c : List Msg)
    (pw : List Byte) (len k : Nat) (s : IStream) (hi : w1.indet = w2.indet)
    (hc : w1.canCreate = w2.canCreate) (hb : w1.buffered = w2.buffered) :
    decryptAfterCheck n w1 name c pw len k s = decryptAfterCheck n w2 name c pw len k s := by
  unfold decryptAfterCheck
  rw [hi, hc, hb]

theorem passwordCheckLoop_retry (salt digest rest P : List Byte) (ch : Byte)
    (more : List (Byte × List Byte)) (hs : salt.length = 8) (hd : digest.length = 8)
    (hP : P ≠ []) (hacc : simpleHash (P ++ salt) = u64OfBytes digest) (hch : saysYes ch) :
    ∀ (script : List (Byte × List Byte)) (rc : Byte) (c0 : List Byte) (log : List Msg)
      (pos : Nat) (e f : Bool),
      rejectedBy salt digest c0 →
      (∀ a ∈ script, saysYes a.1 ∧ rejectedBy salt digest a.2) →
      ∃ lines, passwordCheckLoop 10 (script ++ (ch, P) :: more) rc
          ⟨BRANDING ++ salt ++ digest ++ rest, pos, e, f⟩ c0 log
        = .granted (log ++ lines ++ [.passwordVerified]) P P.length 0
            ⟨BRANDING ++ salt ++ digest ++ rest, 26, false, false⟩ := by
  have hfinal : ∀ (rc : Byte) (log : List Msg) (pos : Nat) (e f : Bool),
      passwordCheckLoop 10 more rc ⟨BRANDING ++ salt ++ digest ++ rest, pos, e, f⟩ P log
        = .granted (log ++ [.passwordVerified]) P P.length 0
            ⟨BRANDING ++ salt ++ digest ++ rest, 26, false, false⟩ := by
    intro rc log pos e f
    apply passwordCheckLoop_accepted
    rw [checkPassword_eq salt digest rest P hP hs hd, if_pos hacc]
  have hch1 : ch = 121 ∨ ch = 89 := hch
  intro script
  induction script with
  | nil =>
    intro rc c0 log pos e f hrej _
    rw [List.nil_append, passwordCheckLoop_cons]
    rcases checkPassword_rejected salt digest rest c0 hs hd hrej pos e f with
      ⟨-, hck⟩ | ⟨-, hck⟩
    · rw [hck]
      simp only
      rw [if_pos hch1, hfinal]
      exact ⟨[.decPasswordEmpty, .retryPrompt, .enterPasswordAgain], rfl⟩
    · rw [hck]
      simp only
      rw [if_pos hch1, hfinal]
      exact ⟨[.accessDenied, .retryPrompt, .enterPasswordAgain], rfl⟩
  | cons a script ih =>
    intro rc c0 log pos e f hrej hall
    obtain ⟨ch1, line1⟩ := a
    have ha := hall (ch1, line1) (List.mem_cons_self _ _)
    have hyes : ch1 = 121 ∨ ch1 = 89 := ha.1
    have hrest : ∀ a ∈ script, saysYes a.1 ∧ rejectedBy salt digest a.2 :=
      fun a h => hall a (List.mem_cons_of_mem _ h)
    rw [List.cons_append, passwordCheckLoop_cons]
    rcases checkPassword_rejected salt digest rest c0 hs hd hrej pos e f with
      ⟨-, hck⟩ | ⟨-, hck⟩
    · rw [hck]
      simp only
      rw [if_pos hyes]
      obtain ⟨lines, hl⟩ := ih ch1 line1
        (log ++ [.decPasswordEmpty, .retryPrompt, .enterPasswordAgain]) pos e f ha.2 hrest
      rw [hl]
      exact ⟨[.decPasswordEmpty, .retryPrompt, .enterPasswordAgain] ++ lines, by
        simp only [List.append_assoc]⟩
    · rw [hck]
      simp only
      rw [if_pos hyes]
      obtain ⟨lines, hl⟩ := ih ch1 line1
        (log ++ [.accessDenied, .retryPrompt, .enterPasswordAgain]) 26 false false ha.2 hrest
      rw [hl]
      exact ⟨[.accessDenied, .retryPrompt, .enterPasswordAgain] ++ lines, by
        simp only [List.append_assoc]⟩

theorem drop_take_eq_of_getElem (d1 d2 : List Byte) (a n : Nat)
    (h : ∀ j, j < n → d1[a + j]? = d2[a + j]?) :
    (d1.drop a).take n = (d2.drop a).take n := by
  apply List.ext_getElem?
  intro j
  rw [List.getElem?_take, List.getElem?_take]
  by_cases hj : j < n
  · simp only [hj, if_true, List.getElem?_drop]
    exact h j hj
  · simp only [hj, if_false]

theorem drop_eq_of_getElem (d1 d2 : List Byte) (a : Nat)
    (h : ∀ j, d1[a + j]? = d2[a + j]?) : d1.drop a = d2.drop a := by
  apply List.ext_getElem?
  intro j
  rw [List.getElem?_drop, List.getElem?_drop]
  exact h j

theorem decryptBody_tags (N : Nat) (P : List Byte) (len : Nat) :
    ∀ (fuel : Nat) (d1 d2 : List Byte) (pos p k : Nat), d1.length = d2.length →
      (∀ i, pos ≤ i → 10 ≤ (i - pos) % (10 + N) → d1[i]? = d2[i]?) →
      decryptBody N P len fuel ⟨d1, pos, false, false⟩ p k
        = decryptBody N P len fuel ⟨d2, pos, false, false⟩ p k := by
  intro fuel
  induction fuel with
  | zero => intro d1 d2 pos p k _ _; rfl
  | succ fuel ih =>
    intro d1 d2 pos p k hlen hsame
    have hl1 : (d1.drop pos).length = (d2.drop pos).length := by
      rw [List.length_drop, List.length_drop, hlen]
    have hl2 : (d1.drop (pos + 10)).length = (d2.drop (pos + 10)).length := by
      rw [List.length_drop, List.length_drop, hlen]
    rw [decryptBody, decryptBody, BRANDING_length]
    rcases Nat.lt_or_ge (d1.drop pos).length 10 with hs | hf
    · rw [read_short d1 pos 10 hs, read_short d2 pos 10 (hl1 ▸ hs)]
      simp only [if_true]
    · rw [read_full d1 pos 10 hf, read_full d2 pos 10 (hl1 ▸ hf)]
      simp only [Bool.false_eq_true, if_false]
      rcases Nat.lt_or_ge (d1.drop (pos + 10)).length N with hs2 | hf2
      · -- the last, short chunk
        have hchunk : d1.drop (pos + 10) = d2.drop (pos + 10) := by
          apply drop_eq_of_getElem
          intro j
          by_cases hj : pos + 10 + j < d1.length
          · apply hsame _ (by omega)
            rw [List.length_drop] at hs2
            have : (pos + 10 + j - pos) % (10 + N) = 10 + j := by
              rw [show pos + 10 + j - pos = 10 + j by omega]
              exact Nat.mod_eq_of_lt (by omega)
            omega
          · rw [List.getElem?_eq_none (by omega), List.getElem?_eq_none (by omega)]
        rw [read_short d1 (pos + 10) N hs2, read_short d2 (pos + 10) N (hl2 ▸ hs2), hchunk]
        simp only [Bool.not_true, Bool.false_or, if_true]
      · -- a full chunk
        have hchunk : (d1.drop (pos + 10)).take N = (d2.drop (pos + 10)).take N := by
          apply drop_take_eq_of_getElem
          intro j hj
          apply hsame _ (by omega)
          have : (pos + 10 + j - pos) % (10 + N) = 10 + j := by
            rw [show pos + 10 + j - pos = 10 + j by omega]
            exact Nat.mod_eq_of_lt (by omega)
          omega
        rw [read_full d1 (pos + 10) N hf2, read_full d2 (pos + 10) N (hl2 ▸ hf2), hchunk]
        simp only [Bool.not_false, Bool.true_or, if_true, Bool.false_eq_true, if_false]
        cases hx : xorChunk P len ((d2.drop (pos + 10)).take N) p k with
        | badIndex => rfl
        | noFuel => rfl
        | ok x =>
          simp only [Run.bind]
          rw [ih d1 d2 (pos + 10 + N) x.2.1 x.2.2 hlen]
          intro i hi hmod
          apply hsame i (by omega)
          have : (i - pos) % (10 + N) = (i - (pos + 10 + N)) % (10 + N) := by
            rw [show i - pos = (i - (pos + 10 + N)) + (10 + N) by omega, Nat.add_mod_right]
          omega

theorem passwordCheckLoop_shape (salt digest : List Byte) (hs : salt.length = 8)
    (hd : digest.length = 8) :
    ∀ (answers : List (Byte × List Byte)) (rc : Byte) (pw : List Byte) (log : List Msg)
      (pos : Nat) (e f : Bool),
      (∃ l, ∀ t,
        passwordCheckLoop 10 answers rc ⟨BRANDING ++ salt ++ digest ++ t, pos, e, f⟩ pw log
        = .failed l) ∨
      (∀ t,
        passwordCheckLoop 10 answers rc ⟨BRANDING ++ salt ++ digest ++ t, pos, e, f⟩ pw log
        = .noFuel) ∨
      (∃ l pw1, pw1 ≠ [] ∧
        ∀ t,
          passwordCheckLoop 10 answers rc ⟨BRANDING ++ salt ++ digest ++ t, pos, e, f⟩ pw log
          = .granted l pw1 pw1.length 0
              ⟨BRANDING ++ salt ++ digest ++ t, 26, false, false⟩) := by
  intro answers
  induction answers with
  | nil =>
    intro rc pw log pos e f
    by_cases hpw : pw = []
    · by_cases hrc : rc = 121 ∨ rc = 89
      · right; left
        intro t
        rw [passwordCheckLoop_nil]
        simp only [checkPassword, hpw, if_true, hrc]
      · left
        refine ⟨log ++ [.decPasswordEmpty, .retryPrompt, .abortedByUser], fun t => ?_⟩
        rw [passwordCheckLoop_nil]
        simp only [checkPassword, hpw, if_true, hrc, if_false]
    · by_cases hh : simpleHash (pw ++ salt) = u64OfBytes digest
      · right; right
        refine ⟨log ++ [.passwordVerified], pw, hpw, fun t => ?_⟩
        rw [passwordCheckLoop_nil, checkPassword_eq salt digest t pw hpw hs hd, if_pos hh]
      · by_cases hrc : rc = 121 ∨ rc = 89
        · right; left
          intro t
          rw [passwordCheckLoop_nil, checkPassword_eq salt digest t pw hpw hs hd, if_neg hh]
          simp only [hrc, if_true]
        · left
          refine ⟨log ++ [.accessDenied, .retryPrompt, .abortedByUser], fun t => ?_⟩
          rw [passwordCheckLoop_nil, checkPassword_eq salt digest t pw hpw hs hd, if_neg hh]
          simp only [hrc, if_false]
  | cons a answers ih =>
    intro rc pw log pos e f
    obtain ⟨ch, line⟩ := a
    by_cases hpw : pw = []
    · by_cases hy : ch = 121 ∨ ch = 89
      · have hstep : ∀ t, passwordCheckLoop 10 ((ch, line) :: answers) rc
            ⟨BRANDING ++ salt ++ digest ++ t, pos, e, f⟩ pw log
            = passwordCheckLoop 10 answers ch ⟨BRANDING ++ salt ++ digest ++ t, pos, e, f⟩ line
                (log ++ [.decPasswordEmpty, .retryPrompt, .enterPasswordAgain]) := by
          intro t
          rw [passwordCheckLoop_cons]
          simp only [checkPassword, hpw, if_true]
          rw [if_pos hy]
        rcases ih ch line (log ++ [.decPasswordEmpty, .retryPrompt, .enterPasswordAgain]) pos e f
          with ⟨l, hl⟩ | hl | ⟨l, pw1, hne, hl⟩
        · exact Or.inl ⟨l, fun t => by rw [hstep, hl t]⟩
        · exact Or.inr (Or.inl fun t => by rw [hstep, hl t])
        · exact Or.inr (Or.inr ⟨l, pw1, hne, fun t => by rw [hstep, hl t]⟩)
      · left
        refine ⟨log ++ [.decPasswordEmpty, .retryPrompt, .abortedByUser], fun t => ?_⟩
        rw [passwordCheckLoop_cons]
        simp only [checkPassword, hpw, if_true]
        rw [if_neg hy]
    · by_cases hh : simpleHash (pw ++ salt) = u64OfBytes digest
      · right; right
        refine ⟨log ++ [.passwordVerified], pw, hpw, fun t => ?_⟩
        rw [passwordCheckLoop_cons, checkPassword_eq salt digest t pw hpw hs hd, if_pos hh]
      · by_cases hy : ch = 121 ∨ ch = 89
        · have hstep : ∀ t, passwordCheckLoop 10 ((ch, line) :: answers) rc
              ⟨BRANDING ++ salt ++ digest ++ t, pos, e, f⟩ pw log
              = passwordCheckLoop 10 answers ch
                  ⟨BRANDING ++ salt ++ digest ++ t, 26, false, false⟩ line
                  (log ++ [.accessDenied, .retryPrompt, .enterPasswordAgain]) := by
            intro t
            rw [passwordCheckLoop_cons, checkPassword_eq salt digest t pw hpw hs hd, if_neg hh]
            simp only
            rw [if_pos hy]
          rcases ih ch line (log ++ [.accessDenied, .retryPrompt, .enterPasswordAgain]) 26 false
            false with ⟨l, hl⟩ | hl | ⟨l, pw1, hne, hl⟩
          · exact Or.inl ⟨l, fun t => by rw [hstep, hl t]⟩
          · exact Or.inr (Or.inl fun t => by rw [hstep, hl t])
          · exact Or.inr (Or.inr ⟨l, pw1, hne, fun t => by rw [hstep, hl t]⟩)
        · left
          refine ⟨log ++ [.accessDenied, .retryPrompt, .abortedByUser], fun t => ?_⟩
          rw [passwordCheckLoop_cons, checkPassword_eq salt digest t pw hpw hs hd, if_neg hh]
          simp only
          rw [if_neg hy]

theorem passwordCheckLoop_short (rest : List Byte) (hr : rest.length < 16) :
    ∀ (answers : List (Byte × List Byte)) (rc : Byte) (pw : List Byte) (log : List Msg)
      (pos : Nat) (e f : Bool),
      (∃ l,
        passwordCheckLoop 10 answers rc ⟨BRANDING ++ rest, pos, e, f⟩ pw log = .failed l) ∨
      passwordCheckLoop 10 answers rc ⟨BRANDING ++ rest, pos, e, f⟩ pw log = .noFuel := by
  intro answers
  induction answers with
  | nil =>
    intro rc pw log pos e f
    by_cases hpw : pw = []
    · rw [passwordCheckLoop_nil]
      simp only [checkPassword, hpw, if_true]
      split
      · exact Or.inr rfl
      · exact Or.inl ⟨_, rfl⟩
    · exact Or.inl ⟨_, passwordCheckLoop_corrupted 10 _ _ _ pw log
        (checkPassword_short rest pw hpw hr pos e f)⟩
  | cons a answers ih =>
    intro rc pw log pos e f
    obtain ⟨ch, line⟩ := a
    by_cases hpw : pw = []
    · rw [passwordCheckLoop_cons]
      simp only [checkPassword, hpw, if_true]
      split
      · exact ih ch line _ pos e f
      · exact Or.inl ⟨_, rfl⟩
    · exact Or.inl ⟨_, passwordCheckLoop_corrupted 10 _ _ _ pw log
        (checkPassword_short rest pw hpw hr pos e f)⟩

theorem readExtension_step (indet : Nat → Byte) (P : List Byte) (len n : Nat) (s : IStream)
    (k : Nat) (r : List Byte × IStream × Nat)
    (h : readExtension indet P len (n + 1) s k = .ok r) :
    ∃ r1, readExtension indet P len n s.get.2 (incr64 k) = .ok r1 ∧ r.2.1 = r1.2.1 := by
  rw [readExtension] at h
  cases hk : keyChar P len k with
  | ok kc =>
    rw [hk] at h
    simp only [Run.bind] at h
    cases hr : readExtension indet P len n s.get.2 (incr64 k) with
    | ok r1 =>
      rw [hr] at h
      simp only [Run.ok.injEq] at h
      exact ⟨r1, rfl, by rw [← h]⟩
    | badIndex => rw [hr] at h; simp at h
    | noFuel => rw [hr] at h; simp at h
  | badIndex => rw [hk] at h; simp [Run.bind] at h
  | noFuel => rw [hk] at h; simp [Run.bind] at h

theorem readExtension_not_good (indet : Nat → Byte) (P : List Byte) (len : Nat) :
    ∀ (n : Nat) (s : IStream) (k : Nat) (r : List Byte × IStream × Nat),
      readExtension indet P len n s k = .ok r → s.good = false → r.2.1.good = false := by
  intro n
  induction n with
  | zero =>
    intro s k r h hg
    simp only [readExtension, Run.ok.injEq] at h
    rw [← h]
    exact hg
  | succ n ih =>
    intro s k r h hg
    obtain ⟨r1, hr1, heq⟩ := readExtension_step indet P len n s k r h
    rw [heq]
    apply ih _ _ _ hr1
    have hget : s.get = (none, { s with failbit := true }) := by
      simp only [IStream.get, hg, Bool.false_eq_true, if_false]
    rw [hget]
    simp only [IStream.good, Bool.not_true, Bool.and_false]

theorem readExtension_short (indet : Nat → Byte) (P : List Byte) (len : Nat)
    (data : List Byte) :
    ∀ (n pos k : Nat) (r : List Byte × IStream × Nat),
      (data.drop pos).length < n →
      readExtension indet P len n ⟨data, pos, false, false⟩ k = .ok r →
      r.2.1.good = false := by
  intro n
  induction n with
  | zero => intro pos k r h _; omega
  | succ n ih =>
    intro pos k r hlt h
    obtain ⟨r1, hr1, heq⟩ := readExtension_step indet P len n _ k r h
    rw [heq]
    cases hd : data.drop pos with
    | nil =>
      apply readExtension_not_good indet P len n _ _ _ hr1
      have hnone : data[pos]? = none := by
        have := List.getElem?_drop data pos 0
        rw [hd] at this
        simpa using this.symm
      simp [IStream.get, IStream.good, hnone]
    | cons c rest =>
      rw [get_some data pos c rest hd] at hr1
      apply ih (pos + 1) _ _ _ hr1
      rw [drop_succ_of_drop data pos c rest hd]
      rw [hd] at hlt
      simp only [List.length_cons] at hlt
      omega

theorem get_none (data : List Byte) (pos : Nat) (h : data.length ≤ pos) :
    IStream.get ⟨data, pos, false, false⟩ = (none, ⟨data, pos, true, true⟩) := by
  have h1 : data[pos]? = none := List.getElem?_eq_none h
  simp [IStream.get, IStream.good, h1]

theorem afterCreate_mk (name out : List Byte) (kept : Nat) (d : List Byte) (pos : Nat)
    (e f : Bool) :
    afterCreate name out kept ⟨d, pos, e, f⟩
      = ⟨if out = name then d.take (pos + kept) else d, pos, e, f⟩ := by
  unfold afterCreate IStream.emptied
  split <;> rfl

/-- The decrypt branch after the password check, on a stream whose length byte and extension
field are present: what remains is the body loop. -/
theorem decryptAfterCheck_body (n : Nat) (w : World) (name : List Byte) (l : List Msg)
    (pw : List Byte) (hpw : pw ≠ []) (hdr X body : List Byte) (b : Byte)
    (hh : hdr.length = 26) (hX : X.length = (bxor b (K pw 0)).val) :
    decryptAfterCheck n w name l pw pw.length 0 ⟨hdr ++ b :: (X ++ body), 26, false, false⟩
      = if !w.canCreate then
          .ok ⟨false, l ++ [.restoredExtension (cipherExt pw X 1), .couldNotCreateOutput],
            none, 0⟩
        else
          (decryptBody n pw pw.length
              ((afterCreate name (removeExtension name ++ cipherExt pw X 1) w.buffered
                ⟨hdr ++ b :: (X ++ body), 27 + X.length, false, false⟩).data.length + 1)
              (afterCreate name (removeExtension name ++ cipherExt pw X 1) w.buffered
                ⟨hdr ++ b :: (X ++ body), 27 + X.length, false, false⟩)
              (((1 + X.length) % 2 ^ 64) % pw.length) ((1 + X.length) % 2 ^ 64)).bind fun out =>
          .ok ⟨true, l ++ [.restoredExtension (cipherExt pw X 1), .decrypting],
            some ⟨removeExtension name ++ cipherExt pw X 1, out⟩, 0⟩ := by
  have hlen : 0 < pw.length := List.length_pos.mpr hpw
  have hd26 : (hdr ++ b :: (X ++ body)).drop 26 = b :: (X ++ body) := List.drop_left' hh
  unfold decryptAfterCheck
  simp only [get_some _ 26 _ _ hd26, Option.getD_some, keyChar_ok pw hpw, Run.bind, incr64_zero]
  rw [show rollingKey (pwAt pw 0) 0 = K pw 0 from rfl, ← hX,
    readExtension_eq w.indet pw hpw _ X body 27 1 (by decide)
      (drop_succ_of_drop _ 26 _ _ hd26)]
  simp only [startIndex, Nat.ne_of_gt hlen, if_false, Run.bind]

theorem bodyStream_good (w : World) (c pw : List Byte) (s : IStream)
    (hb : bodyStream w c pw = some s) (hg : s.good = true) :
    ∃ (salt digest X body : List Byte) (l : List Msg) (pw1 : List Byte) (b : Byte),
      salt.length = 8 ∧ digest.length = 8 ∧ pw1 ≠ [] ∧
      c = BRANDING ++ salt ++ digest ++ b :: (X ++ body) ∧
      X.length = (bxor b (K pw1 0)).val ∧
      s = ⟨c, 27 + X.length, false, false⟩ ∧
      ∀ t, passwordCheckLoop 10 w.answers w.staleChoice
          ⟨BRANDING ++ salt ++ digest ++ t, 10, false, false⟩ pw []
          = .granted l pw1 pw1.length 0
            ⟨BRANDING ++ salt ++ digest ++ t, 26, false, false⟩ := by
  unfold bodyStream at hb
  simp only [IStream.ofContent] at hb
  -- the signature
  rcases Nat.lt_or_ge c.length 10 with h10 | h10
  · rw [read_short c 0 BRANDING.length (by simpa [BRANDING_length] using h10)] at hb
    simp at hb
  rw [read_full c 0 BRANDING.length (by simpa [BRANDING_length] using h10)] at hb
  simp only [Bool.false_eq_true, if_false, List.drop_zero, BRANDING_length, ne_eq, ite_not,
    IStream.tellg, Nat.zero_add] at hb
  by_cases hsig : c.take 10 = BRANDING
  swap
  · rw [if_neg hsig] at hb
    simp at hb
  rw [if_pos hsig] at hb
  obtain ⟨r, hr⟩ : ∃ r, c = BRANDING ++ r :=
    ⟨c.drop 10, by rw [← hsig, List.take_append_drop]⟩
  subst hr
  have hcast : ((10 : Nat) : Int) = 10 := rfl
  rw [hcast] at hb
  -- salt and digest are there
  rcases Nat.lt_or_ge r.length 16 with h16 | h16
  · rcases passwordCheckLoop_short r h16 w.answers w.staleChoice pw [] 10 false false with
      ⟨l, hl⟩ | hl
    · rw [hl] at hb
      simp at hb
    · rw [hl] at hb
      simp at hb
  have hsplit : r = r.take 8 ++ ((r.drop 8).take 8 ++ (r.drop 8).drop 8) := by
    rw [List.take_append_drop, List.take_append_drop]
  have hs : (r.take 8).length = 8 := by rw [List.length_take]; omega
  have hd : ((r.drop 8).take 8).length = 8 := by
    rw [List.length_take, List.length_drop]; omega
  generalize r.take 8 = salt at hs hsplit
  generalize (r.drop 8).take 8 = digest at hd hsplit
  generalize (r.drop 8).drop 8 = t at hsplit
  subst hsplit
  simp only [← List.append_assoc] at hb ⊢
  -- the password check loop
  rcases passwordCheckLoop_shape salt digest hs hd w.answers w.staleChoice pw [] 10 false
    false with ⟨l, hl⟩ | hl | ⟨l, pw1, hne, hl⟩
  · rw [hl t] at hb
    simp at hb
  · rw [hl t] at hb
    simp at hb
  rw [hl t] at hb
  simp only [keyChar_ok pw1 hne, incr64_zero] at hb
  have hh : (BRANDING ++ salt ++ digest).length = 26 := by
    simp only [List.length_append, BRANDING_length, hs, hd]
  have hd26 : (BRANDING ++ salt ++ digest ++ t).drop 26 = t := List.drop_left' hh
  -- the length byte
  cases t with
  | nil =>
    exfalso
    cases hr : readExtension w.indet pw1 pw1.length
        (bxor ((IStream.get ⟨BRANDING ++ salt ++ digest ++ [], 26, false, false⟩).1.getD
          (w.indet 0)) (rollingKey (pwAt pw1 0) 0)).val
        (IStream.get ⟨BRANDING ++ salt ++ digest ++ [], 26, false, false⟩).2 1 with
    | ok e =>
      rw [hr] at hb
      simp only [Option.some.injEq] at hb
      have hng := readExtension_not_good _ _ _ _ _ _ _ hr (by
        rw [get_none _ 26 (by simp only [List.append_nil, hh, Nat.le_refl])]
        rfl)
      rw [hb, hg] at hng
      simp at hng
    | badIndex => rw [hr] at hb; simp at hb
    | noFuel => rw [hr] at hb; simp at hb
  | cons b t1 =>
    rw [get_some _ 26 b t1 hd26] at hb
    simp only [Option.getD_some] at hb
    rw [show rollingKey (pwAt pw1 0) 0 = K pw1 0 from rfl] at hb
    have hd27 : (BRANDING ++ salt ++ digest ++ b :: t1).drop 27 = t1 :=
      drop_succ_of_drop _ 26 b t1 hd26
    -- the extension
    rcases Nat.lt_or_ge t1.length (bxor b (K pw1 0)).val with hshort | hfull
    · exfalso
      cases hr : readExtension w.indet pw1 pw1.length (bxor b (K pw1 0)).val
          ⟨BRANDING ++ salt ++ digest ++ b :: t1, 26 + 1, false, false⟩ 1 with
      | ok e =>
        rw [hr] at hb
        simp only [Option.some.injEq] at hb
        have hng := readExtension_short _ _ _ _ _ _ _ _ (by rw [hd27]; exact hshort) hr
        rw [hb, hg] at hng
        simp at hng
      | badIndex => rw [hr] at hb; simp at hb
      | noFuel => rw [hr] at hb; simp at hb
    · have hXl : (t1.take (bxor b (K pw1 0)).val).length = (bxor b (K pw1 0)).val := by
        rw [List.length_take]; omega
      have ht1 : t1 = t1.take (bxor b (K pw1 0)).val ++ t1.drop (bxor b (K pw1 0)).val :=
        (List.take_append_drop _ _).symm
      have hre := readExtension_eq w.indet pw1 hne (BRANDING ++ salt ++ digest ++ b :: t1)
        (t1.take (bxor b (K pw1 0)).val) (t1.drop (bxor b (K pw1 0)).val) 27 1 (by decide)
        (by rw [hd27]; exact ht1)
      rw [hXl] at hre
      rw [show 26 + 1 = 27 from rfl, hre] at hb
      simp only [Option.some.injEq] at hb
      refine ⟨salt, digest, t1.take (bxor b (K pw1 0)).val, t1.drop (bxor b (K pw1 0)).val,
        l, pw1, b, hs, hd, hne, by rw [← ht1], hXl, ?_, hl⟩
      rw [← hb, hXl]

theorem bodyStream_file (w : World) (f : Option (List Byte)) (c pw : List Byte) :
    bodyStream { w with file := f } c pw = bodyStream w c pw := rfl

theorem decryptBranch_file (n : Nat) (w : World) (f : Option (List Byte))
    (c name pw : List Byte) :
    decryptBranch n { w with file := f } c name pw = decryptBranch n w c name pw := rfl

theorem getElem?_take_eq (d1 d2 : List Byte) (m i : Nat) (h : d1[i]? = d2[i]?) :
    (d1.take m)[i]? = (d2.take m)[i]? := by
  rw [List.getElem?_take, List.getElem?_take, h]

/-- Two streams of one length that differ only in the 10-byte fields the body loop skips are
decoded alike. -/
theorem decryptBranch_tags (n : Nat) (w : World) (name pw c1 c2 : List Byte)
    (hlen : c1.length = c2.length)
    (hsame : ∀ i, c1[i]? ≠ c2[i]? →
      ∃ s, bodyStream w c1 pw = some s ∧ s.good = true ∧ tagPosition s.pos n i = true) :
    decryptBranch n w c1 name pw = decryptBranch n w c2 name pw := by
  by_cases h : ∃ s, bodyStream w c1 pw = some s ∧ s.good = true
  swap
  · have h12 : c1 = c2 := by
      apply List.ext_getElem?
      intro i
      by_contra hne
      obtain ⟨s, hs, hg, _⟩ := hsame i hne
      exact h ⟨s, hs, hg⟩
    rw [h12]
  obtain ⟨s, hs, hg⟩ := h
  obtain ⟨salt, digest, X, body, l, pw1, b, hsl, hdl, hne, hc, hX, hst, hloop⟩ :=
    bodyStream_good w c1 pw s hs hg
  have hag : ∀ i, ¬ (27 + X.length ≤ i ∧ (i - (27 + X.length)) % (10 + n) < 10) →
      c1[i]? = c2[i]? := by
    intro i hi
    by_contra hne2
    obtain ⟨s1, hs1, _, ht⟩ := hsame i hne2
    rw [hs] at hs1
    cases hs1
    rw [hst] at ht
    simp only [tagPosition, Bool.and_eq_true, decide_eq_true_eq] at ht
    exact hi ht
  have hh : (BRANDING ++ salt ++ digest).length = 26 := by
    simp only [List.length_append, BRANDING_length, hsl, hdl]
  have hpre : (c1.drop 0).take (27 + X.length) = (c2.drop 0).take (27 + X.length) :=
    drop_take_eq_of_getElem c1 c2 0 (27 + X.length) (by
      intro j hj
      rw [Nat.zero_add]
      exact hag j (by omega))
  simp only [List.drop_zero] at hpre
  have hc1t : c1.take (27 + X.length) = BRANDING ++ salt ++ digest ++ b :: X := by
    rw [hc, show BRANDING ++ salt ++ digest ++ b :: (X ++ body)
      = (BRANDING ++ salt ++ digest ++ b :: X) ++ body by simp only [List.append_assoc,
        List.cons_append]]
    exact List.take_left' (by
      simp only [List.length_append, List.length_cons, BRANDING_length, hsl, hdl]; omega)
  have hc2 : c2 = BRANDING ++ salt ++ digest ++ b :: (X ++ c2.drop (27 + X.length)) := by
    conv_lhs => rw [← List.take_append_drop (27 + X.length) c2, ← hpre, hc1t]
    simp only [List.append_assoc, List.cons_append]
  generalize c2.drop (27 + X.length) = body2 at hc2
  subst hc
  subst hc2
  have e1 : BRANDING ++ salt ++ digest ++ b :: (X ++ body)
      = BRANDING ++ (salt ++ digest ++ b :: (X ++ body)) := by
    simp only [List.append_assoc]
  have e2 : BRANDING ++ salt ++ digest ++ b :: (X ++ body2)
      = BRANDING ++ (salt ++ digest ++ b :: (X ++ body2)) := by
    simp only [List.append_assoc]
  rw [e1, e2, decryptBranch_signed, decryptBranch_signed, ← e1, ← e2, hloop, hloop]
  simp only []
  rw [decryptAfterCheck_body n w name l pw1 hne (BRANDING ++ salt ++ digest) X body b hh hX,
    decryptAfterCheck_body n w name l pw1 hne (BRANDING ++ salt ++ digest) X body2 b hh hX,
    afterCreate_mk, afterCreate_mk]
  simp only []
  by_cases hal : removeExtension name ++ cipherExt pw1 X 1 = name
  · simp only [hal, if_true]
    have hlen2 : ((BRANDING ++ salt ++ digest ++ b :: (X ++ body)).take
          (27 + X.length + w.buffered)).length
        = ((BRANDING ++ salt ++ digest ++ b :: (X ++ body2)).take
          (27 + X.length + w.buffered)).length := by
      rw [List.length_take, List.length_take, hlen]
    rw [hlen2, decryptBody_tags n pw1 pw1.length _ _ _ (27 + X.length) _ _ hlen2 (by
      intro i h1 h2
      exact getElem?_take_eq _ _ _ _ (hag i (by omega)))]
  · simp only [hal, if_false]
    have hfuel : (BRANDING ++ salt ++ digest ++ b :: (X ++ body)).length
        = (BRANDING ++ salt ++ digest ++ b :: (X ++ body2)).length := hlen
    rw [hfuel, decryptBody_tags n pw1 pw1.length _ _ _ (27 + X.length) _ _ hlen (by
      intro i h1 h2
      exact hag i (by omega))]

/-- The extension bytes by index, with the 64-bit key index as it wraps. -/
theorem cipherExt_getElem_mod (P : List Byte) (cs : List Byte) :
    ∀ (k j : Nat), k < 2 ^ 64 →
      (cipherExt P cs k)[j]? = cs[j]?.map fun c => bxor c (K P ((k + j) % 2 ^ 64)) := by
  induction cs with
  | nil => intro k j _; simp [cipherExt]
  | cons c cs ih =>
    intro k j hk
    cases j with
    | zero =>
      simp only [cipherExt, List.getElem?_cons_zero, Option.map_some', Nat.add_zero,
        Nat.mod_eq_of_lt hk]
    | succ j =>
      simp only [cipherExt, List.getElem?_cons_succ]
      rw [ih (incr64 k) j (incr64_lt k)]
      congr 1
      funext c
      congr 2
      unfold incr64
      rw [Nat.mod_add_mod]
      congr 1
      omega

/-- What the decrypt branch restores from the container `processFile` wrote for the file at
`p`, read at the path the encoder gave it: the output file is at `p`, and it holds the bytes
the encoder found in its input. -/
theorem decryptBranch_delivered (n : Nat) (w : World) (rand : Nat → Nat) (P B p : List Byte)
    (hn : 0 < n) (hP : P ≠ []) (hE : (getFileExtension p).length ≤ 255)
    (hc : w.canCreate = true) :
    decryptBranch n w
        (container n rand P (getFileExtension p) (delivered p (removeExtension p ++ EXTENSION) B))
        (removeExtension p ++ EXTENSION) P
      = .ok ⟨true, [.passwordVerified, .restoredExtension (getFileExtension p), .decrypting],
          some ⟨p, delivered p (removeExtension p ++ EXTENSION) B⟩, 0⟩ := by
  rw [decryptBranch_container n w rand P _ _ _ hn hP hE hc, removeExtension_extension,
    removeExtension_append_getFileExtension]
  intro h
  rw [removeExtension_extension, removeExtension_append_getFileExtension] at h
  exact delivered_of_eq _ _ _ h.symm

/-! ## The claims -/

set_option maxRecDepth 100000 in
/-- C1, the code at a failing input.  The file `a.NullYex` holds `hello`; it does not start
with the tag, so `main` has it encoded; the password is `p`.  The output file gets the name
of the input file and is created before the body is read: `processFile` returns `true` and
has written 35 bytes, the header and the extension field, with no body segment.  Decoding
those bytes with `p` restores the extension `.NullYex` and an empty body, not `hello`. -/
theorem C1_round_trip_lost_body :
    isEncryptedByNullyex (some hello) = false ∧
    (getFileExtension aliasPath).length ≤ 255 ∧
    removeExtension aliasPath ++ EXTENSION = aliasPath ∧
    returned (processFile { World.blank with file := some hello, canCreate := true }
      aliasPath [112] true) = some true ∧
    (written (processFile { World.blank with file := some hello, canCreate := true }
      aliasPath [112] true)).map List.length = some (26 + 1 + 8) ∧
    processFile { World.blank with
        file := written (processFile { World.blank with file := some hello, canCreate := true }
          aliasPath [112] true),
        canCreate := true } aliasPath [112] false
      = .ok ⟨true, [.passwordVerified, .restoredExtension EXTENSION, .decrypting],
          some ⟨aliasPath, []⟩, 0⟩ := by
  decide

/-- C2, as amended. For every body, every non-empty password `P` and every candidate `P2`
that is empty or whose salted digest differs from that of `P`, decoding the container encoded
with `P` using `P2` does not accept the candidate: whatever the console holds, a run that
returns has printed the empty-password error or the access-denied line first, followed by
the retry prompt; when the answer at the prompt declines, the run returns failure without
creating the output file; and when the console holds no answer, the run does what the
uninitialised `retryChoice` says: it never returns on `y` or `Y`, and returns failure
without creating the output file otherwise. -/
theorem C2_authentication_gate (wE wD : World) (path cpath P P2 B : List Byte) (hP : P ≠ [])
    (hP2 : P2 = [] ∨ simpleHash (P2 ++ generateSalt wE.rand 8)
      ≠ simpleHash (P ++ generateSalt wE.rand 8)) :
    ∃ c : List Byte,
      processFile { wE with file := some B, canCreate := true } path P true
        = .ok ⟨true, [.targetOutput (removeExtension path ++ EXTENSION), .encrypting],
            some ⟨removeExtension path ++ EXTENSION, c⟩, 8⟩ ∧
      (processFile { wD with file := some c } cpath P2 false = .noFuel ∨
        ∃ o t, processFile { wD with file := some c } cpath P2 false = .ok o ∧
          o.console
            = (if P2 = [] then .decPasswordEmpty else .accessDenied) :: .retryPrompt :: t) ∧
      (declines wD.answers = true →
        processFile { wD with file := some c } cpath P2 false
          = .ok ⟨false,
              [if P2 = [] then .decPasswordEmpty else .accessDenied, .retryPrompt,
                .abortedByUser], none, 0⟩) ∧
      (wD.answers = [] →
        processFile { wD with file := some c } cpath P2 false
          = if wD.staleChoice = 121 ∨ wD.staleChoice = 89 then .noFuel
            else .ok ⟨false,
              [if P2 = [] then .decPasswordEmpty else .accessDenied, .retryPrompt,
                .abortedByUser], none, 0⟩) :=
  rejected_candidate wE wD path cpath P P2 B hP hP2

/-- Witness of C2 as amended: the container of `hunter2` against the candidate `wrong`, with
the answer `n` at the retry prompt. -/
theorem C2_authentication_gate_witness :
    hunter2 ≠ [] ∧
    simpleHash (wrongPassword ++ generateSalt World.blank.rand 8)
      ≠ simpleHash (hunter2 ++ generateSalt World.blank.rand 8) ∧
    declines World.refusing.answers = true ∧
    ∃ c : List Byte,
      processFile { World.blank with file := some tenBytes, canCreate := true }
          dataPath hunter2 true
        = .ok ⟨true, [.targetOutput (removeExtension dataPath ++ EXTENSION), .encrypting],
            some ⟨removeExtension dataPath ++ EXTENSION, c⟩, 8⟩ ∧
      processFile { World.refusing with file := some c } (dataPath ++ EXTENSION)
          wrongPassword false
        = .ok ⟨false, [.accessDenied, .retryPrompt, .abortedByUser], none, 0⟩ := by
  obtain ⟨c, henc, -, hdecl, -⟩ :=
    C2_authentication_gate World.blank World.refusing dataPath (dataPath ++ EXTENSION)
      hunter2 wrongPassword tenBytes (by decide) (Or.inr (by decide))
  exact ⟨by decide, by decide, by decide, c, henc, hdecl (by decide)⟩

/-- Counterexample to C2 as stated: the passwords `xaa` and `xb@` differ but have the same
digest, so the container encoded with `xaa` is accepted with `xb@`, and three body bytes are
written. -/
theorem C2_counterexample :
    ([120, 98, 64] : List Byte) ≠ [120, 97, 97] ∧
    processFile { World.blank with file := some [1, 2, 3], canCreate := true }
        [100] [120, 97, 97] true
      = .ok ⟨true, [.targetOutput [100, 46, 78, 117, 108, 108, 89, 101, 120], .encrypting],
          some ⟨[100, 46, 78, 117, 108, 108, 89, 101, 120],
            [66, 121, 95, 78, 117, 108, 108, 89, 101, 120, 48, 48, 48, 48, 48, 48, 48, 48,
              191, 54, 193, 72, 236, 149, 234, 192, 120,
              66, 121, 95, 78, 117, 108, 108, 89, 101, 120, 99, 97, 120]⟩, 8⟩ ∧
    processFile { World.blank with
        file := some [66, 121, 95, 78, 117, 108, 108, 89, 101, 120, 48, 48, 48, 48, 48, 48, 48, 48,
              191, 54, 193, 72, 236, 149, 234, 192, 120,
              66, 121, 95, 78, 117, 108, 108, 89, 101, 120, 99, 97, 120],
        canCreate := true }
        [100, 46, 78, 117, 108, 108, 89, 101, 120] [120, 98, 64] false
      = .ok ⟨true, [.passwordVerified, .restoredExtension [], .decrypting],
          some ⟨[100], [0, 35, 3]⟩, 0⟩ := by
  decide

/-- C3, as amended. For every byte sequence, `simpleHash` returns the value obtained from
5381 by replacing, for each byte `c` in order, hash by `hash*33 + s(c)` modulo `2 ^ 64`, where
`s(c)` is the plain (signed) `char` widened to 64 bits: `c` below 128 and `2 ^ 64 - 256 + c`
from 128 on.  On sequences of bytes below 128 this is the reference definition as stated. -/
theorem C3_digest_definition (data : List Byte) :
    simpleHash data = data.foldl (fun hash c => (hash * 33 + charToU64 c) % 2 ^ 64) 5381 ∧
    ((∀ c ∈ data, c.val < 128) → simpleHash data = digestSpec data) := by
  refine ⟨simpleHash_eq_foldl data, fun h => ?_⟩
  rw [simpleHash_eq_foldl, digestSpec]
  apply foldl_congr_mem
  intro b a ha
  simp only [charToU64, h a ha, if_true]

/-- Witness of C3 as amended, on the bytes of `hunter2`. -/
theorem C3_digest_definition_witness :
    (∀ c ∈ ([104, 117, 110, 116, 101, 114, 50] : List Byte), c.val < 128) ∧
    simpleHash [104, 117, 110, 116, 101, 114, 50]
      = digestSpec [104, 117, 110, 116, 101, 114, 50] :=
  ⟨by simp; decide,
    (C3_digest_definition [104, 117, 110, 116, 101, 114, 50]).2 (by simp; decide)⟩

/-- Counterexample to C3 as stated: on the single byte `0x80` the code yields
`5381*33 - 128`, the reference definition `5381*33 + 128`. -/
theorem C3_counterexample :
    simpleHash [128] = 177445 ∧ digestSpec [128] = 177701 ∧
    simpleHash [128] ≠ digestSpec [128] := by
  decide

/-- C4. Keystream placement: for every non-empty password `P`, extension `E` of `n` bytes and
body `B` (of a size a 64-bit counter can hold), the encoder's length byte is `n XOR K(0)` as a
byte, the `j`-th extension byte is `E[j] XOR K(1+j)` and the ciphertext byte of body offset
`j` is `B[j] XOR K(1+n+j)`, with `K(i) = (P[i mod len(P)] + (i mod 256)) mod 256`; the body
ciphertext is cut into tagged segments, and the loop ends with `pIndex = keyIndex mod len(P)`
and `keyIndex = 1 + n + |B|`, the tags not counted. -/
theorem C4_keystream_placement (rand : Nat → Nat) (P E B : List Byte) (hP : P ≠ [])
    (hsize : 1 + E.length + B.length < 2 ^ 64) :
    ∃ (lenByte : Byte) (ext body : List Byte),
      encryptStream BUFFER_SIZE rand E B P
        = .ok (BRANDING ++ generateSalt rand 8
              ++ u64Bytes (simpleHash (P ++ generateSalt rand 8))
              ++ [lenByte] ++ ext ++ segments BUFFER_SIZE body,
            (1 + E.length + B.length) % P.length, 1 + E.length + B.length) ∧
      lenByte.val = (E.length ^^^ (K P 0).val) % 256 ∧
      (E.length ≤ 255 → lenByte.val = E.length ^^^ (K P 0).val) ∧
      (∀ j, ext[j]? = E[j]?.map fun c => bxor c (K P (1 + j))) ∧
      (∀ j, body[j]? = B[j]?.map fun b => bxor b (K P (1 + E.length + j))) ∧
      (∀ i, P[i % P.length]? = some (pwAt P i) ∧
        (K P i).val = ((pwAt P i).val + i % 256) % 256) := by
  have hks : keyStart E = 1 + E.length := Nat.mod_eq_of_lt (by omega)
  have hlenval : (lengthByte P E).val = (E.length ^^^ (K P 0).val) % 256 := by
    rw [xor_mod_256 _ _ (K P 0).isLt]
    rfl
  refine ⟨lengthByte P E, cipherExt P E 1, cipherBody P E B, ?_, hlenval, ?_, ?_, ?_, ?_⟩
  · rw [encryptStream_eq BUFFER_SIZE rand P E B BUFFER_SIZE_pos hP, hks, Nat.mod_add_mod,
      Nat.mod_eq_of_lt hsize]
    rfl
  · intro hE
    rw [hlenval]
    apply Nat.mod_eq_of_lt
    have hk := (K P 0).isLt
    exact Nat.xor_lt_two_pow (n := 8) (by omega) hk
  · intro j
    exact cipherExt_getElem P E 1 j (by omega)
  · intro j
    rw [cipherBody, hks]
    exact cipher_getElem P B _ _ (1 + E.length) j (Nat.mod_lt _ (List.length_pos.mpr hP)) rfl rfl
  · intro i
    exact ⟨pwAt_getElem P hP i, K_val P i⟩

/-- Witness of C4: password `hunter2`, extension `.txt`, the 10 bytes `0x00..0x09`. -/
theorem C4_keystream_placement_witness :
    ([104, 117, 110, 116, 101, 114, 50] : List Byte) ≠ [] ∧
    1 + ([46, 116, 120, 116] : List Byte).length
      + ([0, 1, 2, 3, 4, 5, 6, 7, 8, 9] : List Byte).length < 2 ^ 64 ∧
    ∃ (lenByte : Byte) (ext body : List Byte),
      encryptStream BUFFER_SIZE World.blank.rand [46, 116, 120, 116]
          [0, 1, 2, 3, 4, 5, 6, 7, 8, 9] [104, 117, 110, 116, 101, 114, 50]
        = .ok (BRANDING ++ generateSalt World.blank.rand 8
              ++ u64Bytes (simpleHash ([104, 117, 110, 116, 101, 114, 50]
                ++ generateSalt World.blank.rand 8))
              ++ [lenByte] ++ ext ++ segments BUFFER_SIZE body,
            (1 + ([46, 116, 120, 116] : List Byte).length
              + ([0, 1, 2, 3, 4, 5, 6, 7, 8, 9] : List Byte).length)
              % ([104, 117, 110, 116, 101, 114, 50] : List Byte).length,
            1 + ([46, 116, 120, 116] : List Byte).length
              + ([0, 1, 2, 3, 4, 5, 6, 7, 8, 9] : List Byte).length) ∧
      lenByte.val = (([46, 116, 120, 116] : List Byte).length
        ^^^ (K [104, 117, 110, 116, 101, 114, 50] 0).val) % 256 ∧
      (([46, 116, 120, 116] : List Byte).length ≤ 255 →
        lenByte.val = ([46, 116, 120, 116] : List Byte).length
          ^^^ (K [104, 117, 110, 116, 101, 114, 50] 0).val) ∧
      (∀ j, ext[j]? = ([46, 116, 120, 116] : List Byte)[j]?.map
        fun c => bxor c (K [104, 117, 110, 116, 101, 114, 50] (1 + j))) ∧
      (∀ j, body[j]? = ([0, 1, 2, 3, 4, 5, 6, 7, 8, 9] : List Byte)[j]?.map
        fun b => bxor b (K [104, 117, 110, 116, 101, 114, 50]
          (1 + ([46, 116, 120, 116] : List Byte).length + j))) ∧
      (∀ i, ([104, 117, 110, 116, 101, 114, 50] : List Byte)[i
          % ([104, 117, 110, 116, 101, 114, 50] : List Byte).length]?
            = some (pwAt [104, 117, 110, 116, 101, 114, 50] i) ∧
        (K [104, 117, 110, 116, 101, 114, 50] i).val
          = ((pwAt [104, 117, 110, 116, 101, 114, 50] i).val + i % 256) % 256) :=
  ⟨by decide, by decide,
    C4_keystream_placement World.blank.rand [104, 117, 110, 116, 101, 114, 50]
      [46, 116, 120, 116] [0, 1, 2, 3, 4, 5, 6, 7, 8, 9] (by decide) (by decide)⟩

/-- C5. Container layout: for every non-empty password `P`, salt drawn by `generateSalt(8)`,
extension `E` and body `B` delivered by the input stream, the bytes the encoder writes
(lines 121-185) are the 10-byte tag, the 8 salt bytes, the 8 raw bytes of
`simpleHash(P ++ S)`, one obfuscated length byte (`(unsigned char)|E|` XOR-ed with the rolling
key of index 0), `|E|` obfuscated extension bytes (byte `j` XOR-ed with the rolling key of
index `1 + j`), and then, for each consecutive chunk of `BUFFER_SIZE` bytes of the body
ciphertext (the last one possibly shorter), the unmodified tag followed by that chunk; there
are `ceil(|B| / BUFFER_SIZE)` segments, and none for an empty body. -/
theorem C5_container_layout (rand : Nat → Nat) (P E B : List Byte) (hP : P ≠ []) :
    ∃ (S digest : List Byte) (lenByte : Byte) (ext cipherText : List Byte)
      (pIndex keyIndex : Nat),
      encryptStream BUFFER_SIZE rand E B P
        = .ok (BRANDING ++ S ++ digest ++ [lenByte] ++ ext
            ++ ((chunks BUFFER_SIZE cipherText).map fun c => BRANDING ++ c).flatten,
          pIndex, keyIndex) ∧
      BRANDING = [66, 121, 95, 78, 117, 108, 108, 89, 101, 120] ∧
      S = generateSalt rand 8 ∧ S.length = 8 ∧
      digest = u64Bytes (simpleHash (P ++ S)) ∧ digest.length = 8 ∧
      u64OfBytes digest = simpleHash (P ++ S) ∧
      lenByte = bxor (toChar E.length) (K P 0) ∧
      ext.length = E.length ∧
      (∀ j, ext[j]? = E[j]?.map fun c => bxor c (K P ((1 + j) % 2 ^ 64))) ∧
      cipherText.length = B.length ∧
      (∀ j, cipherText[j]? = B[j]?.map fun b => bxor b (K P (keyStart E + j))) ∧
      (chunks BUFFER_SIZE cipherText).length = (B.length + BUFFER_SIZE - 1) / BUFFER_SIZE ∧
      (B.length ≤ (chunks BUFFER_SIZE cipherText).length * BUFFER_SIZE ∧
        (chunks BUFFER_SIZE cipherText).length * BUFFER_SIZE < B.length + BUFFER_SIZE) ∧
      (∀ i, i < (chunks BUFFER_SIZE cipherText).length →
        (chunks BUFFER_SIZE cipherText)[i]?
          = some ((cipherText.drop (i * BUFFER_SIZE)).take BUFFER_SIZE)) ∧
      (B = [] → ((chunks BUFFER_SIZE cipherText).map fun c => BRANDING ++ c).flatten = []) := by
  have hlen : (cipherBody P E B).length = B.length := by
    rw [cipherBody, cipher_length]
  refine ⟨generateSalt rand 8, u64Bytes (simpleHash (P ++ generateSalt rand 8)),
    lengthByte P E, cipherExt P E 1, cipherBody P E B, _, _,
    encryptStream_eq BUFFER_SIZE rand P E B BUFFER_SIZE_pos hP, rfl, rfl,
    generateSalt_length _, rfl, u64Bytes_length _, u64OfBytes_u64Bytes _ (simpleHash_lt _),
    rfl, cipherExt_length _ _ _, ?_, hlen, ?_, ?_, ?_, ?_, ?_⟩
  · intro j
    exact cipherExt_getElem_mod P E 1 j (by decide)
  · intro j
    exact cipher_getElem P B _ _ (keyStart E) j
      (Nat.mod_lt _ (List.length_pos.mpr hP)) rfl rfl
  · rw [chunks_length, hlen]
    rfl
  · rw [chunks_length, hlen]
    exact segmentCount_bounds BUFFER_SIZE B.length BUFFER_SIZE_pos
  · intro i hi
    rw [chunks_length] at hi
    exact chunks_getElem _ _ i hi
  · intro hB
    subst hB
    exact segments_nil BUFFER_SIZE

/-- Witness of C5: the scenario of the specification, password `hunter2`, the 10 bytes
`0x00..0x09`, with the extension `.txt`. -/
theorem C5_container_layout_witness :
    hunter2 ≠ [] ∧
    ∃ (S digest : List Byte) (lenByte : Byte) (ext cipherText : List Byte)
      (pIndex keyIndex : Nat),
      encryptStream BUFFER_SIZE World.blank.rand [46, 116, 120, 116] tenBytes hunter2
        = .ok (BRANDING ++ S ++ digest ++ [lenByte] ++ ext
            ++ ((chunks BUFFER_SIZE cipherText).map fun c => BRANDING ++ c).flatten,
          pIndex, keyIndex) ∧
      BRANDING = [66, 121, 95, 78, 117, 108, 108, 89, 101, 120] ∧
      S = generateSalt World.blank.rand 8 ∧ S.length = 8 ∧
      digest = u64Bytes (simpleHash (hunter2 ++ S)) ∧ digest.length = 8 ∧
      u64OfBytes digest = simpleHash (hunter2 ++ S) ∧
      lenByte = bxor (toChar ([46, 116, 120, 116] : List Byte).length) (K hunter2 0) ∧
      ext.length = ([46, 116, 120, 116] : List Byte).length ∧
      (∀ j, ext[j]? = ([46, 116, 120, 116] : List Byte)[j]?.map fun c =>
        bxor c (K hunter2 ((1 + j) % 2 ^ 64))) ∧
      cipherText.length = tenBytes.length ∧
      (∀ j, cipherText[j]? = tenBytes[j]?.map fun b =>
        bxor b (K hunter2 (keyStart [46, 116, 120, 116] + j))) ∧
      (chunks BUFFER_SIZE cipherText).length
        = (tenBytes.length + BUFFER_SIZE - 1) / BUFFER_SIZE ∧
      (tenBytes.length ≤ (chunks BUFFER_SIZE cipherText).length * BUFFER_SIZE ∧
        (chunks BUFFER_SIZE cipherText).length * BUFFER_SIZE
          < tenBytes.length + BUFFER_SIZE) ∧
      (∀ i, i < (chunks BUFFER_SIZE cipherText).length →
        (chunks BUFFER_SIZE cipherText)[i]?
          = some ((cipherText.drop (i * BUFFER_SIZE)).take BUFFER_SIZE)) ∧
      (tenBytes = [] →
        ((chunks BUFFER_SIZE cipherText).map fun c => BRANDING ++ c).flatten = []) :=
  ⟨by decide,
    C5_container_layout World.blank.rand hunter2 [46, 116, 120, 116] tenBytes (by decide)⟩

/-- C6. Sole authentication check: for every non-empty candidate and every file that holds
the tag, 8 salt bytes and 8 digest bytes (and anything after them), whatever the console
answers and the rest of the world, `processFile` in decrypt mode accepts the candidate if
and only if `simpleHash(candidate ++ salt)` equals the stored digest. -/
theorem C6_sole_authentication_check (w : World) (cpath pw salt digest rest : List Byte)
    (hpw : pw ≠ []) (hs : salt.length = 8) (hd : digest.length = 8) :
    acceptsFirst
        (processFile { w with file := some (BRANDING ++ salt ++ digest ++ rest) } cpath pw false)
      = true
    ↔ simpleHash (pw ++ salt) = u64OfBytes digest :=
  acceptsFirst_iff w cpath pw salt digest rest hpw hs hd

/-- Witness of C6: the header the encoder writes for `hunter2` with the salt `00000000`. -/
theorem C6_sole_authentication_check_witness :
    ([104, 117, 110, 116, 101, 114, 50] : List Byte) ≠ [] ∧
    ([48, 48, 48, 48, 48, 48, 48, 48] : List Byte).length = 8 ∧
    ([205, 99, 241, 164, 154, 4, 196, 94] : List Byte).length = 8 ∧
    (acceptsFirst
        (processFile { World.blank with
            file := some (BRANDING ++ [48, 48, 48, 48, 48, 48, 48, 48]
              ++ [205, 99, 241, 164, 154, 4, 196, 94] ++ [104]) }
          [100, 97, 116, 97, 46, 78, 117, 108, 108, 89, 101, 120]
          [104, 117, 110, 116, 101, 114, 50] false)
      = true
    ↔ simpleHash ([104, 117, 110, 116, 101, 114, 50] ++ [48, 48, 48, 48, 48, 48, 48, 48])
        = u64OfBytes [205, 99, 241, 164, 154, 4, 196, 94]) :=
  ⟨by decide, by decide, by decide,
    C6_sole_authentication_check World.blank
      [100, 97, 116, 97, 46, 78, 117, 108, 108, 89, 101, 120]
      [104, 117, 110, 116, 101, 114, 50] [48, 48, 48, 48, 48, 48, 48, 48]
      [205, 99, 241, 164, 154, 4, 196, 94] [104] (by decide) (by decide) (by decide)⟩

set_option maxRecDepth 100000 in
/-- C7, the code at a failing input.  For the path `./aaa...a` (254 letters, extension of
256 bytes), password `p` and an empty body, the encoder writes 283 bytes: the 26 header
bytes, a length byte that de-obfuscates to 0, and 256 extension bytes.  Decoding that
container with the same password restores the empty extension and writes 246 bytes. -/
theorem C7_long_extension :
    (getFileExtension longExtPath).length = 256 ∧
    returned (processFile { World.blank with file := some [], canCreate := true }
      longExtPath [112] true) = some true ∧
    (written (processFile { World.blank with file := some [], canCreate := true }
      longExtPath [112] true)).map List.length = some (26 + 1 + 256) ∧
    ((written (processFile { World.blank with file := some [], canCreate := true }
      longExtPath [112] true)).bind fun out => out[26]?.map fun b => bxor b (K [112] 0))
        = some 0 ∧
    printed (processFile { World.blank with
        file := written (processFile { World.blank with file := some [], canCreate := true }
          longExtPath [112] true),
        canCreate := true } [46, 78, 117, 108, 108, 89, 101, 120] [112] false)
      = [.passwordVerified, .restoredExtension [], .decrypting] ∧
    (written (processFile { World.blank with
        file := written (processFile { World.blank with file := some [], canCreate := true }
          longExtPath [112] true),
        canCreate := true } [46, 78, 117, 108, 108, 89, 101, 120] [112] false)).map List.length
      = some 246 := by
  decide

/-- C8, the code at a failing input.  The stream holds the tag, a salt, the digest of `p`
with that salt, a length byte that de-obfuscates to 4 and only 2 further bytes.  Whatever
the rest of the world, decoding it with `p` prints no error, restores an extension of 4
chars, creates the output file and returns `true`. -/
theorem C8_truncated_extension_not_rejected (w : World) (name : List Byte) :
    truncatedContainer.length = 26 + 1 + 2 ∧
    (truncatedContainer[26]?.map fun b => bxor b (K [112] 0)) = some 4 ∧
    ∃ o ext,
      processFile { w with file := some truncatedContainer, canCreate := true } name [112] false
        = .ok o ∧
      o.ret = true ∧
      o.console = [.passwordVerified, .restoredExtension ext, .decrypting] ∧
      ext.length = 4 ∧
      o.output.isSome = true := by
  refine ⟨by decide, by decide, ?_⟩
  have htr : truncatedContainer
      = BRANDING ++ [48, 48, 48, 48, 48, 48, 48, 48]
        ++ u64Bytes (simpleHash ([112] ++ [48, 48, 48, 48, 48, 48, 48, 48]))
        ++ [116, 95, 6] := by decide
  have hchk := checkPassword_eq [48, 48, 48, 48, 48, 48, 48, 48]
    (u64Bytes (simpleHash ([112] ++ [48, 48, 48, 48, 48, 48, 48, 48]))) [116, 95, 6] [112]
    (by decide) rfl (u64Bytes_length _) 10 false false
  rw [u64OfBytes_u64Bytes _ (simpleHash_lt _), if_pos rfl, ← htr] at hchk
  obtain ⟨o, ext, ho, hret, hcons, hext, hout⟩ := decryptAfterCheck_ret BUFFER_SIZE
    { w with file := some truncatedContainer, canCreate := true } name [.passwordVerified]
    [112] (by decide) ⟨truncatedContainer, 26, false, false⟩
  refine ⟨o, ext, ?_, hret, by simpa using hcons, ?_, hout⟩
  · simp only [processFile, processFileWith, Bool.false_eq_true, if_false]
    have hsplit : truncatedContainer = BRANDING ++ truncatedContainer.drop 10 := by decide
    rw [hsplit, decryptBranch_signed, ← hsplit,
      passwordCheckLoop_accepted 10 _ _ _ _ [112] [] hchk]
    exact ho
  · rw [hext]
    have hget : (IStream.get ⟨truncatedContainer, 26, false, false⟩).1 = some 116 := by decide
    rw [hget, Option.getD_some]
    decide

/-- C9. Malformed header is rejected: `processFile` in decrypt mode returns `false` and
creates no output file whenever the input has fewer than 10 bytes (file too short), or
starts with 10 bytes other than the tag (invalid format), or, for a non-empty candidate
password, holds fewer than 16 bytes after the tag (file corrupted). -/
theorem C9_malformed_header_rejected (w : World) (name pw content : List Byte)
    (h : content.length < 10 ∨ content.take 10 ≠ BRANDING
      ∨ (pw ≠ [] ∧ content.length < 26)) :
    processFile { w with file := some content } name pw false
      = .ok ⟨false,
          [if content.length < 10 then .fileTooShort
            else if content.take 10 ≠ BRANDING then .invalidFormat else .fileCorrupted],
          none, 0⟩ := by
  simp only [processFile, processFileWith, Bool.false_eq_true, if_false]
  by_cases h1 : content.length < 10
  · rw [if_pos h1]
    unfold decryptBranch
    simp only [IStream.ofContent]
    rw [read_short _ _ _ (by simpa [BRANDING_length] using h1)]
    simp only [if_true]
  · rw [if_neg h1]
    by_cases h2 : content.take 10 ≠ BRANDING
    · rw [if_pos h2]
      unfold decryptBranch
      simp only [IStream.ofContent]
      rw [read_full _ _ _ (by simp only [List.drop_zero, BRANDING_length]; omega)]
      simp only [Bool.false_eq_true, if_false, List.drop_zero, BRANDING_length]
      rw [if_pos h2]
    · rw [if_neg h2]
      have h2e : content.take 10 = BRANDING := not_not.mp h2
      have h3 : pw ≠ [] ∧ content.length < 26 := by
        rcases h with h | h | h
        · exact absurd h h1
        · exact absurd h h2
        · exact h
      have hsplit : content = BRANDING ++ content.drop 10 := by
        rw [← h2e, List.take_append_drop]
      rw [hsplit]
      apply decryptBranch_failed
      exact passwordCheckLoop_corrupted 10 _ _ _ pw []
        (checkPassword_short _ pw h3.1 (by rw [List.length_drop]; omega) 10 false false)

/-- Witness of C9: the tag followed by a salt and nothing else, with the candidate
`hunter2`. -/
theorem C9_malformed_header_rejected_witness :
    ((BRANDING ++ [48, 48, 48, 48, 48, 48, 48, 48]).length < 10 ∨
      (BRANDING ++ [48, 48, 48, 48, 48, 48, 48, 48]).take 10 ≠ BRANDING ∨
      (([104, 117, 110, 116, 101, 114, 50] : List Byte) ≠ [] ∧
        (BRANDING ++ [48, 48, 48, 48, 48, 48, 48, 48]).length < 26)) ∧
    processFile { World.blank with file := some (BRANDING ++ [48, 48, 48, 48, 48, 48, 48, 48]) }
        [100] [104, 117, 110, 116, 101, 114, 50] false
      = .ok ⟨false,
          [if (BRANDING ++ [48, 48, 48, 48, 48, 48, 48, 48]).length < 10 then .fileTooShort
            else if (BRANDING ++ [48, 48, 48, 48, 48, 48, 48, 48]).take 10 ≠ BRANDING
              then .invalidFormat
            else .fileCorrupted],
          none, 0⟩ :=
  ⟨Or.inr (Or.inr ⟨by decide, by decide⟩),
    C9_malformed_header_rejected World.blank [100] [104, 117, 110, 116, 101, 114, 50]
      (BRANDING ++ [48, 48, 48, 48, 48, 48, 48, 48]) (Or.inr (Or.inr ⟨by decide, by decide⟩))⟩

/-- C10. Empty password on encode: for every input file that can be opened, `processFile`
in encrypt mode with an empty password returns `false` after printing the empty-password
error; no output file is created, so no byte of a container is written, and `rand()` has
not been called, so no salt has been generated. -/
theorem C10_empty_password_on_encode (w : World) (path content : List Byte) :
    processFile { w with file := some content } path [] true
      = .ok ⟨false, [.encPasswordEmpty], none, 0⟩ := by
  simp only [processFile, processFileWith, encryptBranch, if_true]

/-- C11. Segment tags are positional only: take any password, any script of retry
answers and any two input streams of one length that differ only at positions inside the
10-byte fields which the body loop of the decrypt branch skips before each chunk (the fields
of the body that the branch reaches on the first stream, counted from where its body starts).
Then `processFile` in decrypt mode gives the same result on both: the same return value, the
same console lines (so the same acceptance and the same restored extension) and the same
output file. -/
theorem C11_tags_positional (w : World) (name pw c1 c2 : List Byte)
    (hlen : c1.length = c2.length)
    (hsame : ∀ i, c1[i]? ≠ c2[i]? →
      ∃ s, bodyStream w c1 pw = some s ∧ s.good = true ∧
        tagPosition s.pos BUFFER_SIZE i = true) :
    processFile { w with file := some c1 } name pw false
      = processFile { w with file := some c2 } name pw false := by
  simp only [processFile, processFileWith, Bool.false_eq_true, if_false]
  rw [decryptBranch_file, decryptBranch_file]
  exact decryptBranch_tags BUFFER_SIZE w name pw c1 c2 hlen hsame

set_option maxRecDepth 100000 in
/-- Witness of C11: the streams `taggedStream` and `retaggedStream`, which differ in the ten
positions 27..36 of the only segment field, decoded with `hunter2`. -/
theorem C11_tags_positional_witness :
    taggedStream.length = retaggedStream.length ∧
    bodyStream { World.blank with canCreate := true } taggedStream hunter2
      = some ⟨taggedStream, 27, false, false⟩ ∧
    processFile { { World.blank with canCreate := true } with file := some taggedStream }
        (dataPath ++ EXTENSION) hunter2 false
      = processFile { { World.blank with canCreate := true } with file := some retaggedStream }
        (dataPath ++ EXTENSION) hunter2 false ∧
    processFile { { World.blank with canCreate := true } with file := some retaggedStream }
        (dataPath ++ EXTENSION) hunter2 false
      = .ok ⟨true, [.passwordVerified, .restoredExtension [], .decrypting],
          some ⟨dataPath, [0]⟩, 0⟩ :=
  ⟨by decide, by decide,
    C11_tags_positional { World.blank with canCreate := true } (dataPath ++ EXTENSION) hunter2
      taggedStream retaggedStream (by decide) (by
        intro i hne
        refine ⟨⟨taggedStream, 27, false, false⟩, by decide, by decide, ?_⟩
        have hi : 27 ≤ i ∧ i < 37 := by
          by_contra hcon
          apply hne
          rcases Nat.lt_or_ge i 27 with h1 | h1
          · interval_cases i <;> decide
          · rcases Nat.lt_or_ge i 38 with h2 | h2
            · have h3 : i = 37 := by omega
              subst h3
              decide
            · rw [List.getElem?_eq_none (by
                  have hl : taggedStream.length = 38 := by decide
                  omega),
                List.getElem?_eq_none (by
                  have hl : retaggedStream.length = 38 := by decide
                  omega)]
        obtain ⟨h1, h2⟩ := hi
        interval_cases i <;> decide),
    by decide⟩

/-- C12, as amended. Chunk size: for every body `B`, non-empty password `P`, path with an
extension of at most 255 bytes and positive chunk sizes `c1` and `c2`, where no output file
takes the place of its input file, the container encoded with `c1` decodes to `B` when read
with `c1`, and the container encoded with `c2` decodes to `B` when read with `c2`; a decoder
reading with the other chunk size recovers `B` when `B` fits in one chunk of either size. -/
theorem C12_chunk_size (wE wD : World) (path cpath P B : List Byte) (c1 c2 : Nat)
    (hP : P ≠ []) (hext : (getFileExtension path).length ≤ 255) (h1 : 0 < c1) (h2 : 0 < c2)
    (hpath : removeExtension path ++ EXTENSION ≠ path)
    (hcpath : removeExtension cpath ++ getFileExtension path ≠ cpath) :
    ∃ k1 k2 : List Byte,
      processFileWith c1 { wE with file := some B, canCreate := true } path P true
        = .ok ⟨true, [.targetOutput (removeExtension path ++ EXTENSION), .encrypting],
            some ⟨removeExtension path ++ EXTENSION, k1⟩, 8⟩ ∧
      processFileWith c2 { wE with file := some B, canCreate := true } path P true
        = .ok ⟨true, [.targetOutput (removeExtension path ++ EXTENSION), .encrypting],
            some ⟨removeExtension path ++ EXTENSION, k2⟩, 8⟩ ∧
      processFileWith c1 { wD with file := some k1, canCreate := true } cpath P false
        = .ok ⟨true,
            [.passwordVerified, .restoredExtension (getFileExtension path), .decrypting],
            some ⟨removeExtension cpath ++ getFileExtension path, B⟩, 0⟩ ∧
      processFileWith c2 { wD with file := some k2, canCreate := true } cpath P false
        = .ok ⟨true,
            [.passwordVerified, .restoredExtension (getFileExtension path), .decrypting],
            some ⟨removeExtension cpath ++ getFileExtension path, B⟩, 0⟩ ∧
      (B.length ≤ c1 → B.length ≤ c2 →
        processFileWith c2 { wD with file := some k1, canCreate := true } cpath P false
          = .ok ⟨true,
              [.passwordVerified, .restoredExtension (getFileExtension path), .decrypting],
              some ⟨removeExtension cpath ++ getFileExtension path, B⟩, 0⟩ ∧
        processFileWith c1 { wD with file := some k2, canCreate := true } cpath P false
          = .ok ⟨true,
              [.passwordVerified, .restoredExtension (getFileExtension path), .decrypting],
              some ⟨removeExtension cpath ++ getFileExtension path, B⟩, 0⟩) := by
  obtain ⟨e1, d1⟩ := processFileWith_round_trip c1 wE wD path cpath P B h1 hP hext hpath hcpath
  obtain ⟨e2, d2⟩ := processFileWith_round_trip c2 wE wD path cpath P B h2 hP hext hpath hcpath
  refine ⟨container c1 wE.rand P (getFileExtension path) B,
    container c2 wE.rand P (getFileExtension path) B, e1, e2, d1, d2, ?_⟩
  intro hb1 hb2
  constructor
  · rw [container_fit c1 c2 wE.rand P _ B h1 h2 hb1 hb2]
    exact d2
  · rw [← container_fit c1 c2 wE.rand P _ B h1 h2 hb1 hb2]
    exact d1

/-- Witness of C12 as amended: the scenario of the specification with the chunk sizes 4
and 16. -/
theorem C12_chunk_size_witness :
    hunter2 ≠ [] ∧ (getFileExtension dataPath).length ≤ 255 ∧ 0 < 4 ∧ 0 < 16 ∧
    removeExtension dataPath ++ EXTENSION ≠ dataPath ∧
    removeExtension (dataPath ++ EXTENSION) ++ getFileExtension dataPath
      ≠ dataPath ++ EXTENSION ∧
    ∃ k1 k2 : List Byte,
      processFileWith 4 { World.blank with file := some tenBytes, canCreate := true }
          dataPath hunter2 true
        = .ok ⟨true, [.targetOutput (removeExtension dataPath ++ EXTENSION), .encrypting],
            some ⟨removeExtension dataPath ++ EXTENSION, k1⟩, 8⟩ ∧
      processFileWith 16 { World.blank with file := some tenBytes, canCreate := true }
          dataPath hunter2 true
        = .ok ⟨true, [.targetOutput (removeExtension dataPath ++ EXTENSION), .encrypting],
            some ⟨removeExtension dataPath ++ EXTENSION, k2⟩, 8⟩ ∧
      processFileWith 4 { World.blank with file := some k1, canCreate := true }
          (dataPath ++ EXTENSION) hunter2 false
        = .ok ⟨true,
            [.passwordVerified, .restoredExtension (getFileExtension dataPath), .decrypting],
            some ⟨removeExtension (dataPath ++ EXTENSION) ++ getFileExtension dataPath,
              tenBytes⟩, 0⟩ ∧
      processFileWith 16 { World.blank with file := some k2, canCreate := true }
          (dataPath ++ EXTENSION) hunter2 false
        = .ok ⟨true,
            [.passwordVerified, .restoredExtension (getFileExtension dataPath), .decrypting],
            some ⟨removeExtension (dataPath ++ EXTENSION) ++ getFileExtension dataPath,
              tenBytes⟩, 0⟩ := by
  obtain ⟨k1, k2, e1, e2, d1, d2, -⟩ :=
    C12_chunk_size World.blank World.blank dataPath (dataPath ++ EXTENSION) hunter2 tenBytes
      4 16 (by decide) (by decide) (by decide) (by decide) (by decide) (by decide)
  exact ⟨by decide, by decide, by decide, by decide, by decide, by decide,
    k1, k2, e1, e2, d1, d2⟩

set_option maxRecDepth 100000 in
/-- Counterexample to C12 as stated: the body `1, 2, 3` under the password `p`.  The
container laid out with the chunk size 2 holds two segments; it is what the encrypt branch
writes when it reads 2 bytes at a time.  `processFile`, whose decrypt branch reads with its
chunk size `BUFFER_SIZE`, skips the first tag and takes all that follows as one chunk: it
writes 13 bytes, the second tag among them, and not `1, 2, 3`. -/
theorem C12_counterexample :
    written (processFileWith 2 { World.blank with file := some [1, 2, 3], canCreate := true }
      [100] [112] true) = some twoChunkContainer ∧
    processFile { World.blank with file := some twoChunkContainer, canCreate := true }
        containerPath [112] false
      = .ok ⟨true, [.passwordVerified, .restoredExtension [], .decrypting],
          some ⟨[100], [1, 2, 49, 13, 42, 56, 2, 20, 21, 35, 30, 4, 13]⟩, 0⟩ := by
  decide

/-- C13. The concrete wrong-password scenario: for the container encoded from the 10 bytes
`0x00..0x09` with the password `hunter2` (any path, so with or without extension) and for
every salt `generateSalt(8)` may have drawn, decoding with the password `wrong` is rejected:
the digest of `wrong` differs from that of `hunter2` under every salt; a run that returns
has printed the access-denied line first; when the answer at the retry prompt declines, the
run returns `false` and creates no output file; and with no answer on the console it does
what the uninitialised `retryChoice` says: it never returns on `y` or `Y`, and returns
`false` without an output file otherwise. -/
theorem C13_wrong_password_scenario (wE wD : World) (path cpath : List Byte) :
    (∀ S : List Byte, simpleHash (wrongPassword ++ S) ≠ simpleHash (hunter2 ++ S)) ∧
    ∃ c : List Byte,
      processFile { wE with file := some tenBytes, canCreate := true } path hunter2 true
        = .ok ⟨true, [.targetOutput (removeExtension path ++ EXTENSION), .encrypting],
            some ⟨removeExtension path ++ EXTENSION, c⟩, 8⟩ ∧
      (processFile { wD with file := some c } cpath wrongPassword false = .noFuel ∨
        ∃ o t, processFile { wD with file := some c } cpath wrongPassword false = .ok o ∧
          o.console = .accessDenied :: .retryPrompt :: t) ∧
      (declines wD.answers = true →
        processFile { wD with file := some c } cpath wrongPassword false
          = .ok ⟨false, [.accessDenied, .retryPrompt, .abortedByUser], none, 0⟩) ∧
      (wD.answers = [] →
        processFile { wD with file := some c } cpath wrongPassword false
          = if wD.staleChoice = 121 ∨ wD.staleChoice = 89 then .noFuel
            else .ok ⟨false, [.accessDenied, .retryPrompt, .abortedByUser], none, 0⟩) := by
  have hne : ∀ S : List Byte, simpleHash (wrongPassword ++ S) ≠ simpleHash (hunter2 ++ S) := by
    intro S h
    have h1 := (simpleHash_append_iff wrongPassword hunter2 S).mp h
    revert h1
    decide
  have hw : wrongPassword ≠ [] := by decide
  obtain ⟨c, henc, hfirst, hdecl, hdry⟩ := rejected_candidate wE wD path cpath hunter2
    wrongPassword tenBytes (by decide) (Or.inr (hne _))
  rw [if_neg hw] at hfirst hdecl hdry
  exact ⟨hne, c, henc, hfirst, hdecl, hdry⟩

/-- Witness of C13: the answer `n` at the retry prompt, the path `data`. -/
theorem C13_wrong_password_scenario_witness :
    declines World.refusing.answers = true ∧
    ∃ c : List Byte,
      processFile { World.blank with file := some tenBytes, canCreate := true }
          dataPath hunter2 true
        = .ok ⟨true, [.targetOutput (removeExtension dataPath ++ EXTENSION), .encrypting],
            some ⟨removeExtension dataPath ++ EXTENSION, c⟩, 8⟩ ∧
      processFile { World.refusing with file := some c } (dataPath ++ EXTENSION)
          wrongPassword false
        = .ok ⟨false, [.accessDenied, .retryPrompt, .abortedByUser], none, 0⟩ := by
  obtain ⟨-, c, henc, -, hdecl, -⟩ :=
    C13_wrong_password_scenario World.blank World.refusing dataPath (dataPath ++ EXTENSION)
  exact ⟨by decide, c, henc, hdecl (by decide)⟩

/-- C14. Mode detection: for every file content, `isEncryptedByNullyex` returns `true`
exactly when the content has at least 10 bytes and its first 10 bytes are the tag
`By_NullYex`; and whenever `processFile` in encrypt mode returns `true`, it has written an
output file that is detected as encrypted. -/
theorem C14_mode_detection (content : List Byte) (w : World) (path pw : List Byte)
    (o : Outcome) :
    (isEncryptedByNullyex (some content) = true
      ↔ 10 ≤ content.length ∧
        content.take 10 = [66, 121, 95, 78, 117, 108, 108, 89, 101, 120]) ∧
    (processFile w path pw true = .ok o → o.ret = true →
      ∃ f, o.output = some f ∧ isEncryptedByNullyex (some f.bytes) = true) := by
  refine ⟨isEncryptedByNullyex_iff content, ?_⟩
  intro h hret
  unfold processFile processFileWith at h
  cases hf : w.file with
  | none =>
    rw [hf] at h
    simp only [Run.ok.injEq] at h
    rw [← h] at hret
    simp at hret
  | some c =>
    rw [hf] at h
    simp only [if_true] at h
    obtain ⟨o1, ho1, hout⟩ := encryptBranch_returns BUFFER_SIZE BUFFER_SIZE_pos w c path pw
    rw [ho1] at h
    simp only [Run.ok.injEq] at h
    subst h
    exact ⟨_, hout hret, container_detected _ _ _ _ _⟩

/-- Witness of C14: the container of the specification's scenario. -/
theorem C14_mode_detection_witness :
    ∃ o, processFile { World.blank with file := some tenBytes, canCreate := true }
        dataPath hunter2 true = .ok o ∧ o.ret = true ∧
      ∃ f, o.output = some f ∧ isEncryptedByNullyex (some f.bytes) = true :=
  ⟨⟨true, [.targetOutput (removeExtension dataPath ++ EXTENSION), .encrypting],
      some ⟨removeExtension dataPath ++ EXTENSION,
        container BUFFER_SIZE World.blank.rand hunter2 (getFileExtension dataPath) tenBytes⟩,
      8⟩,
    by decide, rfl,
    (C14_mode_detection [] { World.blank with file := some tenBytes, canCreate := true }
      dataPath hunter2 _).2 (by decide) rfl⟩

/-- C15. Retry leaves no trace: on every stream that holds the tag, a salt and a digest, for
every rejected first candidate and every finite sequence of retries with rejected candidates
(empty ones included), each asked for with `y` or `Y`, followed by a retry with an accepted
candidate `P`, the password check loop is left with `password = P`, `keyIndex = 0` and the
stream at position 26, which is 16 bytes after the anchor, exactly as when `P` is the first
candidate (an empty candidate is turned away without a read of the stream); and
`processFile` returns the same value and writes the same output file (same restored
extension, same body), its console being the lines of the rejections followed by the console
of the run with `P` as first candidate. -/
theorem C15_retry_leaves_no_trace (w : World) (name salt digest rest P c0 : List Byte)
    (script more other : List (Byte × List Byte)) (ch : Byte)
    (hs : salt.length = 8) (hd : digest.length = 8) (hP : P ≠ [])
    (hacc : simpleHash (P ++ salt) = u64OfBytes digest) (hch : saysYes ch)
    (h0 : rejectedBy salt digest c0)
    (hscript : ∀ a ∈ script, saysYes a.1 ∧ rejectedBy salt digest a.2) :
    (∀ s : IStream, checkPassword s 10 [] = .emptyPassword) ∧
    ∃ (lines : List Msg) (o : Outcome),
      passwordCheckLoop 10 (script ++ (ch, P) :: more) w.staleChoice
          ⟨BRANDING ++ salt ++ digest ++ rest, 10, false, false⟩ c0 []
        = .granted (lines ++ [.passwordVerified]) P P.length 0
            ⟨BRANDING ++ salt ++ digest ++ rest, 26, false, false⟩ ∧
      passwordCheckLoop 10 other w.staleChoice
          ⟨BRANDING ++ salt ++ digest ++ rest, 10, false, false⟩ P []
        = .granted [.passwordVerified] P P.length 0
            ⟨BRANDING ++ salt ++ digest ++ rest, 26, false, false⟩ ∧
      processFile { w with file := some (BRANDING ++ salt ++ digest ++ rest), answers := other }
          name P false = .ok o ∧
      processFile { w with file := some (BRANDING ++ salt ++ digest ++ rest),
                           answers := script ++ (ch, P) :: more }
          name c0 false = .ok { o with console := lines ++ o.console } := by
  obtain ⟨lines, hl⟩ := passwordCheckLoop_retry salt digest rest P ch more hs hd hP hacc hch
    script w.staleChoice c0 [] 10 false false h0 hscript
  rw [List.nil_append] at hl
  have hfirst : passwordCheckLoop 10 other w.staleChoice
      ⟨BRANDING ++ salt ++ digest ++ rest, 10, false, false⟩ P []
        = .granted [.passwordVerified] P P.length 0
            ⟨BRANDING ++ salt ++ digest ++ rest, 26, false, false⟩ := by
    apply passwordCheckLoop_accepted
    rw [checkPassword_eq salt digest rest P hP hs hd, if_pos hacc]
  obtain ⟨o0, -, ho0, -⟩ := decryptAfterCheck_total BUFFER_SIZE
    { w with file := some (BRANDING ++ salt ++ digest ++ rest), answers := other } name [] P hP
    ⟨BRANDING ++ salt ++ digest ++ rest, 26, false, false⟩
  refine ⟨fun s => by simp only [checkPassword, if_true],
    lines, { o0 with console := [.passwordVerified] ++ o0.console }, hl, hfirst, ?_, ?_⟩
  · simp only [processFile, processFileWith, Bool.false_eq_true, if_false]
    rw [List.append_assoc, List.append_assoc, decryptBranch_signed]
    simp only [← List.append_assoc]
    rw [hfirst]
    simp only
    rw [decryptAfterCheck_console, ho0]
    rfl
  · simp only [processFile, processFileWith, Bool.false_eq_true, if_false]
    rw [List.append_assoc, List.append_assoc, decryptBranch_signed]
    simp only [← List.append_assoc]
    rw [hl]
    simp only
    rw [decryptAfterCheck_console,
      decryptAfterCheck_world BUFFER_SIZE
        { w with file := some (BRANDING ++ salt ++ digest ++ rest),
                 answers := script ++ (ch, P) :: more }
        { w with file := some (BRANDING ++ salt ++ digest ++ rest), answers := other }
        name [] P P.length 0 _ rfl rfl rfl, ho0]
    simp only [Run.bind, List.append_assoc]

/-- Witness of C15: the header of `hunter2` with the salt `00000000` and no extension; the
candidate `wrong`, then a retry with the empty candidate, then a retry with `hunter2`. -/
theorem C15_retry_leaves_no_trace_witness :
    zeroSalt.length = 8 ∧ hunter2Digest.length = 8 ∧ hunter2 ≠ [] ∧
    simpleHash (hunter2 ++ zeroSalt) = u64OfBytes hunter2Digest ∧ saysYes 89 ∧
    rejectedBy zeroSalt hunter2Digest wrongPassword ∧
    (∀ a ∈ [((121 : Byte), ([] : List Byte))],
      saysYes a.1 ∧ rejectedBy zeroSalt hunter2Digest a.2) ∧
    (∀ s : IStream, checkPassword s 10 [] = .emptyPassword) ∧
    ∃ (lines : List Msg) (o : Outcome),
      passwordCheckLoop 10 ([(121, [])] ++ (89, hunter2) :: []) World.blank.staleChoice
          ⟨BRANDING ++ zeroSalt ++ hunter2Digest ++ [104], 10, false, false⟩ wrongPassword []
        = .granted (lines ++ [.passwordVerified]) hunter2 hunter2.length 0
            ⟨BRANDING ++ zeroSalt ++ hunter2Digest ++ [104], 26, false, false⟩ ∧
      passwordCheckLoop 10 [] World.blank.staleChoice
          ⟨BRANDING ++ zeroSalt ++ hunter2Digest ++ [104], 10, false, false⟩ hunter2 []
        = .granted [.passwordVerified] hunter2 hunter2.length 0
            ⟨BRANDING ++ zeroSalt ++ hunter2Digest ++ [104], 26, false, false⟩ ∧
      processFile { World.blank with
            file := some (BRANDING ++ zeroSalt ++ hunter2Digest ++ [104]), answers := [] }
          (dataPath ++ EXTENSION) hunter2 false = .ok o ∧
      processFile { World.blank with
            file := some (BRANDING ++ zeroSalt ++ hunter2Digest ++ [104]),
            answers := [(121, [])] ++ (89, hunter2) :: [] }
          (dataPath ++ EXTENSION) wrongPassword false
        = .ok { o with console := lines ++ o.console } :=
  ⟨by decide, by decide, by decide, by decide, Or.inr rfl, Or.inr (by decide),
    (by
      intro a ha
      rw [List.mem_singleton] at ha
      subst ha
      exact ⟨Or.inl rfl, Or.inl rfl⟩),
    C15_retry_leaves_no_trace World.blank (dataPath ++ EXTENSION) zeroSalt hunter2Digest [104]
      hunter2 wrongPassword [(121, [])] [] [] 89 (by decide) (by decide) (by decide) (by decide)
      (Or.inr rfl) (Or.inr (by decide))
      (by
        intro a ha
        rw [List.mem_singleton] at ha
        subst ha
        exact ⟨Or.inl rfl, Or.inl rfl⟩)⟩

/-- C16. No division by zero and no out-of-range password index: in either mode, for every
password, input and world, `processFile` never ends in `badIndex`, the result of reducing the
key index modulo a zero password length or of indexing the password at or beyond its length.
It returns an outcome, unless the password check loop of the decrypt branch is never left;
that loop, which neither reduces the key index nor indexes the password, is left for the
rest of the branch only with a non-empty password, `passwordLength` its length and
`keyIndex = 0`, on whatever fuel.  The three places where the source reduces or indexes
signal `badIndex` exactly in those cases. -/
theorem C16_no_bad_index (w : World) (name pw : List Byte) (mode : Bool) :
    processFile w name pw mode ≠ .badIndex ∧
    ((∃ o, processFile w name pw mode = .ok o) ∨
      (mode = false ∧ processFile w name pw mode = .noFuel)) ∧
    (∀ (fuel : Nat) (a : Int) (answers : List (Byte × List Byte)) (rc : Byte) (s : IStream)
      (cand : List Byte) (log c : List Msg) (pw1 : List Byte) (len k : Nat) (s1 : IStream),
      passwordCheckPasses a fuel answers rc s cand log = .granted c pw1 len k s1 →
      pw1 ≠ [] ∧ len = pw1.length ∧ k = 0) ∧
    (∀ (P : List Byte) (len k : Nat),
      keyChar P len k = .badIndex ↔ (len = 0 ∨ P.length ≤ k % len)) ∧
    (∀ (len k : Nat), startIndex len k = .badIndex ↔ len = 0) ∧
    (∀ (P : List Byte) (p : Nat), passwordAt P p = .badIndex ↔ P.length ≤ p) := by
  refine ⟨?_, ?_, ?_, ?_, ?_, ?_⟩
  · rcases processFile_returns w name pw mode with ⟨-, h⟩ | ⟨o, h⟩ <;> rw [h] <;> simp
  · rcases processFile_returns w name pw mode with h | h
    · exact Or.inr h
    · exact Or.inl h
  · intro fuel
    induction fuel with
    | zero =>
      intro a answers rc s cand log c pw1 len k s1 h
      simp [passwordCheckPasses] at h
    | succ fuel ih =>
      intro a answers rc s cand log c pw1 len k s1 h
      rw [passwordCheckPasses] at h
      cases hc : checkPassword s a cand with
      | accepted s2 =>
        rw [hc] at h
        simp only [Auth.granted.injEq] at h
        obtain ⟨-, h2, h3, h4, -⟩ := h
        subst h2
        exact ⟨checkPassword_accepted_ne s s2 a cand hc, h3.symm, h4.symm⟩
      | corrupted => rw [hc] at h; simp at h
      | denied s2 =>
        rw [hc] at h
        simp only at h
        split at h
        · exact ih _ _ _ _ _ _ _ _ _ _ _ h
        · simp at h
      | emptyPassword =>
        rw [hc] at h
        simp only at h
        split at h
        · exact ih _ _ _ _ _ _ _ _ _ _ _ h
        · simp at h
  · intro P len k
    unfold keyChar
    by_cases hl : len = 0
    · simp [hl]
    · simp only [hl, if_false, false_or]
      cases hg : P[k % len]? with
      | none => simpa using List.getElem?_eq_none_iff.mp hg
      | some c =>
        simp only [reduceCtorEq, false_iff, Nat.not_le]
        exact (List.getElem?_eq_some_iff.mp hg).1
  · intro len k
    unfold startIndex
    by_cases hl : len = 0 <;> simp [hl]
  · intro P p
    unfold passwordAt
    cases hg : P[p]? with
    | none => simpa using List.getElem?_eq_none_iff.mp hg
    | some c =>
      simp only [reduceCtorEq, false_iff, Nat.not_le]
      exact (List.getElem?_eq_some_iff.mp hg).1

/-- C17, the code at a failing input.  With the password `ab` the rolling key bytes at the
key indices 1 and 2 are both 99: `'b' + 1 = 'a' + 2`.  The body loop, entered at key index 1
for a file without extension, transforms the two bytes `0, 0` into `99, 99`, and these are
the last two bytes `processFile` writes. -/
theorem C17_rolling_key_repeats :
    K [97, 98] 1 = 99 ∧ K [97, 98] 2 = 99 ∧
    keyChar [97, 98] 2 1 = .ok 98 ∧ rollingKey 98 1 = 99 ∧
    keyChar [97, 98] 2 2 = .ok 97 ∧ rollingKey 97 2 = 99 ∧
    xorChunk [97, 98] 2 [0, 0] 1 1 = .ok ([99, 99], 1, 3) ∧
    (written (processFile { World.blank with file := some [0, 0], canCreate := true }
      [100] [97, 98] true)).map (fun out => out.drop (out.length - 2)) = some [99, 99] := by
  decide

/-- C18, as amended. The salt does not change which passwords are accepted: for all byte
strings `P1`, `P2` and every salt `S`, `simpleHash(P1 ++ S) = simpleHash(P2 ++ S)` if and
only if `simpleHash(P1) = simpleHash(P2)`; hence a non-empty candidate is accepted by the
decoder, on the container of a non-empty password `P` and whatever salt was drawn, exactly
when its unsalted digest equals that of `P`. -/
theorem C18_salt_independence (wE wD : World) (path cpath P P1 P2 S B : List Byte)
    (hP : P ≠ []) (hP2 : P2 ≠ []) :
    (simpleHash (P1 ++ S) = simpleHash (P2 ++ S) ↔ simpleHash P1 = simpleHash P2) ∧
    ∃ c : List Byte,
      processFile { wE with file := some B, canCreate := true } path P true
        = .ok ⟨true, [.targetOutput (removeExtension path ++ EXTENSION), .encrypting],
            some ⟨removeExtension path ++ EXTENSION, c⟩, 8⟩ ∧
      (acceptsFirst (processFile { wD with file := some c } cpath P2 false) = true
        ↔ simpleHash P2 = simpleHash P) := by
  refine ⟨simpleHash_append_iff P1 P2 S,
    container BUFFER_SIZE wE.rand P (getFileExtension path)
      (delivered path (removeExtension path ++ EXTENSION) B), ?_, ?_⟩
  · simp only [processFile, processFileWith, if_true]
    exact encryptBranch_eq BUFFER_SIZE _ B path P BUFFER_SIZE_pos hP rfl
  · rw [container_split,
      acceptsFirst_iff wD cpath P2 (generateSalt wE.rand 8)
        (u64Bytes (simpleHash (P ++ generateSalt wE.rand 8))) _ hP2 (generateSalt_length _)
        (u64Bytes_length _),
      u64OfBytes_u64Bytes _ (simpleHash_lt _)]
    exact simpleHash_append_iff P2 P _

/-- Witness of C18 as amended: the password `xaa` and the candidate `xb@`. -/
theorem C18_salt_independence_witness :
    ([120, 97, 97] : List Byte) ≠ [] ∧ ([120, 98, 64] : List Byte) ≠ [] ∧
    (simpleHash ([120, 97, 97] ++ [48, 49]) = simpleHash ([120, 98, 64] ++ [48, 49])
      ↔ simpleHash [120, 97, 97] = simpleHash [120, 98, 64]) ∧
    ∃ c : List Byte,
      processFile { World.blank with file := some tenBytes, canCreate := true }
          dataPath [120, 97, 97] true
        = .ok ⟨true, [.targetOutput (removeExtension dataPath ++ EXTENSION), .encrypting],
            some ⟨removeExtension dataPath ++ EXTENSION, c⟩, 8⟩ ∧
      (acceptsFirst (processFile { World.blank with file := some c } (dataPath ++ EXTENSION)
          [120, 98, 64] false) = true
        ↔ simpleHash [120, 98, 64] = simpleHash [120, 97, 97]) :=
  ⟨by decide, by decide,
    C18_salt_independence World.blank World.blank dataPath (dataPath ++ EXTENSION) [120, 97, 97]
      [120, 97, 97] [120, 98, 64] [48, 49] tenBytes (by decide) (by decide)⟩

/-- Counterexample to C18 as stated: the empty candidate differs from the password
`PVQFYD]VT?HPH` and has the same digest, unsalted and salted, yet the decoder does not
accept it: an empty candidate is turned away before any digest is computed. -/
theorem C18_counterexample :
    ([] : List Byte) ≠ seedPassword ∧
    simpleHash [] = simpleHash seedPassword ∧
    simpleHash ([] ++ generateSalt World.blank.rand 8)
      = simpleHash (seedPassword ++ generateSalt World.blank.rand 8) ∧
    returned (processFile { World.blank with file := some tenBytes, canCreate := true }
      dataPath seedPassword true) = some true ∧
    seedContainer.isSome = true ∧
    acceptsFirst (processFile { World.blank with file := seedContainer, canCreate := true }
      (dataPath ++ EXTENSION) [] false) = false ∧
    processFile { World.blank with file := seedContainer, canCreate := true }
        (dataPath ++ EXTENSION) [] false
      = .ok ⟨false, [.decPasswordEmpty, .retryPrompt, .abortedByUser], none, 0⟩ := by
  decide

/-- C19. The original path is restored: for every path `p`,
`removeExtension(p) ++ getFileExtension(p) = p` and
`removeExtension(removeExtension(p) ++ ".NullYex") = removeExtension(p)`; hence, when the
extension of `p` has at most 255 bytes, encoding the file at `p` with a non-empty password
writes to `removeExtension(p) ++ ".NullYex"`, and decoding the container at that path with
the same password writes its output to exactly `p`.  The output holds the body of the input
when the container has another name than the input, and nothing when it has the same. -/
theorem C19_original_path_restored (wE wD : World) (p P B : List Byte) (hP : P ≠ [])
    (hext : (getFileExtension p).length ≤ 255) :
    removeExtension p ++ getFileExtension p = p ∧
    removeExtension (removeExtension p ++ [46, 78, 117, 108, 108, 89, 101, 120])
      = removeExtension p ∧
    ∃ c body : List Byte,
      processFile { wE with file := some B, canCreate := true } p P true
        = .ok ⟨true, [.targetOutput (removeExtension p ++ EXTENSION), .encrypting],
            some ⟨removeExtension p ++ EXTENSION, c⟩, 8⟩ ∧
      processFile { wD with file := some c, canCreate := true }
          (removeExtension p ++ EXTENSION) P false
        = .ok ⟨true, [.passwordVerified, .restoredExtension (getFileExtension p), .decrypting],
            some ⟨p, body⟩, 0⟩ ∧
      (removeExtension p ++ EXTENSION ≠ p → body = B) ∧
      (removeExtension p ++ EXTENSION = p → body = []) := by
  refine ⟨removeExtension_append_getFileExtension p, removeExtension_extension _,
    container BUFFER_SIZE wE.rand P (getFileExtension p)
      (delivered p (removeExtension p ++ EXTENSION) B),
    delivered p (removeExtension p ++ EXTENSION) B, ?_, ?_,
    fun h => delivered_of_ne _ _ _ h, fun h => delivered_of_eq _ _ _ h⟩
  · simp only [processFile, processFileWith, if_true]
    exact encryptBranch_eq BUFFER_SIZE _ B p P BUFFER_SIZE_pos hP rfl
  · simp only [processFile, processFileWith, Bool.false_eq_true, if_false]
    exact decryptBranch_delivered BUFFER_SIZE _ wE.rand P B p BUFFER_SIZE_pos hP hext rfl

/-- Witness of C19: the path `photo.v2.png`, password `hunter2`, the 10 bytes `0x00..0x09`. -/
theorem C19_original_path_restored_witness :
    hunter2 ≠ [] ∧
    (getFileExtension [112, 104, 111, 116, 111, 46, 118, 50, 46, 112, 110, 103]).length ≤ 255 ∧
    removeExtension [112, 104, 111, 116, 111, 46, 118, 50, 46, 112, 110, 103] ++ EXTENSION
      ≠ [112, 104, 111, 116, 111, 46, 118, 50, 46, 112, 110, 103] ∧
    ∃ c : List Byte,
      processFile { World.blank with file := some tenBytes, canCreate := true }
          [112, 104, 111, 116, 111, 46, 118, 50, 46, 112, 110, 103] hunter2 true
        = .ok ⟨true,
            [.targetOutput
              (removeExtension [112, 104, 111, 116, 111, 46, 118, 50, 46, 112, 110, 103]
                ++ EXTENSION), .encrypting],
            some ⟨removeExtension [112, 104, 111, 116, 111, 46, 118, 50, 46, 112, 110, 103]
              ++ EXTENSION, c⟩, 8⟩ ∧
      processFile { World.blank with file := some c, canCreate := true }
          (removeExtension [112, 104, 111, 116, 111, 46, 118, 50, 46, 112, 110, 103]
            ++ EXTENSION) hunter2 false
        = .ok ⟨true,
            [.passwordVerified,
              .restoredExtension
                (getFileExtension [112, 104, 111, 116, 111, 46, 118, 50, 46, 112, 110, 103]),
              .decrypting],
            some ⟨[112, 104, 111, 116, 111, 46, 118, 50, 46, 112, 110, 103], tenBytes⟩,
            0⟩ := by
  obtain ⟨-, -, c, body, henc, hdec, hne, -⟩ :=
    C19_original_path_restored World.blank World.blank
      [112, 104, 111, 116, 111, 46, 118, 50, 46, 112, 110, 103] hunter2 tenBytes
      (by decide) (by decide)
  have hb : body = tenBytes := hne (by decide)
  subst hb
  exact ⟨by decide, by decide, by decide, c, henc, hdec⟩

/-- C20. The keystream is periodic: for every non-empty password `P` and every key index
`i`, the rolling key byte at index `i + lcm(len(P), 256)` is the one at index `i`, the byte
`rollingKey` forms from `password[i % passwordLength]`; and in the bytes the encoder writes
(lines 121-185) for a body `B`, the body bytes at the offsets `j` and
`j + lcm(len(P), 256)` are XOR-ed with the same key byte. -/
theorem C20_keystream_periodic (rand : Nat → Nat) (P E B : List Byte) (hP : P ≠ [])
    (i : Nat) :
    K P (i + Nat.lcm P.length 256) = K P i ∧
    (keyChar P P.length i).bind (fun c => .ok (rollingKey c i)) = .ok (K P i) ∧
    ∃ (header cipherText : List Byte) (pIndex keyIndex : Nat),
      encryptStream BUFFER_SIZE rand E B P
        = .ok (header ++ segments BUFFER_SIZE cipherText, pIndex, keyIndex) ∧
      header.length = 10 + 8 + 8 + 1 + E.length ∧
      ∀ j, cipherText[j]? = B[j]?.map (fun b => bxor b (K P (keyStart E + j))) ∧
        cipherText[j + Nat.lcm P.length 256]? = B[j + Nat.lcm P.length 256]?.map (fun b =>
            bxor b (K P (keyStart E + j))) := by
  have hper : ∀ i, K P (i + Nat.lcm P.length 256) = K P i := fun i =>
    K_add_period P i _ (Nat.dvd_lcm_left _ _) (Nat.dvd_lcm_right _ _)
  have hget : ∀ j, (cipherBody P E B)[j]? = B[j]?.map (fun b =>
      bxor b (K P (keyStart E + j))) := fun j =>
    cipher_getElem P B _ _ (keyStart E) j (Nat.mod_lt _ (List.length_pos.mpr hP)) rfl rfl
  refine ⟨hper i, ?_, BRANDING ++ generateSalt rand 8
      ++ u64Bytes (simpleHash (P ++ generateSalt rand 8))
      ++ [lengthByte P E] ++ cipherExt P E 1,
    cipherBody P E B, _, _, encryptStream_eq BUFFER_SIZE rand P E B BUFFER_SIZE_pos hP, ?_, ?_⟩
  · rw [keyChar_ok P hP]
    rfl
  · simp only [List.length_append, BRANDING_length, generateSalt_length, u64Bytes_length,
      List.length_singleton, cipherExt_length]
  · intro j
    refine ⟨hget j, ?_⟩
    rw [hget, ← Nat.add_assoc, hper]

/-- Witness of C20: the scenario of the specification at key index 3. -/
theorem C20_keystream_periodic_witness :
    hunter2 ≠ [] ∧
    K hunter2 (3 + Nat.lcm hunter2.length 256) = K hunter2 3 ∧
    (keyChar hunter2 hunter2.length 3).bind (fun c => .ok (rollingKey c 3))
      = .ok (K hunter2 3) ∧
    ∃ (header cipherText : List Byte) (pIndex keyIndex : Nat),
      encryptStream BUFFER_SIZE World.blank.rand [] tenBytes hunter2
        = .ok (header ++ segments BUFFER_SIZE cipherText, pIndex, keyIndex) ∧
      header.length = 10 + 8 + 8 + 1 + ([] : List Byte).length ∧
      ∀ j, cipherText[j]? = tenBytes[j]?.map (fun b =>
            bxor b (K hunter2 (keyStart [] + j))) ∧
        cipherText[j + Nat.lcm hunter2.length 256]?
          = tenBytes[j + Nat.lcm hunter2.length 256]?.map (fun b =>
            bxor b (K hunter2 (keyStart [] + j))) :=
  ⟨by decide, C20_keystream_periodic World.blank.rand hunter2 [] tenBytes (by decide) 3⟩

end NXCrypt
